import Mathlib

/-!
Verification of the value-object field system of
`exercise-misbehaving-application` (`src/api/value_object/fields.py` and
`src/api/value_object/base.py`).

The development is a shallow embedding: Python values that can appear as
field values are modelled by the inductive type `Val`; Python dicts by the
insertion-ordered association list `ValDict`; field declarations by `Field`
(mirroring the classes `Primitive`, `Bytes`, `Date`, `Datetime`, `Decimal`,
`Collection`, `ValueObject` of `fields.py`); a value-object type's declared
fields (`ValueObjectMeta.fields`) by `FieldList`.  Operations that can raise
in Python return `Option` (`Option.none` models an exception).
-/

set_option maxHeartbeats 1000000

namespace VO

/-- Visibility configuration of a field: the Python `public` attribute is
either a `bool` or (for `Collection` / `ValueObject` fields) a set of keys
(`set(public) if isinstance(public, Container) else bool(public)`). -/
inductive Pub where
  | flag (b : Bool)
  | keys (ks : List String)
deriving DecidableEq, Repr

mutual
/-- A field declaration, one constructor per field class of `fields.py`.
Every constructor carries the resolved dict `key` (the metaclass assigns
`field.key = attr` when no key is given) and the `public` setting.

Note: `Bytes` in the source has a configurable `encoding`; the tests and the
spec only ever use the default `'utf-8'`, which is what the embedding
models. -/
inductive Field where
  | primitive (key : String) (pub : Pub)
  | bytes (key : String) (pub : Pub)
  | date (key : String) (pub : Pub)
  | datetime (key : String) (pub : Pub)
  | dec (key : String) (pub : Pub)
  | coll (sub : Field) (key : String) (pub : Pub)
  | vo (fl : FieldList) (key : String) (pub : Pub)
deriving DecidableEq, Repr

/-- The declared fields of a value-object type: an ordered mapping from
attribute name to field declaration (`ValueObjectMeta.fields`). -/
inductive FieldList where
  | nil
  | cons (name : String) (f : Field) (rest : FieldList)
deriving DecidableEq, Repr
end

mutual
/-- A Python value as stored in / passed through the value-object layer.
`none` is Python `None`; `bytes` is a byte string (list of byte values);
`date`/`datetime` mirror `datetime.date` / `datetime.datetime` (the
`utc` flag records whether `tzinfo=pytz.utc` is attached, `micro` the
microsecond component); `dec n c e` is `decimal.Decimal` with sign `n`,
coefficient `c` and exponent `e` (Python's sign/digits/exponent triple);
`dict` is a `dict`; `vobj` is a `BaseValueObject` instance, identified with
its `_values` mapping (attribute name to value). -/
inductive Val where
  | none
  | int (n : Int)
  | str (s : String)
  | bytes (bs : List Nat)
  | date (y m d : Nat)
  | datetime (y m d h mi s micro : Nat) (utc : Bool)
  | dec (neg : Bool) (c : Nat) (e : Int)
  | dict (es : ValDict)
  | vobj (vs : ValDict)
deriving DecidableEq, Repr

/-- An insertion-ordered association list modelling a Python `dict`. -/
inductive ValDict where
  | nil
  | cons (k : String) (v : Val) (rest : ValDict)
deriving DecidableEq, Repr
end

namespace ValDict

/-- `d.get(k)` (`Option.none` when the key is absent). -/
def lookup : ValDict → String → Option Val
  | .nil, _ => Option.none
  | .cons k v r, k' => if k' = k then some v else lookup r k'

/-- `k in d`. -/
def hasKey (d : ValDict) (k : String) : Bool := (d.lookup k).isSome

/-- `list(d.keys())` (a dict built by `setKey` never has duplicates, so each
key is listed once, in insertion order). -/
def keysList : ValDict → List String
  | .nil => []
  | .cons k _ r => k :: keysList r

/-- `d[k] = v`: overwrite the value at an existing key in place, otherwise
append the new entry (CPython dict insertion-order semantics). -/
def setKey : ValDict → String → Val → ValDict
  | .nil, k, v => .cons k v .nil
  | .cons k' v' r, k, v =>
    if k = k' then .cons k' v r else .cons k' v' (setKey r k v)

/-- `d.update(pairs)`: assign each pair in order. -/
def updatePairs : ValDict → List (String × Val) → ValDict
  | d, [] => d
  | d, (k, v) :: ps => updatePairs (d.setKey k v) ps

/-- A dict built from a list of pairs (a Python dict comprehension). -/
def ofPairs (ps : List (String × Val)) : ValDict := updatePairs .nil ps

/-- The keys are pairwise distinct. -/
def nodupKeys : ValDict → Bool
  | .nil => true
  | .cons k _ r => !(r.hasKey k) && nodupKeys r

/-- The entries as a list of pairs (`list(d.items())`). -/
def toList : ValDict → List (String × Val)
  | .nil => []
  | .cons k v r => (k, v) :: toList r

/-- A dict literally spelled out by a pair list (no deduplication). -/
def ofList : List (String × Val) → ValDict
  | [] => .nil
  | (k, v) :: r => .cons k v (ofList r)

/-- Concatenation of entry lists. -/
def appendD : ValDict → ValDict → ValDict
  | .nil, e => e
  | .cons k v r, e => .cons k v (appendD r e)

/-- The last value assigned to `k` by a pair list, if any (sequential dict
assignment lets the last occurrence win). -/
def findLast : List (String × Val) → String → Option Val
  | [], _ => Option.none
  | (k', v) :: r, k =>
    match findLast r k with
    | some w => some w
    | Option.none => if k = k' then some v else Option.none

end ValDict

/-! ### Decimal digit rendering and parsing

Helpers shared by the models of `strftime`/`strptime`, `format(Decimal, 'f')`
and the `Decimal` string constructor.  Numbers are rendered through explicit
digit lists so that every definition reduces in the kernel. -/

/-- Little-endian base-10 digits of `n` (`fuel`-guarded structural recursion;
call with `fuel ≥ n`). -/
def digitsLE : Nat → Nat → List Nat
  | 0, _ => []
  | fuel + 1, n => if n = 0 then [] else n % 10 :: digitsLE fuel (n / 10)

/-- Big-endian base-10 digits of `n` (empty for `0`). -/
def digitsBE (n : Nat) : List Nat := (digitsLE n n).reverse

/-- Big-endian digits of `n`, left-padded with zeros to width at least `w`
(CPython zero-padded numeric formatting, e.g. `'%04d'`). -/
def padDigits (w n : Nat) : List Nat :=
  List.replicate (w - (digitsBE n).length) 0 ++ digitsBE n

/-- The character for a decimal digit. -/
def digitChar (d : Nat) : Char := Char.ofNat (48 + d)

/-- `n` rendered in decimal, zero-padded to width `w`. -/
def natToCharsPad (w n : Nat) : List Char := (padDigits w n).map digitChar

/-- `n` rendered in decimal (`str(n)` for a natural number). -/
def natToChars (n : Nat) : List Char := natToCharsPad 1 n

/-- The numeric value of a decimal digit character, if it is one. -/
def charDigit (c : Char) : Option Nat :=
  if 48 ≤ c.toNat ∧ c.toNat ≤ 57 then some (c.toNat - 48) else Option.none

/-- Value of a big-endian digit list (`int('...')` on the digit string). -/
def digitsVal (ds : List Nat) : Nat := ds.foldl (fun a d => a * 10 + d) 0

/-- Split a character list into its longest leading run of decimal digits
(as digit values) and the remainder. -/
def takeDigits : List Char → List Nat × List Char
  | [] => ([], [])
  | c :: cs =>
    match charDigit c with
    | some d => let (ds, r) := takeDigits cs; (d :: ds, r)
    | Option.none => ([], c :: cs)

/-- Parse a non-empty all-digit character list as a natural number (the digit
groups consumed by `strptime` directives such as `%Y`, `%m`, `%d`). -/
def parseNatChars (cs : List Char) : Option Nat :=
  match takeDigits cs with
  | ([], _) => Option.none
  | (ds, []) => some (digitsVal ds)
  | (_ :: _, _ :: _) => Option.none

/-! ### UTF-8 (model of Python `str.encode('utf-8')` / `bytes.decode('utf-8')`) -/

/-- UTF-8 encoding of one Unicode scalar value (RFC 3629). -/
def encodeCp (n : Nat) : List Nat :=
  if n < 0x80 then [n]
  else if n < 0x800 then [0xC0 + n / 64, 0x80 + n % 64]
  else if n < 0x10000 then [0xE0 + n / 4096, 0x80 + n / 64 % 64, 0x80 + n % 64]
  else [0xF0 + n / 262144, 0x80 + n / 4096 % 64, 0x80 + n / 64 % 64, 0x80 + n % 64]

/-- UTF-8 encoding of a string, as a byte list (`s.encode('utf-8')`). -/
def utf8Encode (s : String) : List Nat :=
  s.data.foldr (fun c acc => encodeCp c.toNat ++ acc) []

/-- Decode one UTF-8 sequence from the front of a byte list, rejecting
truncated, overlong, surrogate and out-of-range forms (RFC 3629 table). -/
def decodeCp : List Nat → Option (Nat × List Nat)
  | [] => Option.none
  | b :: bs =>
    if b < 0x80 then some (b, bs)
    else if b < 0xC2 then Option.none
    else if b < 0xE0 then
      match bs with
      | b1 :: r =>
        if b1 / 64 == 2 then some ((b - 0xC0) * 64 + (b1 - 0x80), r) else Option.none
      | _ => Option.none
    else if b < 0xF0 then
      match bs with
      | b1 :: b2 :: r =>
        if (b1 / 64 == 2) && (b2 / 64 == 2)
            && (!(b == 0xE0) || decide (0xA0 ≤ b1))
            && (!(b == 0xED) || decide (b1 < 0xA0)) then
          some ((b - 0xE0) * 4096 + (b1 - 0x80) * 64 + (b2 - 0x80), r)
        else Option.none
      | _ => Option.none
    else if b < 0xF5 then
      match bs with
      | b1 :: b2 :: b3 :: r =>
        if (b1 / 64 == 2) && (b2 / 64 == 2) && (b3 / 64 == 2)
            && (!(b == 0xF0) || decide (0x90 ≤ b1))
            && (!(b == 0xF4) || decide (b1 < 0x90)) then
          some ((b - 0xF0) * 262144 + (b1 - 0x80) * 4096 + (b2 - 0x80) * 64 + (b3 - 0x80), r)
        else Option.none
      | _ => Option.none
    else Option.none

/-- Decode a whole byte list into code points (`fuel`-guarded; call with
`fuel ≥ bs.length`). -/
def decodeCps : Nat → List Nat → Option (List Nat)
  | _, [] => some []
  | 0, _ :: _ => Option.none
  | fuel + 1, b :: bs =>
    match decodeCp (b :: bs) with
    | some (n, r) => (decodeCps fuel r).map (n :: ·)
    | Option.none => Option.none

/-- UTF-8 decoding of a byte list (`bs.decode('utf-8')`); `Option.none`
models `UnicodeDecodeError`. -/
def utf8Decode (bs : List Nat) : Option String :=
  (decodeCps bs.length bs).map (fun ns => String.mk (ns.map Char.ofNat))

/-! ### Dates and datetimes (models of `strftime`, `strptime`, `isoformat`) -/

/-- Gregorian leap year (`calendar.isleap`). -/
def isLeap (y : Nat) : Bool := (y % 4 == 0 && !(y % 100 == 0)) || y % 400 == 0

/-- Days in a month. -/
def daysInMonth (y m : Nat) : Nat :=
  if m = 2 then (if isLeap y then 29 else 28)
  else if m = 4 ∨ m = 6 ∨ m = 9 ∨ m = 11 then 30
  else 31

/-- A valid `datetime.date` (Python years range over `1..9999`). -/
def validDate (y m d : Nat) : Bool :=
  decide (1 ≤ y) && decide (y ≤ 9999) && decide (1 ≤ m) && decide (m ≤ 12)
    && decide (1 ≤ d) && decide (d ≤ daysInMonth y m)

/-- A valid time of day at second resolution. -/
def validTime (h mi s : Nat) : Bool :=
  decide (h ≤ 23) && decide (mi ≤ 59) && decide (s ≤ 59)

/-- `value.strftime('%Y-%m-%d')`, as characters. -/
def fmtDateChars (y m d : Nat) : List Char :=
  natToCharsPad 4 y ++ '-' :: (natToCharsPad 2 m ++ '-' :: natToCharsPad 2 d)

/-- `'%H:%M:%S'`, as characters. -/
def fmtTimeChars (h mi s : Nat) : List Char :=
  natToCharsPad 2 h ++ ':' :: (natToCharsPad 2 mi ++ ':' :: natToCharsPad 2 s)

/-- `value.strftime('%Y-%m-%d')` (`Date.dehydrate`). -/
def fmtDate (y m d : Nat) : String := String.mk (fmtDateChars y m d)

/-- `value.strftime('%Y-%m-%d %H:%M:%S')` (`Datetime.dehydrate`). -/
def fmtDatetime (y m d h mi s : Nat) : String :=
  String.mk (fmtDateChars y m d ++ ' ' :: fmtTimeChars h mi s)

/-- `date.isoformat()`. -/
def isoDate (y m d : Nat) : String := String.mk (fmtDateChars y m d)

/-- `datetime.isoformat()`: `T` separator, microseconds only when non-zero,
and the `+00:00` offset exactly when `tzinfo=pytz.utc` is attached. -/
def isoDatetime (y m d h mi s micro : Nat) (utc : Bool) : String :=
  String.mk (fmtDateChars y m d ++ 'T' :: (fmtTimeChars h mi s
    ++ (if micro = 0 then [] else '.' :: natToCharsPad 6 micro)
    ++ (if utc then ['+', '0', '0', ':', '0', '0'] else [])))

/-- Split a character list at every occurrence of `sep` (the field splitting
done by `strptime` at the literal separators of its format string). -/
def splitSep (sep : Char) : List Char → List (List Char)
  | [] => [[]]
  | c :: cs =>
    if c = sep then [] :: splitSep sep cs
    else
      match splitSep sep cs with
      | g :: gs => (c :: g) :: gs
      | [] => [[c]]

/-- `datetime.strptime(s, '%Y-%m-%d')`, returning the date components
(`Option.none` models `ValueError`). -/
def parseDate (s : String) : Option (Nat × Nat × Nat) :=
  match splitSep '-' s.data with
  | [ys, ms, ds] => do
    let y ← parseNatChars ys
    let m ← parseNatChars ms
    let d ← parseNatChars ds
    if validDate y m d then some (y, m, d) else Option.none
  | _ => Option.none

/-- `datetime.strptime(s, '%Y-%m-%d %H:%M:%S')`, returning the datetime
components (`Option.none` models `ValueError`). -/
def parseDatetime (s : String) :
    Option (Nat × Nat × Nat × Nat × Nat × Nat) :=
  match splitSep ' ' s.data with
  | [dpart, tpart] =>
    match splitSep '-' dpart, splitSep ':' tpart with
    | [ys, ms, ds], [hs, mis, ss] => do
      let y ← parseNatChars ys
      let m ← parseNatChars ms
      let d ← parseNatChars ds
      let h ← parseNatChars hs
      let mi ← parseNatChars mis
      let sec ← parseNatChars ss
      if validDate y m d && validTime h mi sec then some (y, m, d, h, mi, sec)
      else Option.none
    | _, _ => Option.none
  | _ => Option.none

/-! ### Decimals (models of `format(Decimal, 'f')` and `Decimal(str)`) -/

/-- `format(value, 'f')`, as characters: rescale the exponent to
`min(exponent, 0)` and print the digits in fixed-point notation, never in
scientific notation. -/
def formatFixedChars (neg : Bool) (c : Nat) (e : Int) : List Char :=
  (if neg then ['-'] else []) ++
    (if 0 ≤ e then natToChars (c * 10 ^ e.toNat)
     else
       let k := (-e).toNat
       let ds := padDigits (k + 1) c
       (ds.take (ds.length - k)).map digitChar
         ++ '.' :: (ds.drop (ds.length - k)).map digitChar)

/-- `format(value, 'f')` (`Decimal.dehydrate` / `Decimal.make_public_value`). -/
def formatFixed (neg : Bool) (c : Nat) (e : Int) : String :=
  String.mk (formatFixedChars neg c e)

/-- Strip an optional leading sign (`-` yields `true`). -/
def takeSign : List Char → Bool × List Char
  | '-' :: r => (true, r)
  | '+' :: r => (false, r)
  | cs => (false, cs)

/-- The numeric-string part of the `decimal.Decimal` constructor: an optional
sign, digits with an optional fraction, and an optional exponent.  The result
is Python's sign/coefficient/exponent triple (further coefficient digits are
kept exactly; leading zeros vanish in the `Nat` coefficient, as in Python). -/
def parseDecChars (cs : List Char) : Option (Bool × Nat × Int) :=
  let (neg, cs1) := takeSign cs
  let (ip, cs2) := takeDigits cs1
  let (fp, cs3) :=
    match cs2 with
    | '.' :: r => takeDigits r
    | _ => ([], cs2)
  if ip.isEmpty && fp.isEmpty then Option.none
  else
    match cs3 with
    | [] => some (neg, digitsVal (ip ++ fp), -(fp.length : Int))
    | ec :: r =>
      if ec = 'e' ∨ ec = 'E' then
        let (eneg, r1) := takeSign r
        match takeDigits r1 with
        | ([], _) => Option.none
        | (eds, []) =>
          let ev : Int := if eneg then -(digitsVal eds : Int) else (digitsVal eds : Int)
          some (neg, digitsVal (ip ++ fp), ev - (fp.length : Int))
        | (_ :: _, _ :: _) => Option.none
      else Option.none

/-- `Decimal(s)` for a string (`Option.none` models `InvalidOperation`). -/
def parseDec (s : String) : Option (Bool × Nat × Int) := parseDecChars s.data

/-- Numeric equality of two decimal triples (Python `==` on `Decimal`
compares values, not representations; `-0 == 0`). -/
def decNumEq (n1 : Bool) (c1 : Nat) (e1 : Int) (n2 : Bool) (c2 : Nat) (e2 : Int) : Bool :=
  (if e1 ≥ e2 then c1 * 10 ^ (e1 - e2).toNat == c2 else c1 == c2 * 10 ^ (e2 - e1).toNat)
    && (n1 == n2 || c1 == 0)

/-! ### Small helpers shared by the field operations -/

/-- Python truthiness of a value (`value or {}` branches on this).
`BaseValueObject` defines neither `__bool__` nor `__len__`, so instances are
always truthy; `date`/`datetime` objects are always truthy; `Decimal(0)` is
falsy. -/
def pyFalsy : Val → Bool
  | .none => true
  | .int n => n == 0
  | .str s => s.isEmpty
  | .bytes bs => bs.isEmpty
  | .dict .nil => true
  | .dict (.cons _ _ _) => false
  | .vobj _ => false
  | .date _ _ _ => false
  | .datetime _ _ _ _ _ _ _ _ => false
  | .dec _ c _ => c == 0

/-- `value or {}` followed by use as a mapping: a falsy value is replaced by
the empty dict; a non-dict truthy value later fails when `.get` /`.items()`
is called on it (modelled as `Option.none`). -/
def asRawMapping : Val → Option ValDict
  | v => if pyFalsy v then some ValDict.nil
         else match v with
              | .dict es => some es
              | _ => Option.none

/-- Truthiness of the `public` attribute (`bool(field.public)`): a boolean is
itself; a key set is truthy iff non-empty. -/
def pubTruthy : Pub → Bool
  | .flag b => b
  | .keys ks => !ks.isEmpty

/-- `field.key or name` (`ValueObjectMeta.hydrate_values`). -/
def keyOr (key name : String) : String := if key = "" then name else key

/-- The `key` attribute of a field. -/
def Field.key : Field → String
  | .primitive k _ | .bytes k _ | .date k _ | .datetime k _ | .dec k _
  | .coll _ k _ | .vo _ k _ => k

/-- The `public` attribute of a field. -/
def Field.pub : Field → Pub
  | .primitive _ p | .bytes _ p | .date _ p | .datetime _ p | .dec _ p
  | .coll _ _ p | .vo _ _ p => p

/-- Declared attribute names, in declaration order. -/
def FieldList.names : FieldList → List String
  | .nil => []
  | .cons n _ r => n :: names r

/-- Declared dict keys, in declaration order. -/
def FieldList.keysOf : FieldList → List String
  | .nil => []
  | .cons _ f r => f.key :: keysOf r

/-- `isinstance(value, self.vo_type)`: the embedding carries no class
identities, so an instance is recognised by its `_values` having exactly the
declared attribute names (which is what instances of the declared type look
like). -/
def isInstanceOf (fl : FieldList) : Val → Bool
  | .vobj vs => vs.keysList == fl.names
  | _ => false

/-- Map an option-valued function over the entries of a dict, collecting the
resulting pairs in order (the body of a dict comprehension). -/
def mapPairsM (g : Val → Option Val) : ValDict → Option (List (String × Val))
  | .nil => some []
  | .cons k v r => do
    let v' ← g v
    let ps ← mapPairsM g r
    some ((k, v') :: ps)

/-- The comprehension inside `Collection.merge`: for each incoming entry
`(k, v)`, pair `k` with `g(merged.get(k, None), v)`. -/
def mergePairsWith (g : Val → Val → Option Val) (base : ValDict) :
    ValDict → Option (List (String × Val))
  | .nil => some []
  | .cons k v r => do
    let v' ← g ((base.lookup k).getD .none) v
    let ps ← mergePairsWith g base r
    some ((k, v') :: ps)

/-- The comprehension inside `Collection.make_public_value`: keep the entries
whose key passes the visibility filter, each mapped through `g`. -/
def publicPairsWith (g : Val → Option Val) (fieldsSel : List String) :
    ValDict → Option (List (String × Val))
  | .nil => some []
  | .cons k v r =>
    if fieldsSel.contains k then do
      let v' ← g v
      let ps ← publicPairsWith g fieldsSel r
      some ((k, v') :: ps)
    else publicPairsWith g fieldsSel r

/-! ### The five field operations and the value-object operations

Each Python method becomes one Lean function; `Option.none` models an
exception escaping the call.  Dict comprehensions are rebuilt with
`ValDict.ofPairs` (sequential key assignment), mirroring Python dict
semantics. -/

mutual
/-- `Field.init` and its overrides: the scalar fields inherit the identity
default; `Collection.init` maps `sub_field.init` over a concrete mapping
(`None` becomes `{}`); `ValueObject.init` passes an instance of the declared
type through unchanged and otherwise constructs `vo_type(value or {})`. -/
def Field.init (f : Field) (v : Val) : Option Val :=
  match f, v with
  | .primitive _ _, v => some v
  | .bytes _ _, v => some v
  | .date _ _, v => some v
  | .datetime _ _, v => some v
  | .dec _ _, v => some v
  | .coll sub _ _, v =>
    match v with
    | .none => some (.dict .nil)
    | .dict es => (mapPairsM (Field.init sub) es).map (fun ps => .dict (.ofPairs ps))
    | _ => Option.none
  | .vo fl _ _, v =>
    if isInstanceOf fl v then some v
    else
      match asRawMapping v with
      | some raw => (constructPairs fl raw).map (fun ps => .vobj (.ofPairs ps))
      | Option.none => Option.none
termination_by structural f

def constructPairs (fl : FieldList) (raw : ValDict) : Option (List (String × Val)) :=
  match fl with
  | .nil => some []
  | .cons name f r => do
    let v ← Field.init f ((raw.lookup f.key).getD .none)
    let ps ← constructPairs r raw
    some ((name, v) :: ps)
termination_by structural fl
end

/-- `BaseValueObject.__init__`: `_values = {name:
field.init(filtered_data.get(field.key, None)) for name, field in fields}`. -/
def construct (fl : FieldList) (filtered_data : ValDict) : Option ValDict :=
  (constructPairs fl filtered_data).map ValDict.ofPairs

mutual
/-- `Field.merge` and its overrides: the default keeps `existing` exactly
when `incoming is None`; `Collection.merge` copies `existing` and assigns
`sub_field.merge(merged.get(k, None), v)` for each incoming entry;
`ValueObject.merge` returns `incoming` when `existing is None`, otherwise
updates `existing` in place from a non-`None` `incoming` and returns it. -/
def Field.merge (f : Field) (e i : Val) : Option Val :=
  match f, e, i with
  | .primitive _ _, e, i => some (if i = .none then e else i)
  | .bytes _ _, e, i => some (if i = .none then e else i)
  | .date _ _, e, i => some (if i = .none then e else i)
  | .datetime _ _, e, i => some (if i = .none then e else i)
  | .dec _ _, e, i => some (if i = .none then e else i)
  | .coll sub _ _, e, i =>
    match (match e with
           | .none => some ValDict.nil
           | .dict es => some es
           | _ => Option.none) with
    | Option.none => Option.none
    | some base =>
      match i with
      | .none => some (.dict base)
      | .dict inc =>
        (mergePairsWith (Field.merge sub) base inc).map
          (fun ps => .dict (base.updatePairs ps))
      | _ => Option.none
  | .vo fl _ _, e, i =>
    match e with
    | .none => some i
    | _ =>
      match i with
      | .none => some e
      | _ =>
        match e, i with
        | .vobj evs, .vobj ivs =>
          (updatePairsOf fl evs ivs).map (fun ps => .vobj (evs.updatePairs ps))
        | _, _ => Option.none
termination_by structural f

def updatePairsOf (fl : FieldList) (evs ivs : ValDict) :
    Option (List (String × Val)) :=
  match fl with
  | .nil => some []
  | .cons name f r => do
    let v ← Field.merge f ((evs.lookup name).getD .none) ((ivs.lookup name).getD .none)
    let ps ← updatePairsOf r evs ivs
    some ((name, v) :: ps)
termination_by structural fl
end

/-- `BaseValueObject.update`: `_values.update({name:
field.merge(self._values.get(name), incoming._values.get(name))})`. -/
def vo_update (fl : FieldList) (evs ivs : ValDict) : Option ValDict :=
  (updatePairsOf fl evs ivs).map evs.updatePairs

mutual
/-- `Field.hydrate` and its overrides: identity for `Primitive`; UTF-8
`encode` for `Bytes`; strict `strptime` for `Date`/`Datetime` (the latter
attaching `pytz.utc`); the `Decimal` constructor; element-wise hydration for
`Collection` (`None` becomes `{}`); `vo_type.hydrate_values(value or {})`
for `ValueObject` (which returns a raw mapping, not an instance). -/
def Field.hydrate (f : Field) (v : Val) : Option Val :=
  match f, v with
  | .primitive _ _, v => some v
  | .bytes _ _, v =>
    match v with
    | .none => some .none
    | .str s => some (.bytes (utf8Encode s))
    | _ => Option.none
  | .date _ _, v =>
    match v with
    | .none => some .none
    | .str s => (parseDate s).map (fun (y, m, d) => .date y m d)
    | _ => Option.none
  | .datetime _ _, v =>
    match v with
    | .none => some .none
    | .str s =>
      (parseDatetime s).map (fun (y, m, d, h, mi, sec) => .datetime y m d h mi sec 0 true)
    | _ => Option.none
  | .dec _ _, v =>
    match v with
    | .none => some .none
    | .str s => (parseDec s).map (fun (n, c, e) => .dec n c e)
    | .int n => some (.dec (decide (n < 0)) n.natAbs 0)
    | .dec n c e => some (.dec n c e)
    | _ => Option.none
  | .coll sub _ _, v =>
    match v with
    | .none => some (.dict .nil)
    | .dict es => (mapPairsM (Field.hydrate sub) es).map (fun ps => .dict (.ofPairs ps))
    | _ => Option.none
  | .vo fl _ _, v =>
    match asRawMapping v with
    | some raw => (hydrateValuesPairs fl raw).map (fun ps => .dict (.ofPairs ps))
    | Option.none => Option.none
termination_by structural f

def hydrateValuesPairs (fl : FieldList) (d : ValDict) :
    Option (List (String × Val)) :=
  match fl with
  | .nil => some []
  | .cons name f r => do
    let v ← Field.hydrate f ((d.lookup (keyOr f.key name)).getD .none)
    let ps ← hydrateValuesPairs r d
    some ((keyOr f.key name, v) :: ps)
termination_by structural fl
end

/-- `ValueObjectMeta.hydrate_values`: `{field.key or name:
field.hydrate(dehydrated.get(field.key or name))}`. -/
def hydrate_values (fl : FieldList) (dehydrated : ValDict) : Option ValDict :=
  (hydrateValuesPairs fl dehydrated).map ValDict.ofPairs

mutual
/-- `Field.dehydrate` and its overrides: identity for `Primitive`; UTF-8
`decode` for `Bytes`; `strftime` for `Date`/`Datetime`; `format(value, 'f')`
for `Decimal`; element-wise for `Collection` (`None` becomes `{}`);
null-safe delegation to the instance's own `dehydrate` for `ValueObject`. -/
def Field.dehydrate (f : Field) (v : Val) : Option Val :=
  match f, v with
  | .primitive _ _, v => some v
  | .bytes _ _, v =>
    match v with
    | .none => some .none
    | .bytes bs => (utf8Decode bs).map .str
    | _ => Option.none
  | .date _ _, v =>
    match v with
    | .none => some .none
    | .date y m d => some (.str (fmtDate y m d))
    | .datetime y m d _ _ _ _ _ => some (.str (fmtDate y m d))
    | _ => Option.none
  | .datetime _ _, v =>
    match v with
    | .none => some .none
    | .datetime y m d h mi s _ _ => some (.str (fmtDatetime y m d h mi s))
    | _ => Option.none
  | .dec _ _, v =>
    match v with
    | .none => some .none
    | .dec n c e => some (.str (formatFixed n c e))
    | _ => Option.none
  | .coll sub _ _, v =>
    match v with
    | .none => some (.dict .nil)
    | .dict es => (mapPairsM (Field.dehydrate sub) es).map (fun ps => .dict (.ofPairs ps))
    | _ => Option.none
  | .vo fl _ _, v =>
    match v with
    | .none => some .none
    | .vobj vs => (dehydratePairs fl vs).map (fun ps => .dict (.ofPairs ps))
    | _ => Option.none
termination_by structural f

def dehydratePairs (fl : FieldList) (vs : ValDict) :
    Option (List (String × Val)) :=
  match fl with
  | .nil => some []
  | .cons name f r => do
    let d ← Field.dehydrate f ((vs.lookup name).getD .none)
    let ps ← dehydratePairs r vs
    some ((f.key, d) :: ps)
termination_by structural fl
end

/-- `BaseValueObject.dehydrate`: `{field.key:
field.dehydrate(self._values.get(name))}`. -/
def vo_dehydrate (fl : FieldList) (vs : ValDict) : Option ValDict :=
  (dehydratePairs fl vs).map ValDict.ofPairs

/-- `BaseValueObject.get_public_field_keys`: the keys of the fields passing
`((not fields) or (field.key in fields)) and field.public`. -/
def get_public_field_keys : FieldList → List String → List String
  | .nil, _ => []
  | .cons _ f r, sel =>
    (if (sel.isEmpty || sel.contains f.key) && pubTruthy f.pub then [f.key] else [])
      ++ get_public_field_keys r sel

mutual
/-- `Field.make_public_value` and its overrides: the default delegates to
`dehydrate`; `Date`/`Datetime` use `isoformat()`; `Decimal` uses
`format(value, 'f')`; `Collection` filters entries by its `public` key set
(a boolean `public` lets all entries through at field level); `ValueObject`
delegates to `get_public_values`, passing its `public` set as the selection
when it is a set. -/
def Field.make_public_value (f : Field) (v : Val) : Option Val :=
  match f, v with
  | .primitive k p, v => Field.dehydrate (.primitive k p) v
  | .bytes k p, v => Field.dehydrate (.bytes k p) v
  | .date _ _, v =>
    match v with
    | .none => some .none
    | .date y m d => some (.str (isoDate y m d))
    | .datetime y m d h mi s micro utc => some (.str (isoDatetime y m d h mi s micro utc))
    | _ => Option.none
  | .datetime _ _, v =>
    match v with
    | .none => some .none
    | .datetime y m d h mi s micro utc => some (.str (isoDatetime y m d h mi s micro utc))
    | .date y m d => some (.str (isoDate y m d))
    | _ => Option.none
  | .dec _ _, v =>
    match v with
    | .none => some .none
    | .dec n c e => some (.str (formatFixed n c e))
    | _ => Option.none
  | .coll sub _ p, v =>
    match v with
    | .none => some (.dict .nil)
    | .dict es =>
      let fieldsSel := match p with | .keys ks => ks | .flag _ => es.keysList
      (publicPairsWith (Field.make_public_value sub) fieldsSel es).map
        (fun ps => .dict (.ofPairs ps))
    | _ => Option.none
  | .vo fl _ p, v =>
    match v with
    | .none => some .none
    | .vobj vs =>
      let sel := match p with | .keys ks => ks | .flag _ => []
      (gpvPairs fl vs (get_public_field_keys fl sel)).map
        (fun ps => .dict (.ofPairs ps))
    | _ => Option.none
termination_by structural f

def gpvPairs (fl : FieldList) (vs : ValDict) (pf : List String) :
    Option (List (String × Val)) :=
  match fl with
  | .nil => some []
  | .cons name f r =>
    if pf.contains f.key then do
      let v' ← Field.make_public_value f ((vs.lookup name).getD .none)
      let ps ← gpvPairs r vs pf
      some ((f.key, v') :: ps)
    else gpvPairs r vs pf
termination_by structural fl
end

/-- `BaseValueObject.get_public_values`: `{field.key:
field.make_public_value(self._values.get(name)) for name, field in fields
if field.key in set(self.get_public_field_keys(*fields))}`. -/
def get_public_values (fl : FieldList) (vs : ValDict) (sel : List String) : Option ValDict :=
  (gpvPairs fl vs (get_public_field_keys fl sel)).map ValDict.ofPairs

/-- `ValueObjectMeta.hydrate`: `cls(cls.hydrate_values(dehydrated or {}))`,
for a mapping-or-`None` argument. -/
def meta_hydrate (fl : FieldList) (dehydrated : Val) : Option ValDict := do
  let raw ← asRawMapping dehydrated
  let hydrated ← hydrate_values fl raw
  construct fl hydrated

/-! ### Value equivalence

`valEquiv` models Python `==` on the values the layer manipulates: dicts
compare key-wise (order-insensitively), `Decimal`s compare numerically, all
other values structurally — with one documented deviation: two
`BaseValueObject` instances compare by their stored `_values` (the source
defines no `__eq__`, under which distinct instances are never `==`; the
spec's round-trip talk of "an equivalent internal state" and the test
suite's field-by-field assertions both mean structural equivalence, which is
what is formalised). -/

/-- Every key of the first dict occurs in the second. -/
def keysIncl : ValDict → ValDict → Bool
  | .nil, _ => true
  | .cons k _ r, b => b.hasKey k && keysIncl r b

mutual
def valEquiv (a b : Val) : Bool :=
  match a, b with
  | .none, .none => true
  | .int a, .int b => a == b
  | .str a, .str b => a == b
  | .bytes a, .bytes b => a == b
  | .date y m d, .date y' m' d' => y == y' && m == m' && d == d'
  | .datetime y m d h mi s mc u, .datetime y' m' d' h' mi' s' mc' u' =>
    y == y' && m == m' && d == d' && h == h' && mi == mi' && s == s' && mc == mc' && u == u'
  | .dec n c e, .dec n' c' e' => decNumEq n c e n' c' e'
  | .dict a, .dict b => subEquiv a b && keysIncl b a
  | .vobj a, .vobj b => subEquiv a b && keysIncl b a
  | _, _ => false
termination_by structural a

/-- Each entry of the first dict is `valEquiv` to the second dict's entry at
the same key. -/
def subEquiv (a b : ValDict) : Bool :=
  match a with
  | .nil => true
  | .cons k v r =>
    (match b.lookup k with
     | some w => valEquiv v w
     | Option.none => false) && subEquiv r b
termination_by structural a
end

/-! ### Representable internal values

`Rep f v` captures the internal values a field of kind `f` ranges over in
the system's lifecycle (what `init` of hydrated data produces and the
docstrings declare): scalar kinds are nullable; `Bytes` stores UTF-8 byte
strings; `Date`/`Datetime` store valid calendar values, a `Datetime` at
second resolution with `pytz.utc` attached (`hydrate` always attaches it and
`dehydrate` formats without zone or microseconds); `Collection` stores a
concrete mapping of representable sub-values; `ValueObject` stores a
concrete instance whose `_values` line up with the declared fields. -/

mutual
def Rep : Field → Val → Prop
  | .primitive _ _, v => v = .none ∨ (∃ n, v = .int n) ∨ (∃ s, v = .str s)
  | .bytes _ _, v => v = .none ∨ ∃ s, v = .bytes (utf8Encode s)
  | .date _ _, v => v = .none ∨ ∃ y m d, v = .date y m d ∧ validDate y m d = true
  | .datetime _ _, v =>
    v = .none ∨ ∃ y m d h mi s, v = .datetime y m d h mi s 0 true
      ∧ validDate y m d = true ∧ validTime h mi s = true
  | .dec _ _, v => v = .none ∨ ∃ n c e, v = .dec n c e
  | .coll sub _ _, v => ∃ es, v = .dict es ∧ es.nodupKeys = true ∧ RepEntries sub es
  | .vo fl _ _, v => ∃ vs, v = .vobj vs ∧ RepVals fl vs

def RepEntries : Field → ValDict → Prop
  | _, .nil => True
  | sub, .cons _ w r => Rep sub w ∧ RepEntries sub r

def RepVals : FieldList → ValDict → Prop
  | .nil, vs => vs = .nil
  | .cons name f restF, vs =>
    ∃ w restV, vs = .cons name w restV ∧ Rep f w ∧ RepVals restF restV
end

/-- A representable internal value or `None` (what `_values.get(name)` can
hand a field's `merge`). -/
def RepOpt (f : Field) (v : Val) : Prop := v = .none ∨ Rep f v

/-! ### The null-equivalent results of the operations -/

mutual
/-- The internal value `field.init(None)` produces: `None` for scalar kinds,
`{}` for a collection, and an all-null nested instance for a nested value
object. -/
def nullInit (f : Field) : Val :=
  match f with
  | .primitive _ _ => .none
  | .bytes _ _ => .none
  | .date _ _ => .none
  | .datetime _ _ => .none
  | .dec _ _ => .none
  | .coll _ _ _ => .dict .nil
  | .vo fl _ _ => .vobj (.ofPairs (allNullInitPairs fl))
termination_by structural f

/-- The `_values` of an instance constructed from an empty mapping. -/
def allNullInitPairs (fl : FieldList) : List (String × Val) :=
  match fl with
  | .nil => []
  | .cons name f r => (name, nullInit f) :: allNullInitPairs r
termination_by structural fl
end

mutual
/-- The value `field.hydrate(None)` produces: `None` for scalar kinds, `{}`
for a collection, and the all-null raw mapping `hydrate_values({})` for a
nested value object (not an instance). -/
def nullHydrate (f : Field) : Val :=
  match f with
  | .primitive _ _ => .none
  | .bytes _ _ => .none
  | .date _ _ => .none
  | .datetime _ _ => .none
  | .dec _ _ => .none
  | .coll _ _ _ => .dict .nil
  | .vo fl _ _ => .dict (.ofPairs (allNullHydratePairs fl))
termination_by structural f

/-- The pairs of `hydrate_values({})`, keyed by `field.key or name`. -/
def allNullHydratePairs (fl : FieldList) : List (String × Val) :=
  match fl with
  | .nil => []
  | .cons name f r => (keyOr f.key name, nullHydrate f) :: allNullHydratePairs r
termination_by structural fl
end

/-- The value `field.dehydrate(None)` / `field.make_public_value(None)` /
`field.merge(None, None)` produces: `{}` for a collection, `None` for every
other kind. -/
def nullOut (f : Field) : Val :=
  match f with
  | .coll _ _ _ => .dict .nil
  | _ => .none

/-- The dict keys under which `hydrate_values` writes, in declaration order
(`field.key or name`). -/
def FieldList.keyOrKeys : FieldList → List String
  | .nil => []
  | .cons name f r => keyOr f.key name :: keyOrKeys r

/-- Look up a declared field by its dict key. -/
def FieldList.findByKey? : FieldList → String → Option Field
  | .nil, _ => Option.none
  | .cons _ f r, k => if k = f.key then some f else findByKey? r k

/-! ### Well-formed field declarations

What the metaclass guarantees for a real value-object class: attribute names
are distinct (class attributes), dict keys are distinct and non-empty (the
metaclass substitutes the attribute name for a falsy key), recursively. -/

mutual
def Field.wf (f : Field) : Bool :=
  match f with
  | .primitive _ _ => true
  | .bytes _ _ => true
  | .date _ _ => true
  | .datetime _ _ => true
  | .dec _ _ => true
  | .coll sub _ _ => sub.wf
  | .vo fl _ _ => fl.wf
termination_by structural f

def FieldList.wf (fl : FieldList) : Bool :=
  match fl with
  | .nil => true
  | .cons name f r =>
    !(r.names.contains name) && !(r.keysOf.contains f.key) && !(f.key == "")
      && f.wf && r.wf
termination_by structural fl
end

/-- Look up a declared field by attribute name. -/
def FieldList.find? : FieldList → String → Option Field
  | .nil, _ => Option.none
  | .cons name f r, n => if n = name then some f else find? r n

/-! ### Reference-level (heap) model

The pure model above cannot talk about object identity, so the sharing and
in-place-mutation statements of the spec are settled against this second
model: mutable Python objects (dicts and value-object instances) live in an
explicit heap addressed by allocation order, immutable values are stored
inline, and each operation threads the heap.  The operations are the same
methods of `fields.py` / `base.py`, re-read at the reference level:
`Collection.merge` builds `merged = {}` and `update`s it (a fresh dict whose
entries are the original entry references), `ValueObject.merge` mutates
`existing` in place via `BaseValueObject.update`, and allocation models
Python object creation. -/

/-- A reference-level value: an immutable value inline, or a reference into
the heap. -/
inductive HVal where
  | prim (v : Val)
  | ref (a : Nat)
deriving DecidableEq, Repr

/-- A heap node: a mutable dict or a value-object instance (its `_values`). -/
inductive HNode where
  | dictN (es : List (String × HVal))
  | voN (es : List (String × HVal))
deriving DecidableEq, Repr

/-- The heap: nodes addressed by allocation order. -/
abbrev Heap := List HNode

/-- Allocate a node, returning the extended heap and the fresh address. -/
def halloc (h : Heap) (n : HNode) : Heap × Nat := (h ++ [n], h.length)

/-- Entry lookup in a node's association list (`d.get(k)`). -/
def lookupH : List (String × HVal) → String → Option HVal
  | [], _ => Option.none
  | (k, v) :: r, k' => if k' = k then some v else lookupH r k'

/-- `d[k] = v` inside a node. -/
def setKeyH : List (String × HVal) → String → HVal → List (String × HVal)
  | [], k, v => [(k, v)]
  | (k', v') :: r, k, v =>
    if k = k' then (k', v) :: r else (k', v') :: setKeyH r k v

/-- `d.update(pairs)` inside a node. -/
def updatePairsH : List (String × HVal) → List (String × HVal) → List (String × HVal)
  | es, [] => es
  | es, (k, v) :: ps => updatePairsH (setKeyH es k v) ps

/-- `pairs` as a fresh dict body (a dict comprehension). -/
def ofPairsH (ps : List (String × HVal)) : List (String × HVal) := updatePairsH [] ps

/-- `value is None` at the reference level. -/
def isNoneH : HVal → Bool
  | .prim .none => true
  | _ => false

/-- Python truthiness at the reference level (an empty dict is falsy;
instances are always truthy). -/
def hFalsy (h : Heap) : HVal → Bool
  | .prim v => pyFalsy v
  | .ref a =>
    match h[a]? with
    | some (.dictN []) => true
    | _ => false

/-- `value or {}` then use as a mapping, at the reference level. -/
def hAsRaw (h : Heap) (v : HVal) : Option (List (String × HVal)) :=
  if hFalsy h v then some []
  else
    match v with
    | .ref a =>
      match h[a]? with
      | some (.dictN es) => some es
      | _ => Option.none
    | _ => Option.none

/-- `isinstance(value, vo_type)` at the reference level. -/
def hIsInstance (fl : FieldList) (h : Heap) : HVal → Bool
  | .ref a =>
    match h[a]? with
    | some (.voN es) => es.map Prod.fst == fl.names
    | _ => false
  | _ => false

/-- Heap-threading map over node entries (reference-level comprehension). -/
def hmapPairsWith (g : Heap → HVal → Option (Heap × HVal)) :
    Heap → List (String × HVal) → Option (Heap × List (String × HVal))
  | h, [] => some (h, [])
  | h, (k, v) :: r => do
    let (h1, v') ← g h v
    let (h2, ps) ← hmapPairsWith g h1 r
    some (h2, (k, v') :: ps)

/-- Reference-level version of the `Collection.merge` comprehension. -/
def hmergePairsWith (g : Heap → HVal → HVal → Option (Heap × HVal))
    (base : List (String × HVal)) :
    Heap → List (String × HVal) → Option (Heap × List (String × HVal))
  | h, [] => some (h, [])
  | h, (k, v) :: r => do
    let (h1, v') ← g h ((lookupH base k).getD (.prim .none)) v
    let (h2, ps) ← hmergePairsWith g base h1 r
    some (h2, (k, v') :: ps)

mutual
/-- `Field.init` at the reference level.  Scalar fields pass the argument
through (including a reference); `Collection.init` always builds a fresh
dict; `ValueObject.init` passes an instance of the declared type through
unchanged — the documented aliasing exception — and otherwise allocates a
new instance. -/
def hinit (f : Field) (h : Heap) (v : HVal) : Option (Heap × HVal) :=
  match f, v with
  | .primitive _ _, v => some (h, v)
  | .bytes _ _, v => some (h, v)
  | .date _ _, v => some (h, v)
  | .datetime _ _, v => some (h, v)
  | .dec _ _, v => some (h, v)
  | .coll sub _ _, v =>
    match v with
    | .prim .none =>
      let (h1, a) := halloc h (.dictN [])
      some (h1, .ref a)
    | .ref a =>
      match h[a]? with
      | some (.dictN es) => do
        let (h1, ps) ← hmapPairsWith (hinit sub) h es
        let (h2, a2) := halloc h1 (.dictN (ofPairsH ps))
        some (h2, .ref a2)
      | _ => Option.none
    | _ => Option.none
  | .vo fl _ _, v =>
    if hIsInstance fl h v then some (h, v)
    else
      match hAsRaw h v with
      | some raw => do
        let (h1, ps) ← hconstructPairs fl h raw
        let (h2, a2) := halloc h1 (.voN (ofPairsH ps))
        some (h2, .ref a2)
      | Option.none => Option.none
termination_by structural f

def hconstructPairs (fl : FieldList) (h : Heap) (raw : List (String × HVal)) :
    Option (Heap × List (String × HVal)) :=
  match fl with
  | .nil => some (h, [])
  | .cons name f r => do
    let (h1, v) ← hinit f h ((lookupH raw f.key).getD (.prim .none))
    let (h2, ps) ← hconstructPairs r h1 raw
    some (h2, (name, v) :: ps)
termination_by structural fl
end

/-- `BaseValueObject.__init__` at the reference level: allocates the new
instance. -/
def hconstruct (fl : FieldList) (h : Heap) (raw : List (String × HVal)) :
    Option (Heap × Nat) := do
  let (h1, ps) ← hconstructPairs fl h raw
  let (h2, a) := halloc h1 (.voN (ofPairsH ps))
  some (h2, a)

mutual
/-- `Field.merge` at the reference level.  The default returns one of its
arguments unchanged (reference included); `Collection.merge` allocates a
fresh dict (`merged = {}` + `update`) whose entries are references taken
from the operands or results of sub-merges; `ValueObject.merge` writes the
merged values into `existing`'s own node and returns `existing`'s
reference. -/
def hmerge (f : Field) (h : Heap) (e i : HVal) : Option (Heap × HVal) :=
  match f, e, i with
  | .primitive _ _, e, i => some (h, if isNoneH i then e else i)
  | .bytes _ _, e, i => some (h, if isNoneH i then e else i)
  | .date _ _, e, i => some (h, if isNoneH i then e else i)
  | .datetime _ _, e, i => some (h, if isNoneH i then e else i)
  | .dec _ _, e, i => some (h, if isNoneH i then e else i)
  | .coll sub _ _, e, i =>
    match (match e with
           | .prim .none => some []
           | .ref a =>
             match h[a]? with
             | some (.dictN es) => some es
             | _ => Option.none
           | _ => Option.none) with
    | Option.none => Option.none
    | some base =>
      match i with
      | .prim .none =>
        let (h1, a1) := halloc h (.dictN base)
        some (h1, .ref a1)
      | .ref ai =>
        match h[ai]? with
        | some (.dictN inc) => do
          let (h1, ps) ← hmergePairsWith (hmerge sub) base h inc
          let (h2, a2) := halloc h1 (.dictN (updatePairsH base ps))
          some (h2, .ref a2)
        | _ => Option.none
      | _ => Option.none
  | .vo fl _ _, e, i =>
    match e with
    | .prim .none => some (h, i)
    | _ =>
      if isNoneH i then some (h, e)
      else
        match e, i with
        | .ref ae, .ref ai =>
          match h[ae]?, h[ai]? with
          | some (.voN evs), some (.voN ivs) => do
            let (h1, ps) ← hUpdatePairs fl h evs ivs
            some (h1.set ae (.voN (updatePairsH evs ps)), .ref ae)
          | _, _ => Option.none
        | _, _ => Option.none
termination_by structural f

def hUpdatePairs (fl : FieldList) (h : Heap) (evs ivs : List (String × HVal)) :
    Option (Heap × List (String × HVal)) :=
  match fl with
  | .nil => some (h, [])
  | .cons name f r => do
    let (h1, v) ← hmerge f h ((lookupH evs name).getD (.prim .none))
      ((lookupH ivs name).getD (.prim .none))
    let (h2, ps) ← hUpdatePairs r h1 evs ivs
    some (h2, (name, v) :: ps)
termination_by structural fl
end

/-- `BaseValueObject.update` at the reference level: computes the merged
values and writes them into `self`'s node (`self._values.update(...)`). -/
def hupdate (fl : FieldList) (h : Heap) (ae ai : Nat) : Option Heap :=
  match h[ae]?, h[ai]? with
  | some (.voN evs), some (.voN ivs) => do
    let (h1, ps) ← hUpdatePairs fl h evs ivs
    some (h1.set ae (.voN (updatePairsH evs ps)))
  | _, _ => Option.none

/-- Read attribute `name` of the instance at `a`. -/
def hgetAttr (h : Heap) (a : Nat) (name : String) : Option HVal :=
  match h[a]? with
  | some (.voN es) => lookupH es name
  | _ => Option.none

/-- Read entry `k` of the dict at `a`. -/
def hgetEntry (h : Heap) (a : Nat) (k : String) : Option HVal :=
  match h[a]? with
  | some (.dictN es) => lookupH es k
  | _ => Option.none

/-- Assign attribute `name` of the instance at `a`
(`obj._values[name] = v`, the "later mutation" of the sharing claims). -/
def hsetAttr (h : Heap) (a : Nat) (name : String) (v : HVal) : Option Heap :=
  match h[a]? with
  | some (.voN es) => some (h.set a (.voN (setKeyH es name v)))
  | _ => Option.none

/-! ### A concrete reference-level scenario

Two instances of a value-object type with a primitive field and a collection
of nested address objects, used to settle the sharing clause of the spec's
frame conditions against the heap model. -/

/-- The nested address type: one primitive `street` field. -/
def addrF : FieldList := .cons "street" (.primitive "street" (.flag true)) .nil

/-- The outer type: a primitive `name` and a collection `addresses` of
address objects. -/
def applF : FieldList :=
  .cons "name" (.primitive "name" (.flag true))
    (.cons "addresses"
      (.coll (.vo addrF "addresses" (.flag true)) "addresses" (.flag true)) .nil)

/-- A heap holding two such instances: `self` at address 0 (its `addresses`
dict at 1 holds one address object, at 2, under `"home"`) and `other` at
address 3 (its `addresses` dict at 4 holds one address object, at 5, under
`"branch"`). -/
def h0 : Heap :=
  [ .voN [("name", .prim (.str "self")), ("addresses", .ref 1)],
    .dictN [("home", .ref 2)],
    .voN [("street", .prim (.str "self street"))],
    .voN [("name", .prim .none), ("addresses", .ref 4)],
    .dictN [("branch", .ref 5)],
    .voN [("street", .prim (.str "other street"))] ]

/-! ## Lemmas about the dict model

`Val` and `ValDict` are mutually inductive, so we first derive the simple
one-motive induction principles the lemmas below recurse with. -/

theorem ValDict.inductionOn (motive : ValDict → Prop) (nil : motive .nil)
    (cons : ∀ k v r, motive r → motive (.cons k v r)) : ∀ d, motive d
  | .nil => nil
  | .cons k v r => cons k v r (inductionOn motive nil cons r)

namespace ValDict

theorem lookup_setKey (d : ValDict) (k k' : String) (v : Val) :
    (d.setKey k v).lookup k' = if k' = k then some v else d.lookup k' := by
  induction d using ValDict.inductionOn with
  | nil => simp [setKey, lookup]
  | cons k0 v0 r ih =>
    simp only [setKey]
    by_cases h : k = k0
    · subst h
      by_cases h2 : k' = k <;> simp [lookup, h2]
    · by_cases h2 : k' = k0
      · subst h2
        simp [lookup, h, (Ne.symm h : k' ≠ k)]
      · simp [lookup, h, h2, ih]

theorem lookup_updatePairs (d : ValDict) (ps : List (String × Val)) (k : String) :
    (d.updatePairs ps).lookup k =
      match findLast ps k with
      | some w => some w
      | Option.none => d.lookup k := by
  induction ps generalizing d with
  | nil => simp [updatePairs, findLast]
  | cons p r ih =>
    obtain ⟨k', v⟩ := p
    simp only [updatePairs, findLast]
    rw [ih]
    cases hr : findLast r k with
    | some w => simp
    | none =>
      rw [lookup_setKey]
      by_cases h : k = k' <;> simp [h]

theorem appendD_nil (d : ValDict) : d.appendD .nil = d := by
  induction d using ValDict.inductionOn with
  | nil => rfl
  | cons k v r ih => simp [appendD, ih]

theorem appendD_assoc (a b c : ValDict) :
    (a.appendD b).appendD c = a.appendD (b.appendD c) := by
  induction a using ValDict.inductionOn with
  | nil => rfl
  | cons k v r ih => simp [appendD, ih]

theorem lookup_appendD (a b : ValDict) (k : String) :
    (a.appendD b).lookup k =
      match a.lookup k with
      | some w => some w
      | Option.none => b.lookup k := by
  induction a using ValDict.inductionOn with
  | nil => simp [appendD, lookup]
  | cons k0 v0 r ih =>
    by_cases h : k = k0 <;> simp [appendD, lookup, h, ih]

theorem hasKey_appendD (a b : ValDict) (k : String) :
    (a.appendD b).hasKey k = (a.hasKey k || b.hasKey k) := by
  simp only [hasKey, lookup_appendD]
  cases a.lookup k <;> simp

theorem setKey_fresh (d : ValDict) (k : String) (v : Val) (h : d.hasKey k = false) :
    d.setKey k v = d.appendD (.cons k v .nil) := by
  induction d using ValDict.inductionOn with
  | nil => rfl
  | cons k0 v0 r ih =>
    simp only [hasKey, lookup] at h
    by_cases hk : k = k0
    · simp [hk] at h
    · simp only [setKey, hk, if_false, appendD, cons.injEq, true_and]
      exact ih (by simpa [hasKey, fun hk2 : k = k0 => hk hk2] using h)

theorem mem_keysList_iff_hasKey (d : ValDict) (k : String) :
    k ∈ d.keysList ↔ d.hasKey k = true := by
  induction d using ValDict.inductionOn with
  | nil => simp [keysList, hasKey, lookup]
  | cons k0 v0 r ih =>
    by_cases h : k = k0
    · simp [keysList, hasKey, lookup, h]
    · simp only [keysList, List.mem_cons, h, false_or, hasKey, lookup, if_neg h]
      exact ih

theorem updatePairs_fresh (ps : List (String × Val)) (d : ValDict)
    (hfresh : ∀ p ∈ ps, d.hasKey p.1 = false) (hnd : (ps.map Prod.fst).Nodup) :
    d.updatePairs ps = d.appendD (ofList ps) := by
  induction ps generalizing d with
  | nil => simp [updatePairs, ofList, appendD_nil]
  | cons p r ih =>
    obtain ⟨k, v⟩ := p
    have hnd2 : (k :: r.map Prod.fst).Nodup := by simpa using hnd
    have hnd' := List.nodup_cons.mp hnd2
    simp only [updatePairs, ofList]
    rw [setKey_fresh d k v (hfresh (k, v) (by simp))]
    rw [ih (d.appendD (.cons k v .nil)) ?_ hnd'.2]
    · rw [appendD_assoc]
      rfl
    · intro p hp
      have h1 : d.hasKey p.1 = false := hfresh p (by simp [hp])
      have h2 : ¬(p.1 = k) := by
        intro he
        exact hnd'.1 (by rw [← he]; exact List.mem_map_of_mem Prod.fst hp)
      have h1' : d.lookup p.1 = Option.none := by
        cases hd : d.lookup p.1 with
        | some w => simp [hasKey, hd] at h1
        | none => rfl
      simp [hasKey, lookup_appendD, h1', lookup, h2]

theorem ofPairs_eq_ofList (ps : List (String × Val)) (hnd : (ps.map Prod.fst).Nodup) :
    ofPairs ps = ofList ps := by
  unfold ofPairs
  rw [updatePairs_fresh ps .nil (by intro p _; rfl) hnd]
  rfl

theorem ofList_toList (d : ValDict) : ofList d.toList = d := by
  induction d using ValDict.inductionOn with
  | nil => rfl
  | cons k v r ih => simp [toList, ofList, ih]

theorem keysList_eq_map_toList (d : ValDict) : d.keysList = d.toList.map Prod.fst := by
  induction d using ValDict.inductionOn with
  | nil => rfl
  | cons k v r ih => simp [toList, keysList, ih]

theorem nodup_keysList_of_nodupKeys (d : ValDict) (h : d.nodupKeys = true) :
    d.keysList.Nodup := by
  induction d using ValDict.inductionOn with
  | nil => simp [keysList]
  | cons k v r ih =>
    simp only [nodupKeys, Bool.and_eq_true, Bool.not_eq_true'] at h
    refine List.nodup_cons.mpr ⟨?_, ih h.2⟩
    intro hmem
    rw [mem_keysList_iff_hasKey] at hmem
    rw [hmem] at h
    exact absurd h.1 (by simp)

theorem ofPairs_toList (d : ValDict) (h : d.nodupKeys = true) :
    ofPairs d.toList = d := by
  rw [ofPairs_eq_ofList _ (by rw [← keysList_eq_map_toList]; exact nodup_keysList_of_nodupKeys d h)]
  exact ofList_toList d

theorem lookup_ofList (ps : List (String × Val)) (k : String) :
    (ofList ps).lookup k = (ps.find? (fun p => k = p.1)).map Prod.snd := by
  induction ps with
  | nil => simp [ofList, lookup]
  | cons p r ih =>
    obtain ⟨k0, v0⟩ := p
    by_cases h : k = k0 <;> simp [ofList, lookup, List.find?, h, ih]

theorem keysList_ofList (ps : List (String × Val)) :
    (ofList ps).keysList = ps.map Prod.fst := by
  induction ps with
  | nil => rfl
  | cons p r ih => obtain ⟨k, v⟩ := p; simp [ofList, keysList, ih]

theorem nodupKeys_ofList (ps : List (String × Val)) (h : (ps.map Prod.fst).Nodup) :
    (ofList ps).nodupKeys = true := by
  induction ps with
  | nil => rfl
  | cons p r ih =>
    obtain ⟨k, v⟩ := p
    simp only [List.map, List.nodup_cons] at h
    simp only [ofList, nodupKeys, Bool.and_eq_true, Bool.not_eq_true']
    refine ⟨?_, ih h.2⟩
    by_cases hk : (ofList r).hasKey k = true
    · exact absurd ((mem_keysList_iff_hasKey _ _).mpr hk)
        (by rw [keysList_ofList]; exact h.1)
    · simpa using hk

end ValDict

/-! ## Lemmas about digit rendering and parsing -/

theorem digitsVal_append_single (xs : List Nat) (d : Nat) :
    digitsVal (xs ++ [d]) = 10 * digitsVal xs + d := by
  simp [digitsVal, List.foldl_append, Nat.mul_comm]

theorem digitsVal_reverse_digitsLE :
    ∀ fuel n, n ≤ fuel → digitsVal ((digitsLE fuel n).reverse) = n := by
  intro fuel
  induction fuel with
  | zero =>
    intro n hn
    interval_cases n
    simp [digitsLE, digitsVal]
  | succ fuel ih =>
    intro n hn
    by_cases h : n = 0
    · simp [digitsLE, h, digitsVal]
    · have hdiv : n / 10 ≤ fuel := by
        have : n / 10 < n := Nat.div_lt_self (Nat.pos_of_ne_zero h) (by omega)
        omega
      simp only [digitsLE, h, if_false, List.reverse_cons]
      rw [digitsVal_append_single, ih _ hdiv]
      omega

theorem digitsVal_digitsBE (n : Nat) : digitsVal (digitsBE n) = n :=
  digitsVal_reverse_digitsLE n n le_rfl

theorem digitsVal_replicate_zero_append (j : Nat) (ds : List Nat) :
    digitsVal (List.replicate j 0 ++ ds) = digitsVal ds := by
  induction j with
  | zero => simp
  | succ j ih => simpa [digitsVal, List.replicate_succ] using ih

theorem digitsVal_padDigits (w n : Nat) : digitsVal (padDigits w n) = n := by
  rw [padDigits, digitsVal_replicate_zero_append, digitsVal_digitsBE]

theorem mem_digitsLE_lt : ∀ fuel n d, d ∈ digitsLE fuel n → d < 10 := by
  intro fuel
  induction fuel with
  | zero => intro n d h; simp [digitsLE] at h
  | succ fuel ih =>
    intro n d h
    by_cases h0 : n = 0
    · simp [digitsLE, h0] at h
    · simp only [digitsLE, h0, if_false, List.mem_cons] at h
      rcases h with h | h
      · subst h; exact Nat.mod_lt n (by omega)
      · exact ih _ _ h

theorem mem_padDigits_lt (w n d : Nat) (h : d ∈ padDigits w n) : d < 10 := by
  simp only [padDigits, List.mem_append, List.mem_replicate, List.mem_reverse,
    digitsBE] at h
  rcases h with h | h
  · omega
  · exact mem_digitsLE_lt n n d (by simpa using h)

theorem padDigits_length (w n : Nat) : w ≤ (padDigits w n).length := by
  simp [padDigits]
  omega

theorem charDigit_digitChar : ∀ d < 10, charDigit (digitChar d) = some d := by decide

theorem toNat_digitChar : ∀ d < 10, (digitChar d).toNat = 48 + d := by decide

theorem takeDigits_map_append (ds : List Nat) (rest : List Char)
    (hds : ∀ d ∈ ds, d < 10)
    (hrest : ∀ c, rest.head? = some c → charDigit c = Option.none) :
    takeDigits (ds.map digitChar ++ rest) = (ds, rest) := by
  induction ds with
  | nil =>
    cases rest with
    | nil => rfl
    | cons c r =>
      simp only [List.map_nil, List.nil_append, takeDigits]
      rw [hrest c rfl]
  | cons d ds' ih =>
    have hd : d < 10 := hds d (by simp)
    have ih' := ih (fun x hx => hds x (by simp [hx]))
    simp only [List.map_cons, List.cons_append, takeDigits]
    rw [charDigit_digitChar d hd]
    simp only [List.append_eq] at ih' ⊢
    rw [ih']

theorem parseNatChars_natToCharsPad (w n : Nat) (hw : 1 ≤ w) :
    parseNatChars (natToCharsPad w n) = some n := by
  have hne : padDigits w n ≠ [] := by
    have := padDigits_length w n
    intro h
    rw [h] at this
    simp at this
    omega
  have h1 : takeDigits (natToCharsPad w n) = (padDigits w n, []) := by
    have := takeDigits_map_append (padDigits w n) []
      (fun d hd => mem_padDigits_lt w n d hd) (by intro c hc; simp at hc)
    simpa [natToCharsPad] using this
  unfold parseNatChars
  rw [h1]
  cases hpd : padDigits w n with
  | nil => exact absurd hpd hne
  | cons a l => simp [← hpd, digitsVal_padDigits]

theorem mem_natToCharsPad_toNat (w n : Nat) (c : Char) (h : c ∈ natToCharsPad w n) :
    48 ≤ c.toNat ∧ c.toNat ≤ 57 := by
  simp only [natToCharsPad, List.mem_map] at h
  obtain ⟨d, hd, rfl⟩ := h
  have := mem_padDigits_lt w n d hd
  rw [toNat_digitChar d this]
  omega

theorem digit_char_ne (w n : Nat) (c c' : Char) (h : c ∈ natToCharsPad w n)
    (h' : c'.toNat < 48 ∨ 57 < c'.toNat) : c ≠ c' := by
  intro he
  subst he
  have := mem_natToCharsPad_toNat w n c h
  omega

/-! ## Lemmas about the date/datetime formats -/

theorem splitSep_no_sep (sep : Char) (cs : List Char) (h : sep ∉ cs) :
    splitSep sep cs = [cs] := by
  induction cs with
  | nil => rfl
  | cons c r ih =>
    have hc : ¬(c = sep) := fun he => h (by simp [he])
    rw [splitSep, if_neg hc, ih (fun hm => h (by simp [hm]))]

theorem splitSep_append (sep : Char) (a b : List Char) (h : sep ∉ a) :
    splitSep sep (a ++ sep :: b) = a :: splitSep sep b := by
  induction a with
  | nil => simp [splitSep]
  | cons c r ih =>
    have hc : ¬(c = sep) := fun he => h (by simp [he])
    have ih' := ih (fun hm => h (by simp [hm]))
    simp only [List.cons_append, splitSep, if_neg hc]
    simp only [List.append_eq] at ih' ⊢
    rw [ih']

theorem sep_not_mem_pad (w n : Nat) (c : Char) (h : c.toNat < 48 ∨ 57 < c.toNat) :
    c ∉ natToCharsPad w n := by
  intro hm
  exact digit_char_ne w n c c hm h rfl

theorem mem_fmtDateChars (y m d : Nat) (c : Char) (h : c ∈ fmtDateChars y m d) :
    (48 ≤ c.toNat ∧ c.toNat ≤ 57) ∨ c = '-' := by
  simp only [fmtDateChars, List.mem_append, List.mem_cons] at h
  rcases h with h | h | h | h | h
  · exact Or.inl (mem_natToCharsPad_toNat 4 y c h)
  · exact Or.inr h
  · exact Or.inl (mem_natToCharsPad_toNat 2 m c h)
  · exact Or.inr h
  · exact Or.inl (mem_natToCharsPad_toNat 2 d c h)

theorem mem_fmtTimeChars (h mi s : Nat) (c : Char) (hc : c ∈ fmtTimeChars h mi s) :
    (48 ≤ c.toNat ∧ c.toNat ≤ 57) ∨ c = ':' := by
  simp only [fmtTimeChars, List.mem_append, List.mem_cons] at hc
  rcases hc with h1 | h1 | h1 | h1 | h1
  · exact Or.inl (mem_natToCharsPad_toNat 2 h c h1)
  · exact Or.inr h1
  · exact Or.inl (mem_natToCharsPad_toNat 2 mi c h1)
  · exact Or.inr h1
  · exact Or.inl (mem_natToCharsPad_toNat 2 s c h1)

theorem splitSep_fmtDateChars (y m d : Nat) :
    splitSep '-' (fmtDateChars y m d) =
      [natToCharsPad 4 y, natToCharsPad 2 m, natToCharsPad 2 d] := by
  unfold fmtDateChars
  rw [splitSep_append '-' _ _ (sep_not_mem_pad 4 y '-' (by decide)),
    splitSep_append '-' _ _ (sep_not_mem_pad 2 m '-' (by decide)),
    splitSep_no_sep '-' _ (sep_not_mem_pad 2 d '-' (by decide))]

theorem splitSep_fmtTimeChars (h mi s : Nat) :
    splitSep ':' (fmtTimeChars h mi s) =
      [natToCharsPad 2 h, natToCharsPad 2 mi, natToCharsPad 2 s] := by
  unfold fmtTimeChars
  rw [splitSep_append ':' _ _ (sep_not_mem_pad 2 h ':' (by decide)),
    splitSep_append ':' _ _ (sep_not_mem_pad 2 mi ':' (by decide)),
    splitSep_no_sep ':' _ (sep_not_mem_pad 2 s ':' (by decide))]

theorem parseDate_fmtDate (y m d : Nat) (h : validDate y m d = true) :
    parseDate (fmtDate y m d) = some (y, m, d) := by
  unfold parseDate fmtDate
  have hdata : (String.mk (fmtDateChars y m d)).data = fmtDateChars y m d := rfl
  rw [hdata, splitSep_fmtDateChars]
  simp [parseNatChars_natToCharsPad 4 y (by omega),
    parseNatChars_natToCharsPad 2 m (by omega),
    parseNatChars_natToCharsPad 2 d (by omega), h]

theorem parseDatetime_fmtDatetime (y m d h mi s : Nat)
    (hd : validDate y m d = true) (ht : validTime h mi s = true) :
    parseDatetime (fmtDatetime y m d h mi s) = some (y, m, d, h, mi, s) := by
  unfold parseDatetime fmtDatetime
  have hdata : (String.mk (fmtDateChars y m d ++ ' ' :: fmtTimeChars h mi s)).data
      = fmtDateChars y m d ++ ' ' :: fmtTimeChars h mi s := rfl
  rw [hdata]
  have hsp : ' ' ∉ fmtDateChars y m d := by
    intro hm
    rcases mem_fmtDateChars y m d ' ' hm with h1 | h1
    · have : (' ' : Char).toNat = 32 := by decide
      omega
    · exact absurd h1 (by decide)
  have hsp2 : ' ' ∉ fmtTimeChars h mi s := by
    intro hm
    rcases mem_fmtTimeChars h mi s ' ' hm with h1 | h1
    · have : (' ' : Char).toNat = 32 := by decide
      omega
    · exact absurd h1 (by decide)
  rw [splitSep_append ' ' _ _ hsp, splitSep_no_sep ' ' _ hsp2]
  simp [splitSep_fmtDateChars, splitSep_fmtTimeChars,
    parseNatChars_natToCharsPad 4 y (by omega),
    parseNatChars_natToCharsPad 2 m (by omega),
    parseNatChars_natToCharsPad 2 d (by omega),
    parseNatChars_natToCharsPad 2 h (by omega),
    parseNatChars_natToCharsPad 2 mi (by omega),
    parseNatChars_natToCharsPad 2 s (by omega), hd, ht]

/-! ## Lemmas about the decimal format -/

theorem takeSign_digit (d : Nat) (hd : d < 10) (r : List Char) :
    takeSign (digitChar d :: r) = (false, digitChar d :: r) := by
  have ht := toNat_digitChar d hd
  have hm : ('-' : Char).toNat = 45 := by decide
  have hp : ('+' : Char).toNat = 43 := by decide
  unfold takeSign
  split
  next heq =>
    injection heq with h1 _
    rw [h1, hm] at ht
    omega
  next heq =>
    injection heq with h1 _
    rw [h1, hp] at ht
    omega
  next => rfl

theorem parseDecChars_digits (neg : Bool) (ds : List Nat) (hne : ds ≠ [])
    (hlt : ∀ d ∈ ds, d < 10) :
    parseDecChars ((if neg then ['-'] else []) ++ ds.map digitChar)
      = some (neg, digitsVal ds, 0) := by
  obtain ⟨d, ds', rfl⟩ : ∃ d ds', ds = d :: ds' := by
    cases ds with
    | nil => exact absurd rfl hne
    | cons a b => exact ⟨a, b, rfl⟩
  have hsign : takeSign ((if neg then ['-'] else []) ++ (d :: ds').map digitChar)
      = (neg, (d :: ds').map digitChar) := by
    cases neg
    · simpa using takeSign_digit d (hlt d (by simp)) (ds'.map digitChar)
    · rfl
  have htd : takeDigits ((d :: ds').map digitChar) = (d :: ds', []) := by
    simpa using takeDigits_map_append (d :: ds') [] hlt (by intro c hc; simp at hc)
  unfold parseDecChars
  rw [hsign]
  simp only [htd, List.isEmpty_cons, Bool.false_and, if_false, List.append_nil,
    List.length_nil, Nat.cast_zero, neg_zero, Bool.false_eq_true]

theorem parseDecChars_digits_dot (neg : Bool) (ip fp : List Nat) (hne : ip ≠ [])
    (hip : ∀ d ∈ ip, d < 10) (hfp : ∀ d ∈ fp, d < 10) :
    parseDecChars ((if neg then ['-'] else []) ++
        (ip.map digitChar ++ '.' :: fp.map digitChar))
      = some (neg, digitsVal (ip ++ fp), -(fp.length : Int)) := by
  obtain ⟨d, ip', rfl⟩ : ∃ d ip', ip = d :: ip' := by
    cases ip with
    | nil => exact absurd rfl hne
    | cons a b => exact ⟨a, b, rfl⟩
  have hsign : takeSign ((if neg then ['-'] else []) ++
      ((d :: ip').map digitChar ++ '.' :: fp.map digitChar))
      = (neg, (d :: ip').map digitChar ++ '.' :: fp.map digitChar) := by
    cases neg
    · simpa using takeSign_digit d (hip d (by simp))
        (ip'.map digitChar ++ '.' :: fp.map digitChar)
    · rfl
  have htd : takeDigits ((d :: ip').map digitChar ++ '.' :: fp.map digitChar)
      = (d :: ip', '.' :: fp.map digitChar) :=
    takeDigits_map_append (d :: ip') ('.' :: fp.map digitChar) hip
      (by
        intro c hc
        simp only [List.head?_cons, Option.some.injEq] at hc
        rw [← hc]
        decide)
  have htd2 : takeDigits (fp.map digitChar) = (fp, []) := by
    simpa using takeDigits_map_append fp [] hfp (by intro c hc; simp at hc)
  unfold parseDecChars
  rw [hsign]
  simp only [htd, htd2, List.isEmpty_cons, Bool.false_and, if_false,
    List.length_map, Bool.false_eq_true]

theorem decNumEq_refl (n : Bool) (c : Nat) (e : Int) : decNumEq n c e n c e = true := by
  simp [decNumEq]

theorem parseDec_formatFixed (neg : Bool) (c : Nat) (e : Int) :
    ∃ c' e', parseDec (formatFixed neg c e) = some (neg, c', e')
      ∧ decNumEq neg c' e' neg c e = true := by
  by_cases he : 0 ≤ e
  · refine ⟨c * 10 ^ e.toNat, 0, ?_, ?_⟩
    · unfold parseDec formatFixed
      have hdata : (String.mk (formatFixedChars neg c e)).data = formatFixedChars neg c e := rfl
      rw [hdata]
      unfold formatFixedChars
      rw [if_pos he]
      have := parseDecChars_digits neg (padDigits 1 (c * 10 ^ e.toNat))
        (by
          intro h
          have := padDigits_length 1 (c * 10 ^ e.toNat)
          rw [h] at this
          simp at this)
        (fun d hd => mem_padDigits_lt _ _ d hd)
      rw [natToChars, natToCharsPad] at *
      rw [this, digitsVal_padDigits]
    · unfold decNumEq
      by_cases h0 : (0 : Int) ≥ e
      · have h1 : e = 0 := le_antisymm h0 he
        subst h1
        simp
      · rw [if_neg h0]
        have h1 : (e - 0).toNat = e.toNat := by simp
        simp [h1]
  · push_neg at he
    refine ⟨c, e, ?_, decNumEq_refl neg c e⟩
    unfold parseDec formatFixed
    have hdata : (String.mk (formatFixedChars neg c e)).data = formatFixedChars neg c e := rfl
    rw [hdata]
    unfold formatFixedChars
    rw [if_neg (by omega : ¬(0 : Int) ≤ e)]
    set k := (-e).toNat with hk
    set ds := padDigits (k + 1) c with hds
    have hlen : k + 1 ≤ ds.length := padDigits_length (k + 1) c
    have hip : ∀ d ∈ ds.take (ds.length - k), d < 10 :=
      fun d hd => mem_padDigits_lt (k + 1) c d (List.take_subset _ _ hd)
    have hfp : ∀ d ∈ ds.drop (ds.length - k), d < 10 :=
      fun d hd => mem_padDigits_lt (k + 1) c d (List.drop_subset _ _ hd)
    have hne : ds.take (ds.length - k) ≠ [] := by
      intro h
      have := congrArg List.length h
      simp only [List.length_take, List.length_nil] at this
      omega
    have := parseDecChars_digits_dot neg (ds.take (ds.length - k))
      (ds.drop (ds.length - k)) hne hip hfp
    rw [this, List.take_append_drop, digitsVal_padDigits]
    have hfl : (ds.drop (ds.length - k)).length = k := by
      rw [List.length_drop]
      omega
    rw [hfl]
    have : -((k : Nat) : Int) = e := by
      rw [hk]
      omega
    rw [this]

/-! ## Lemmas about the UTF-8 codec -/

theorem decodeCp_encodeCp (n : Nat) (rest : List Nat)
    (hv : n < 0xD800 ∨ (0xDFFF < n ∧ n < 0x110000)) :
    decodeCp (encodeCp n ++ rest) = some (n, rest) := by
  by_cases h1 : n < 0x80
  · simp only [encodeCp, if_pos h1, List.cons_append, List.nil_append, decodeCp,
      if_pos h1]
  · by_cases h2 : n < 0x800
    · simp only [encodeCp, if_neg h1, if_pos h2, List.cons_append, List.nil_append,
        decodeCp]
      rw [if_neg (by omega), if_neg (by omega), if_pos (by omega)]
      rw [if_pos (by simp only [beq_iff_eq]; omega)]
      simp only [Option.some.injEq, Prod.mk.injEq]
      exact ⟨by omega, trivial⟩
    · by_cases h3 : n < 0x10000
      · simp only [encodeCp, if_neg h1, if_neg h2, if_pos h3, List.cons_append,
          List.nil_append, decodeCp]
        rw [if_neg (by omega), if_neg (by omega), if_neg (by omega),
          if_pos (by omega)]
        rw [if_pos ?guard]
        · simp only [Option.some.injEq, Prod.mk.injEq]
          exact ⟨by omega, trivial⟩
        case guard =>
          simp only [Bool.and_eq_true, Bool.or_eq_true, Bool.not_eq_true',
            beq_iff_eq, beq_eq_false_iff_ne, ne_eq, decide_eq_true_eq]
          omega
      · simp only [encodeCp, if_neg h1, if_neg h2, if_neg h3, List.cons_append,
          List.nil_append, decodeCp]
        rw [if_neg (by omega), if_neg (by omega), if_neg (by omega),
          if_neg (by omega), if_pos (by omega)]
        rw [if_pos ?guard4]
        · simp only [Option.some.injEq, Prod.mk.injEq]
          exact ⟨by omega, trivial⟩
        case guard4 =>
          simp only [Bool.and_eq_true, Bool.or_eq_true, Bool.not_eq_true',
            beq_iff_eq, beq_eq_false_iff_ne, ne_eq, decide_eq_true_eq]
          omega

theorem encodeCp_length_pos (n : Nat) : 1 ≤ (encodeCp n).length := by
  unfold encodeCp
  split
  · simp
  · split
    · simp
    · split <;> simp

theorem decodeCps_encode (cs : List Char) :
    ∀ fuel, (cs.foldr (fun c acc => encodeCp c.toNat ++ acc) []).length ≤ fuel →
      decodeCps fuel (cs.foldr (fun c acc => encodeCp c.toNat ++ acc) [])
        = some (cs.map Char.toNat) := by
  induction cs with
  | nil =>
    intro fuel _
    cases fuel <;> rfl
  | cons c cs' ih =>
    intro fuel hfuel
    have hv : c.toNat < 0xD800 ∨ (0xDFFF < c.toNat ∧ c.toNat < 0x110000) := c.valid
    simp only [List.foldr] at hfuel ⊢
    have hlen : 1 ≤ (encodeCp c.toNat).length := encodeCp_length_pos c.toNat
    set rest := cs'.foldr (fun c acc => encodeCp c.toNat ++ acc) [] with hrest
    have hbytes : encodeCp c.toNat ++ rest ≠ [] := by
      intro h
      have := congrArg List.length h
      simp only [List.length_append, List.length_nil] at this
      omega
    cases fuel with
    | zero =>
      exfalso
      simp only [List.length_append] at hfuel
      omega
    | succ fuel' =>
      obtain ⟨b, bs, hb⟩ : ∃ b bs, encodeCp c.toNat ++ rest = b :: bs := by
        cases hcase : encodeCp c.toNat ++ rest with
        | nil => exact absurd hcase hbytes
        | cons b bs => exact ⟨b, bs, rfl⟩
      rw [hb]
      simp only [decodeCps]
      rw [← hb, decodeCp_encodeCp c.toNat rest hv]
      have ih' := ih fuel' (by
        simp only [List.length_append] at hfuel
        omega)
      simp [ih']

theorem utf8Decode_utf8Encode (s : String) : utf8Decode (utf8Encode s) = some s := by
  unfold utf8Decode utf8Encode
  rw [decodeCps_encode s.data _ le_rfl]
  show some (String.mk ((s.data.map Char.toNat).map Char.ofNat)) = some s
  have h1 : (s.data.map Char.toNat).map Char.ofNat = s.data := by
    rw [List.map_map]
    have h2 : s.data.map (Char.ofNat ∘ Char.toNat) = s.data.map id := by
      apply List.map_congr_left
      intro c _
      simp [Char.ofNat_toNat]
    rw [h2, List.map_id]
  rw [h1]

/-! ## Induction principles for the mutual inductives -/

mutual
theorem Field.inductionOnP (P : Field → Prop) (Q : FieldList → Prop)
    (hprim : ∀ k p, P (.primitive k p)) (hbytes : ∀ k p, P (.bytes k p))
    (hdate : ∀ k p, P (.date k p)) (hdatetime : ∀ k p, P (.datetime k p))
    (hdec : ∀ k p, P (.dec k p))
    (hcoll : ∀ sub k p, P sub → P (.coll sub k p))
    (hvo : ∀ fl k p, Q fl → P (.vo fl k p))
    (hnil : Q .nil)
    (hcons : ∀ name f r, P f → Q r → Q (.cons name f r)) : ∀ f, P f
  | .primitive k p => hprim k p
  | .bytes k p => hbytes k p
  | .date k p => hdate k p
  | .datetime k p => hdatetime k p
  | .dec k p => hdec k p
  | .coll sub k p => hcoll sub k p
      (Field.inductionOnP P Q hprim hbytes hdate hdatetime hdec hcoll hvo hnil hcons sub)
  | .vo fl k p => hvo fl k p
      (FieldList.inductionOnQ P Q hprim hbytes hdate hdatetime hdec hcoll hvo hnil hcons fl)

theorem FieldList.inductionOnQ (P : Field → Prop) (Q : FieldList → Prop)
    (hprim : ∀ k p, P (.primitive k p)) (hbytes : ∀ k p, P (.bytes k p))
    (hdate : ∀ k p, P (.date k p)) (hdatetime : ∀ k p, P (.datetime k p))
    (hdec : ∀ k p, P (.dec k p))
    (hcoll : ∀ sub k p, P sub → P (.coll sub k p))
    (hvo : ∀ fl k p, Q fl → P (.vo fl k p))
    (hnil : Q .nil)
    (hcons : ∀ name f r, P f → Q r → Q (.cons name f r)) : ∀ fl, Q fl
  | .nil => hnil
  | .cons name f r => hcons name f r
      (Field.inductionOnP P Q hprim hbytes hdate hdatetime hdec hcoll hvo hnil hcons f)
      (FieldList.inductionOnQ P Q hprim hbytes hdate hdatetime hdec hcoll hvo hnil hcons r)
end

/-! ## More dict lemmas used by the operation proofs -/

namespace ValDict

theorem updatePairs_cons_skip (ps : List (String × Val)) (k : String) (v : Val)
    (d : ValDict) (h : k ∉ ps.map Prod.fst) :
    (ValDict.cons k v d).updatePairs ps = .cons k v (d.updatePairs ps) := by
  induction ps generalizing v d with
  | nil => rfl
  | cons p r ih =>
    obtain ⟨k', w⟩ := p
    have hk : ¬(k' = k) := by
      intro he
      exact h (by simp [he])
    simp only [updatePairs, setKey, hk, if_false]
    exact ih v (d.setKey k' w) (fun hm => h (by simp [hm]))

theorem updatePairs_parallel (ps : List (String × Val)) (evs : ValDict)
    (hkeys : evs.keysList = ps.map Prod.fst) (hnd : (ps.map Prod.fst).Nodup) :
    evs.updatePairs ps = ofList ps := by
  induction ps generalizing evs with
  | nil =>
    cases evs with
    | nil => rfl
    | cons k v r => simp [keysList] at hkeys
  | cons p r ih =>
    obtain ⟨k, w⟩ := p
    cases evs with
    | nil => simp [keysList] at hkeys
    | cons k0 v0 r0 =>
      simp only [keysList, List.map_cons, List.cons.injEq] at hkeys
      obtain ⟨rfl, hkeys'⟩ := hkeys
      have hnd2 : (k0 :: r.map Prod.fst).Nodup := by simpa using hnd
      have hnd' := List.nodup_cons.mp hnd2
      have hstep : (ValDict.cons k0 v0 r0).setKey k0 w = .cons k0 w r0 := by
        simp [ValDict.setKey]
      simp only [updatePairs, hstep]
      rw [updatePairs_cons_skip r k0 w r0 hnd'.1, ih r0 hkeys' hnd'.2]
      rfl

theorem findLast_eq_none_of_not_mem (ps : List (String × Val)) (k : String)
    (h : k ∉ ps.map Prod.fst) : findLast ps k = Option.none := by
  induction ps with
  | nil => rfl
  | cons p r ih =>
    obtain ⟨k', v⟩ := p
    have hk : ¬(k = k') := by
      intro he
      exact h (by simp [he])
    simp only [findLast, ih (fun hm => h (by simp [hm])), hk, if_false]

theorem lookup_eq_none_of_not_mem (d : ValDict) (k : String)
    (h : d.hasKey k = false) : d.lookup k = Option.none := by
  cases hd : d.lookup k with
  | some w => simp [hasKey, hd] at h
  | none => rfl

end ValDict

/-! ## Null-merge lemmas (the `merge`-null-ignorance behaviour) -/

theorem if_none_self (v : Val) : (if v = Val.none then Val.none else v) = v := by
  split
  · rename_i h
    exact h.symm
  · rfl

theorem mergePairs_nil_of_rep (sub : Field)
    (ihsub : ∀ v, Rep sub v → Field.merge sub .none v = some v) :
    ∀ es, RepEntries sub es →
      mergePairsWith (Field.merge sub) .nil es = some es.toList := by
  intro es
  induction es using ValDict.inductionOn with
  | nil => intro _; rfl
  | cons k w r ih =>
    intro hre
    have h1 : Rep sub w ∧ RepEntries sub r := by
      simpa [RepEntries] using hre
    simp only [mergePairsWith, ValDict.lookup, Option.getD_none]
    rw [ihsub w h1.1, ih h1.2]
    rfl

theorem merge_none_both : ∀ f v, Rep f v →
    Field.merge f v .none = some v ∧ Field.merge f .none v = some v := by
  refine Field.inductionOnP
    (fun f => ∀ v, Rep f v →
      Field.merge f v .none = some v ∧ Field.merge f .none v = some v)
    (fun _ => True) ?_ ?_ ?_ ?_ ?_ ?_ ?_ trivial (fun _ _ _ _ _ => trivial)
  case refine_1 =>
    intro k p v hv
    constructor <;> simp [Field.merge, if_none_self]
  case refine_2 =>
    intro k p v hv
    constructor <;> simp [Field.merge, if_none_self]
  case refine_3 =>
    intro k p v hv
    constructor <;> simp [Field.merge, if_none_self]
  case refine_4 =>
    intro k p v hv
    constructor <;> simp [Field.merge, if_none_self]
  case refine_5 =>
    intro k p v hv
    constructor <;> simp [Field.merge, if_none_self]
  case refine_6 =>
    intro sub k p ihsub v hv
    simp only [Rep] at hv
    obtain ⟨es, rfl, hnd, hre⟩ := hv
    constructor
    · simp [Field.merge]
    · simp only [Field.merge]
      rw [mergePairs_nil_of_rep sub (fun w hw => (ihsub w hw).2) es hre]
      show some (Val.dict (ValDict.ofPairs es.toList)) = some (Val.dict es)
      rw [ValDict.ofPairs_toList es hnd]
  case refine_7 =>
    intro fl k p _ v hv
    simp only [Rep] at hv
    obtain ⟨vs, rfl, _⟩ := hv
    constructor <;> simp [Field.merge]

/-! ## Totality and preservation of `merge` on representable values -/

theorem FieldList.inductionOnSimple (motive : FieldList → Prop) (hnil : motive .nil)
    (hcons : ∀ name f r, motive r → motive (.cons name f r)) : ∀ fl, motive fl
  | .nil => hnil
  | .cons name f r => hcons name f r (inductionOnSimple motive hnil hcons r)

theorem RepEntries_lookup (sub : Field) :
    ∀ es, RepEntries sub es → ∀ k w, es.lookup k = some w → Rep sub w := by
  intro es
  induction es using ValDict.inductionOn with
  | nil => intro _ k w hw; simp [ValDict.lookup] at hw
  | cons k0 w0 r ih =>
    intro hre k w hw
    have h1 : Rep sub w0 ∧ RepEntries sub r := by simpa [RepEntries] using hre
    by_cases h : k = k0
    · have hw2 := hw
      simp [ValDict.lookup, h] at hw2
      first
        | exact hw2 ▸ h1.1
        | exact hw2.symm ▸ h1.1
    · simp only [ValDict.lookup, h, if_false] at hw
      exact ih h1.2 k w hw

theorem RepVals_lookup :
    ∀ fl vs, RepVals fl vs → ∀ name f, fl.find? name = some f →
      ∃ w, vs.lookup name = some w ∧ Rep f w := by
  intro fl
  induction fl using FieldList.inductionOnSimple with
  | hnil => intro vs _ name f hf; simp [FieldList.find?] at hf
  | hcons name0 f0 r ih =>
    intro vs hrv name f hf
    simp only [RepVals] at hrv
    obtain ⟨w0, restV, rfl, hw0, hrest⟩ := hrv
    by_cases h : name = name0
    · have hf2 := hf
      simp [FieldList.find?, h] at hf2
      first
        | exact ⟨w0, by simp [ValDict.lookup, h], hf2 ▸ hw0⟩
        | exact ⟨w0, by simp [ValDict.lookup, h], hf2.symm ▸ hw0⟩
    · simp only [FieldList.find?, h, if_false] at hf
      obtain ⟨w, hw, hrep⟩ := ih restV hrest name f hf
      exact ⟨w, by simp [ValDict.lookup, h, hw], hrep⟩

theorem RepVals_keys :
    ∀ fl vs, RepVals fl vs → vs.keysList = fl.names := by
  intro fl
  induction fl using FieldList.inductionOnSimple with
  | hnil => intro vs hrv; simp only [RepVals] at hrv; simp [hrv, ValDict.keysList, FieldList.names]
  | hcons name f r ih =>
    intro vs hrv
    simp only [RepVals] at hrv
    obtain ⟨w, restV, rfl, _, hrest⟩ := hrv
    simp [ValDict.keysList, FieldList.names, ih restV hrest]

theorem wf_names_nodup :
    ∀ fl, FieldList.wf fl = true → fl.names.Nodup := by
  intro fl
  induction fl using FieldList.inductionOnSimple with
  | hnil => intro _; simp [FieldList.names]
  | hcons name f r ih =>
    intro hwf
    simp only [FieldList.wf, Bool.and_eq_true, Bool.not_eq_true'] at hwf
    obtain ⟨⟨⟨⟨h1, h2⟩, h3⟩, h4⟩, h5⟩ := hwf
    refine List.nodup_cons.mpr ⟨?_, ih h5⟩
    intro hmem
    simp [List.contains, hmem] at h1

theorem wf_parts (name : String) (f : Field) (r : FieldList)
    (hwf : FieldList.wf (.cons name f r) = true) :
    name ∉ r.names ∧ f.key ∉ r.keysOf ∧ f.key ≠ "" ∧ Field.wf f = true
      ∧ FieldList.wf r = true := by
  simp only [FieldList.wf, Bool.and_eq_true, Bool.not_eq_true'] at hwf
  obtain ⟨⟨⟨⟨h1, h2⟩, h3⟩, h4⟩, h5⟩ := hwf
  refine ⟨?_, ?_, ?_, h4, h5⟩
  · intro hmem
    simp [List.contains, hmem] at h1
  · intro hmem
    simp [List.contains, hmem] at h2
  · intro he
    rw [he] at h3
    simp at h3

theorem updatePairsOf_congr :
    ∀ fl (evs evs' ivs ivs' : ValDict),
      (∀ name ∈ fl.names, evs.lookup name = evs'.lookup name) →
      (∀ name ∈ fl.names, ivs.lookup name = ivs'.lookup name) →
      updatePairsOf fl evs ivs = updatePairsOf fl evs' ivs' := by
  intro fl
  induction fl using FieldList.inductionOnSimple with
  | hnil => intro _ _ _ _ _ _; rfl
  | hcons name f r ih =>
    intro evs evs' ivs ivs' he hi
    simp only [updatePairsOf]
    rw [he name (by simp [FieldList.names]), hi name (by simp [FieldList.names]),
      ih evs evs' ivs ivs' (fun n hn => he n (by simp [FieldList.names, hn]))
        (fun n hn => hi n (by simp [FieldList.names, hn]))]

namespace ValDict

theorem nodupKeys_setKey (d : ValDict) (k : String) (v : Val)
    (h : d.nodupKeys = true) : (d.setKey k v).nodupKeys = true := by
  induction d using ValDict.inductionOn with
  | nil => simp [setKey, nodupKeys, hasKey, lookup]
  | cons k0 v0 r ih =>
    simp only [nodupKeys, Bool.and_eq_true, Bool.not_eq_true'] at h
    by_cases hk : k = k0
    · simp [setKey, hk, nodupKeys, h.1, h.2]
    · simp only [setKey, hk, if_false, nodupKeys, Bool.and_eq_true,
        Bool.not_eq_true']
      refine ⟨?_, ih h.2⟩
      simp only [hasKey, lookup_setKey]
      rw [if_neg (fun he : k0 = k => hk he.symm)]
      simpa [hasKey] using h.1

theorem nodupKeys_updatePairs (ps : List (String × Val)) (d : ValDict)
    (h : d.nodupKeys = true) : (d.updatePairs ps).nodupKeys = true := by
  induction ps generalizing d with
  | nil => exact h
  | cons p r ih =>
    obtain ⟨k, v⟩ := p
    exact ih (d.setKey k v) (nodupKeys_setKey d k v h)

theorem mem_toList_setKey (d : ValDict) (k : String) (v : Val) (p : String × Val)
    (h : p ∈ (d.setKey k v).toList) : p ∈ d.toList ∨ p = (k, v) := by
  induction d using ValDict.inductionOn with
  | nil => simpa [setKey, toList] using h
  | cons k0 v0 r ih =>
    by_cases hk : k = k0
    · simp only [setKey, hk, if_pos rfl, toList, List.mem_cons] at h
      rcases h with h | h
      · exact Or.inr (by rw [h, hk])
      · exact Or.inl (by simp [toList, h])
    · simp only [setKey, hk, if_false, toList, List.mem_cons] at h
      rcases h with h | h
      · exact Or.inl (by simp [toList, h])
      · rcases ih h with h2 | h2
        · exact Or.inl (by simp [toList, h2])
        · exact Or.inr h2

theorem mem_toList_updatePairs (ps : List (String × Val)) (d : ValDict)
    (p : String × Val) (h : p ∈ (d.updatePairs ps).toList) :
    p ∈ d.toList ∨ p ∈ ps := by
  induction ps generalizing d with
  | nil => exact Or.inl h
  | cons q r ih =>
    obtain ⟨k, v⟩ := q
    rcases ih (d.setKey k v) h with h2 | h2
    · rcases mem_toList_setKey d k v p h2 with h3 | h3
      · exact Or.inl h3
      · exact Or.inr (by simp [h3])
    · exact Or.inr (by simp [h2])

end ValDict

theorem RepEntries_of_forall_mem (sub : Field) :
    ∀ es, (∀ p ∈ es.toList, Rep sub p.2) → RepEntries sub es := by
  intro es
  induction es using ValDict.inductionOn with
  | nil => intro _; simp [RepEntries]
  | cons k w r ih =>
    intro h
    have h1 : Rep sub w := h (k, w) (by simp [ValDict.toList])
    have h2 : RepEntries sub r := ih (fun p hp => h p (by simp [ValDict.toList, hp]))
    simpa [RepEntries] using And.intro h1 h2

theorem RepEntries_mem (sub : Field) :
    ∀ es, RepEntries sub es → ∀ p ∈ es.toList, Rep sub p.2 := by
  intro es
  induction es using ValDict.inductionOn with
  | nil => intro _ p hp; simp [ValDict.toList] at hp
  | cons k w r ih =>
    intro hre p hp
    have h1 : Rep sub w ∧ RepEntries sub r := by simpa [RepEntries] using hre
    simp only [ValDict.toList, List.mem_cons] at hp
    rcases hp with hp | hp
    · rw [hp]
      exact h1.1
    · exact ih h1.2 p hp

/-- Totality and representability preservation of the collection-merge
comprehension, together with its lookup behaviour. -/
theorem mergePairsWith_spec (sub : Field)
    (ihsub : ∀ a b, RepOpt sub a → RepOpt sub b →
      ∃ r, Field.merge sub a b = some r ∧ RepOpt sub r
        ∧ (Rep sub a → Rep sub b → Rep sub r))
    (e : ValDict) (hre : RepEntries sub e) :
    ∀ i, RepEntries sub i → i.nodupKeys = true →
      ∃ ps, mergePairsWith (Field.merge sub) e i = some ps
        ∧ ps.map Prod.fst = i.keysList
        ∧ (∀ p ∈ ps, Rep sub p.2)
        ∧ ∀ k, (i.lookup k = Option.none → ValDict.findLast ps k = Option.none)
            ∧ (∀ w, i.lookup k = some w →
                ∃ r, Field.merge sub ((e.lookup k).getD .none) w = some r
                  ∧ ValDict.findLast ps k = some r) := by
  intro i
  induction i using ValDict.inductionOn with
  | nil =>
    intro _ _
    refine ⟨[], rfl, rfl, by simp, ?_⟩
    intro k
    exact ⟨fun _ => rfl, fun w hw => by simp [ValDict.lookup] at hw⟩
  | cons k0 w0 r ih =>
    intro hri hnd
    have h1 : Rep sub w0 ∧ RepEntries sub r := by simpa [RepEntries] using hri
    have hnd1 : r.hasKey k0 = false ∧ r.nodupKeys = true := by
      simpa [ValDict.nodupKeys, Bool.not_eq_true'] using hnd
    -- merge the head entry
    have hx : RepOpt sub ((e.lookup k0).getD .none) := by
      cases hx0 : e.lookup k0 with
      | some w => exact Or.inr (by simpa using RepEntries_lookup sub e hre k0 w hx0)
      | none => exact Or.inl (by simp)
    obtain ⟨r0, hr0, hrep0, hreprep0⟩ := ihsub _ w0 hx (Or.inr h1.1)
    have hrep0' : Rep sub r0 := by
      rcases hx with hx | hx
      · have := (merge_none_both sub w0 h1.1).2
        rw [hx] at hr0
        rw [this] at hr0
        exact (Option.some.injEq _ _ ▸ hr0 : _) ▸ h1.1
      · exact hreprep0 hx h1.1
    obtain ⟨ps', hps', hkeys', hmem', hpt'⟩ := ih h1.2 hnd1.2
    refine ⟨(k0, r0) :: ps', ?_, by simp [hkeys', ValDict.keysList], ?_, ?_⟩
    · simp only [mergePairsWith, hr0, hps', Option.bind_some]
      rfl
    · intro p hp
      rcases List.mem_cons.mp hp with hp | hp
      · rw [hp]
        exact hrep0'
      · exact hmem' p hp
    · intro k
      constructor
      · intro hk
        have hne : ¬(k = k0) := by
          intro he
          rw [he] at hk
          simp [ValDict.lookup] at hk
        have hkr : r.lookup k = Option.none := by
          simpa [ValDict.lookup, hne] using hk
        simp only [ValDict.findLast, (hpt' k).1 hkr, hne, if_false]
      · intro w hw
        by_cases he : k = k0
        · subst he
          have hw0' : w0 = w := by simpa [ValDict.lookup] using hw
          subst hw0'
          refine ⟨r0, hr0, ?_⟩
          have hkr : r.lookup k = Option.none :=
            ValDict.lookup_eq_none_of_not_mem r k hnd1.1
          simp [ValDict.findLast, (hpt' k).1 hkr]
        · have hw' : r.lookup k = some w := by simpa [ValDict.lookup, he] using hw
          obtain ⟨rr, hrr, hfl⟩ := (hpt' k).2 w hw'
          exact ⟨rr, hrr, by simp [ValDict.findLast, hfl]⟩

/-- Totality, representability preservation and the pointwise behaviour of
`Field.merge` / `BaseValueObject.update` on representable values. -/
theorem mergeTotal :
    ∀ f, Field.wf f = true → ∀ a b, RepOpt f a → RepOpt f b →
      ∃ r, Field.merge f a b = some r ∧ RepOpt f r
        ∧ (Rep f a → Rep f b → Rep f r) := by
  have main := Field.inductionOnP
    (fun f => Field.wf f = true → ∀ a b, RepOpt f a → RepOpt f b →
      ∃ r, Field.merge f a b = some r ∧ RepOpt f r
        ∧ (Rep f a → Rep f b → Rep f r))
    (fun fl => FieldList.wf fl = true → ∀ evs ivs, RepVals fl evs → RepVals fl ivs →
      ∃ ps, updatePairsOf fl evs ivs = some ps ∧ ps.map Prod.fst = fl.names
        ∧ RepVals fl (ValDict.ofList ps)
        ∧ ∀ name f, fl.find? name = some f →
            ∃ r, Field.merge f ((evs.lookup name).getD .none)
                ((ivs.lookup name).getD .none) = some r
              ∧ ValDict.findLast ps name = some r)
  refine main ?_ ?_ ?_ ?_ ?_ ?_ ?_ ?_ ?_
  case refine_1 =>
    intro k p _ a b ha hb
    refine ⟨if b = .none then a else b, by simp [Field.merge], ?_, ?_⟩
    · split
      · exact ha
      · rcases hb with hb | hb
        · rename_i hne
          exact absurd hb hne
        · exact Or.inr hb
    · intro hra hrb
      split
      · exact hra
      · exact hrb
  case refine_2 =>
    intro k p _ a b ha hb
    refine ⟨if b = .none then a else b, by simp [Field.merge], ?_, ?_⟩
    · split
      · exact ha
      · rcases hb with hb | hb
        · rename_i hne
          exact absurd hb hne
        · exact Or.inr hb
    · intro hra hrb
      split
      · exact hra
      · exact hrb
  case refine_3 =>
    intro k p _ a b ha hb
    refine ⟨if b = .none then a else b, by simp [Field.merge], ?_, ?_⟩
    · split
      · exact ha
      · rcases hb with hb | hb
        · rename_i hne
          exact absurd hb hne
        · exact Or.inr hb
    · intro hra hrb
      split
      · exact hra
      · exact hrb
  case refine_4 =>
    intro k p _ a b ha hb
    refine ⟨if b = .none then a else b, by simp [Field.merge], ?_, ?_⟩
    · split
      · exact ha
      · rcases hb with hb | hb
        · rename_i hne
          exact absurd hb hne
        · exact Or.inr hb
    · intro hra hrb
      split
      · exact hra
      · exact hrb
  case refine_5 =>
    intro k p _ a b ha hb
    refine ⟨if b = .none then a else b, by simp [Field.merge], ?_, ?_⟩
    · split
      · exact ha
      · rcases hb with hb | hb
        · rename_i hne
          exact absurd hb hne
        · exact Or.inr hb
    · intro hra hrb
      split
      · exact hra
      · exact hrb
  case refine_6 =>
    intro sub k p ihsub hwf a b ha hb
    have hwf' : Field.wf sub = true := by simpa [Field.wf] using hwf
    have ihsub' := ihsub hwf'
    rcases ha with ha | ha
    · subst ha
      rcases hb with hb | hb
      · subst hb
        refine ⟨.dict .nil, by simp [Field.merge], Or.inr ?_, ?_⟩
        · simp only [Rep]
          exact ⟨.nil, rfl, rfl, by simp [RepEntries]⟩
        · intro hra _
          simp only [Rep] at hra
          obtain ⟨es, hes, -⟩ := hra
          exact absurd hes (by simp)
      · refine ⟨b, (merge_none_both _ b hb).2, Or.inr hb, ?_⟩
        intro hra _
        simp only [Rep] at hra
        obtain ⟨es, hes, -⟩ := hra
        exact absurd hes (by simp)
    · rcases hb with hb | hb
      · subst hb
        exact ⟨a, (merge_none_both _ a ha).1, Or.inr ha, fun _ _ => ha⟩
      · simp only [Rep] at ha hb
        obtain ⟨e, rfl, hnde, hree⟩ := ha
        obtain ⟨i, rfl, hndi, hrei⟩ := hb
        obtain ⟨ps, hps, hkeys, hmem, hpt⟩ :=
          mergePairsWith_spec sub ihsub' e hree i hrei hndi
        have hrepres : Rep (.coll sub k p) (.dict (e.updatePairs ps)) := by
          simp only [Rep]
          refine ⟨e.updatePairs ps, rfl, ValDict.nodupKeys_updatePairs ps e hnde, ?_⟩
          refine RepEntries_of_forall_mem sub _ ?_
          intro q hq
          rcases ValDict.mem_toList_updatePairs ps e q hq with hq2 | hq2
          · exact RepEntries_mem sub e hree q hq2
          · exact hmem q hq2
        refine ⟨.dict (e.updatePairs ps), ?_, Or.inr hrepres, fun _ _ => hrepres⟩
        simp [Field.merge, hps]
  case refine_7 =>
    intro fl k p ihQ hwf a b ha hb
    have hwf' : FieldList.wf fl = true := by simpa [Field.wf] using hwf
    rcases ha with ha | ha
    · subst ha
      refine ⟨b, by simp [Field.merge], hb, ?_⟩
      intro hra _
      simp only [Rep] at hra
      obtain ⟨vs, hvs, -⟩ := hra
      exact absurd hvs (by simp)
    · simp only [Rep] at ha
      obtain ⟨evs, rfl, hrve⟩ := ha
      rcases hb with hb | hb
      · subst hb
        have hrepres : Rep (.vo fl k p) (.vobj evs) := by
          simp only [Rep]
          exact ⟨evs, rfl, hrve⟩
        exact ⟨.vobj evs, by simp [Field.merge], Or.inr hrepres, fun _ _ => hrepres⟩
      · simp only [Rep] at hb
        obtain ⟨ivs, rfl, hrvi⟩ := hb
        obtain ⟨ps, hps, hkeys, hrep, -⟩ := ihQ hwf' evs ivs hrve hrvi
        have hpar : evs.updatePairs ps = ValDict.ofList ps := by
          refine ValDict.updatePairs_parallel ps evs ?_ ?_
          · rw [RepVals_keys fl evs hrve, hkeys]
          · rw [hkeys]
            exact wf_names_nodup fl hwf'
        have hrepres : Rep (.vo fl k p) (.vobj (evs.updatePairs ps)) := by
          simp only [Rep]
          exact ⟨evs.updatePairs ps, rfl, hpar ▸ hrep⟩
        refine ⟨.vobj (evs.updatePairs ps), ?_, Or.inr hrepres, fun _ _ => hrepres⟩
        simp [Field.merge, hps]
  case refine_8 =>
    intro _ evs ivs _ _
    refine ⟨[], rfl, rfl, by simp [RepVals, ValDict.ofList], ?_⟩
    intro name f hf
    simp [FieldList.find?] at hf
  case refine_9 =>
    intro name f r ihf ihr hwf evs ivs hrve hrvi
    obtain ⟨hn, _, _, hfw, hrw⟩ := wf_parts name f r hwf
    simp only [RepVals] at hrve hrvi
    obtain ⟨w, restV, rfl, hw, hrest⟩ := hrve
    obtain ⟨w', restV', rfl, hw', hrest'⟩ := hrvi
    have hlk : (ValDict.cons name w restV).lookup name = some w := by
      simp [ValDict.lookup]
    have hlk' : (ValDict.cons name w' restV').lookup name = some w' := by
      simp [ValDict.lookup]
    obtain ⟨r0, hr0, -, hrep0⟩ := ihf hfw w w' (Or.inr hw) (Or.inr hw')
    have hrep0' : Rep f r0 := hrep0 hw hw'
    have hcongr : updatePairsOf r (ValDict.cons name w restV) (ValDict.cons name w' restV')
        = updatePairsOf r restV restV' := by
      refine updatePairsOf_congr r _ _ _ _ ?_ ?_
      · intro n hn2
        have : ¬(n = name) := fun he => hn (he ▸ hn2)
        simp [ValDict.lookup, this]
      · intro n hn2
        have : ¬(n = name) := fun he => hn (he ▸ hn2)
        simp [ValDict.lookup, this]
    obtain ⟨ps', hps', hkeys', hrep', hpt'⟩ := ihr hrw restV restV' hrest hrest'
    refine ⟨(name, r0) :: ps', ?_, by simp [hkeys', FieldList.names], ?_, ?_⟩
    · simp only [updatePairsOf, hlk, hlk', Option.getD_some, hr0, hcongr, hps',
        Option.bind_some]
      rfl
    · simp only [ValDict.ofList, RepVals]
      exact ⟨r0, ValDict.ofList ps', rfl, hrep0', hrep'⟩
    · intro name2 f2 hf2
      by_cases he : name2 = name
      · subst he
        have hf3 : f2 = f := by
          have h0 := hf2
          simp [FieldList.find?] at h0
          first
            | exact h0.symm
            | exact h0
        subst hf3
        refine ⟨r0, by simpa [hlk, hlk'] using hr0, ?_⟩
        have : ValDict.findLast ps' name2 = Option.none := by
          refine ValDict.findLast_eq_none_of_not_mem ps' name2 ?_
          rw [hkeys']
          exact hn
        simp [ValDict.findLast, this]
      · simp only [FieldList.find?, he, if_false] at hf2
        obtain ⟨rr, hrr, hfl2⟩ := hpt' name2 f2 hf2
        refine ⟨rr, ?_, by simp [ValDict.findLast, hfl2]⟩
        simpa [ValDict.lookup, he] using hrr


/-! ## The operations on null input -/

theorem ops_on_null : ∀ f : Field,
    Field.init f .none = some (nullInit f)
    ∧ Field.hydrate f .none = some (nullHydrate f)
    ∧ Field.dehydrate f .none = some (nullOut f)
    ∧ Field.make_public_value f .none = some (nullOut f)
    ∧ Field.merge f .none .none = some (nullOut f) := by
  refine Field.inductionOnP
    (fun f => Field.init f .none = some (nullInit f)
      ∧ Field.hydrate f .none = some (nullHydrate f)
      ∧ Field.dehydrate f .none = some (nullOut f)
      ∧ Field.make_public_value f .none = some (nullOut f)
      ∧ Field.merge f .none .none = some (nullOut f))
    (fun fl => constructPairs fl .nil = some (allNullInitPairs fl)
      ∧ hydrateValuesPairs fl .nil = some (allNullHydratePairs fl))
    ?_ ?_ ?_ ?_ ?_ ?_ ?_ ?_ ?_
  case refine_1 =>
    intro k p
    refine ⟨rfl, rfl, rfl, rfl, ?_⟩
    simp [Field.merge, nullOut]
  case refine_2 =>
    intro k p
    refine ⟨rfl, rfl, rfl, rfl, ?_⟩
    simp [Field.merge, nullOut]
  case refine_3 =>
    intro k p
    refine ⟨rfl, rfl, rfl, rfl, ?_⟩
    simp [Field.merge, nullOut]
  case refine_4 =>
    intro k p
    refine ⟨rfl, rfl, rfl, rfl, ?_⟩
    simp [Field.merge, nullOut]
  case refine_5 =>
    intro k p
    refine ⟨rfl, rfl, rfl, rfl, ?_⟩
    simp [Field.merge, nullOut]
  case refine_6 =>
    intro sub k p _
    exact ⟨rfl, rfl, rfl, rfl, rfl⟩
  case refine_7 =>
    intro fl k p ihQ
    refine ⟨?_, ?_, rfl, rfl, rfl⟩
    · simp [Field.init, isInstanceOf, asRawMapping, pyFalsy, ihQ.1, nullInit]
    · simp [Field.hydrate, asRawMapping, pyFalsy, ihQ.2, nullHydrate]
  case refine_8 => exact ⟨rfl, rfl⟩
  case refine_9 =>
    intro name f r ihf ihr
    constructor
    · simp [constructPairs, ValDict.lookup, ihf.1, ihr.1, allNullInitPairs]
    · simp [hydrateValuesPairs, ValDict.lookup, ihf.2.1, ihr.2, allNullHydratePairs]

/-! ## Shape invariants of `init` (collection / nested instance values) -/

theorem init_coll_shape (sub : Field) (k : String) (p : Pub) (v r : Val)
    (h : Field.init (.coll sub k p) v = some r) : ∃ es, r = .dict es := by
  cases v with
  | none => exact ⟨.nil, by simpa [Field.init] using h.symm⟩
  | dict es =>
    simp only [Field.init] at h
    cases hm : mapPairsM (Field.init sub) es with
    | none => rw [hm] at h; simp at h
    | some ps =>
      rw [hm] at h
      simp only [Option.map_some', Option.some.injEq] at h
      exact ⟨.ofPairs ps, h.symm⟩
  | int n => simp [Field.init] at h
  | str s => simp [Field.init] at h
  | bytes bs => simp [Field.init] at h
  | date y m d => simp [Field.init] at h
  | datetime y m d hh mi ss mc u => simp [Field.init] at h
  | dec n c e => simp [Field.init] at h
  | vobj vs => simp [Field.init] at h

theorem isInstanceOf_shape (fl : FieldList) (v : Val)
    (h : isInstanceOf fl v = true) : ∃ vs, v = .vobj vs := by
  cases v <;> simp [isInstanceOf] at h
  case vobj vs => exact ⟨vs, rfl⟩

theorem init_vo_shape (fl : FieldList) (k : String) (p : Pub) (v r : Val)
    (h : Field.init (.vo fl k p) v = some r) : ∃ vs, r = .vobj vs := by
  simp only [Field.init] at h
  split at h
  · rename_i hinst
    obtain ⟨vs, rfl⟩ := isInstanceOf_shape fl v hinst
    exact ⟨vs, by simpa using h.symm⟩
  · cases ham : asRawMapping v with
    | none => rw [ham] at h; simp at h
    | some raw =>
      rw [ham] at h
      cases hc : constructPairs fl raw with
      | none => simp only [hc] at h; simp at h
      | some ps =>
        simp only [hc] at h
        have h2 : Val.vobj (ValDict.ofPairs ps) = r := by simpa using h
        exact ⟨.ofPairs ps, h2.symm⟩

/-! ## Characterisation of construction and hydration -/

theorem keyOr_eq (key name : String) (h : key ≠ "") : keyOr key name = key := by
  simp [keyOr, h]

theorem keyOrKeys_eq_keysOf :
    ∀ fl, FieldList.wf fl = true → fl.keyOrKeys = fl.keysOf := by
  intro fl
  induction fl using FieldList.inductionOnSimple with
  | hnil => intro _; rfl
  | hcons name f r ih =>
    intro hwf
    obtain ⟨-, -, hk, -, hrw⟩ := wf_parts name f r hwf
    simp [FieldList.keyOrKeys, FieldList.keysOf, keyOr_eq f.key name hk, ih hrw]

theorem wf_keys_nodup :
    ∀ fl, FieldList.wf fl = true → fl.keysOf.Nodup := by
  intro fl
  induction fl using FieldList.inductionOnSimple with
  | hnil => intro _; simp [FieldList.keysOf]
  | hcons name f r ih =>
    intro hwf
    obtain ⟨-, hk, -, -, hrw⟩ := wf_parts name f r hwf
    exact List.nodup_cons.mpr ⟨hk, ih hrw⟩

theorem constructPairs_keys :
    ∀ fl (raw : ValDict) ps, constructPairs fl raw = some ps →
      ps.map Prod.fst = fl.names := by
  intro fl
  induction fl using FieldList.inductionOnSimple with
  | hnil =>
    intro raw ps h
    simp only [constructPairs, Option.some.injEq] at h
    simp [← h, FieldList.names]
  | hcons name f r ih =>
    intro raw ps h
    rw [constructPairs] at h
    cases hv : Field.init f ((raw.lookup f.key).getD .none) with
    | none => rw [hv] at h; simp at h
    | some v =>
      rw [hv] at h
      cases hps : constructPairs r raw with
      | none => rw [hps] at h; simp at h
      | some ps' =>
        rw [hps] at h
        have h2 : ((name, v) :: ps') = ps := by simpa using h
        simp [← h2, FieldList.names, ih raw ps' hps]

theorem constructPairs_lookup (fl : FieldList) (hwf : FieldList.wf fl = true) :
    ∀ (raw : ValDict) ps, constructPairs fl raw = some ps →
      ∀ name f, fl.find? name = some f →
        ∃ v, Field.init f ((raw.lookup f.key).getD .none) = some v
          ∧ (ValDict.ofPairs ps).lookup name = some v := by
  induction fl using FieldList.inductionOnSimple with
  | hnil =>
    intro raw ps h name f hf
    simp [FieldList.find?] at hf
  | hcons name0 f0 r ih =>
    intro raw ps h name f hf
    obtain ⟨hn, -, -, -, hrw⟩ := wf_parts name0 f0 r hwf
    rw [constructPairs] at h
    cases hv : Field.init f0 ((raw.lookup f0.key).getD .none) with
    | none => rw [hv] at h; simp at h
    | some v0 =>
      rw [hv] at h
      cases hps : constructPairs r raw with
      | none => rw [hps] at h; simp at h
      | some ps' =>
        rw [hps] at h
        have h2 : ((name0, v0) :: ps') = ps := by simpa using h
        have hnd : (((name0, v0) :: ps').map Prod.fst).Nodup := by
          rw [List.map_cons, constructPairs_keys r raw ps' hps]
          exact List.nodup_cons.mpr ⟨hn, wf_names_nodup r hrw⟩
        rw [← h2, ValDict.ofPairs_eq_ofList _ hnd]
        by_cases he : name = name0
        · subst he
          have hf2 : f0 = f := by
            have h0 := hf
            simp [FieldList.find?] at h0
            first
              | exact h0
              | exact h0.symm
          subst hf2
          exact ⟨v0, hv, by simp [ValDict.ofList, ValDict.lookup]⟩
        · simp only [FieldList.find?, he, if_false] at hf
          obtain ⟨v, hv2, hl⟩ := ih hrw raw ps' hps name f hf
          refine ⟨v, hv2, ?_⟩
          rw [ValDict.ofPairs_eq_ofList _ (by
            rw [constructPairs_keys r raw ps' hps]
            exact wf_names_nodup r hrw)] at hl
          simpa [ValDict.ofList, ValDict.lookup, he] using hl

theorem names_mem_of_find? :
    ∀ fl (name : String) (f : Field), FieldList.find? fl name = some f →
      name ∈ fl.names := by
  intro fl
  induction fl using FieldList.inductionOnSimple with
  | hnil => intro name f hf; simp [FieldList.find?] at hf
  | hcons name0 f0 r ih =>
    intro name f hf
    by_cases he : name = name0
    · simp [FieldList.names, he]
    · simp only [FieldList.find?, he, if_false] at hf
      simp [FieldList.names, ih name f hf]

theorem constructPairs_total :
    ∀ fl, FieldList.wf fl = true → ∀ (raw : ValDict),
      (∀ name f, FieldList.find? fl name = some f →
        (Field.init f ((raw.lookup f.key).getD .none)).isSome) →
      (constructPairs fl raw).isSome := by
  intro fl
  induction fl using FieldList.inductionOnSimple with
  | hnil => intro _ raw _; simp [constructPairs]
  | hcons name f r ih =>
    intro hwf raw htot
    obtain ⟨hn, -, -, -, hrw⟩ := wf_parts name f r hwf
    rw [constructPairs]
    have h1 := htot name f (by simp [FieldList.find?])
    cases hv : Field.init f ((raw.lookup f.key).getD .none) with
    | none => rw [hv] at h1; simp at h1
    | some v =>
      have h2 : (constructPairs r raw).isSome := by
        refine ih hrw raw ?_
        intro name2 f2 hf2
        have hne : ¬(name2 = name) := by
          intro he
          exact hn (he ▸ names_mem_of_find? r name2 f2 hf2)
        exact htot name2 f2 (by simp [FieldList.find?, hne, hf2])
      cases hps : constructPairs r raw with
      | none => rw [hps] at h2; simp at h2
      | some ps' => simp [hv, hps]

theorem hydrateValuesPairs_keys :
    ∀ fl (d : ValDict) ps, hydrateValuesPairs fl d = some ps →
      ps.map Prod.fst = fl.keyOrKeys := by
  intro fl
  induction fl using FieldList.inductionOnSimple with
  | hnil =>
    intro d ps h
    simp only [hydrateValuesPairs, Option.some.injEq] at h
    simp [← h, FieldList.keyOrKeys]
  | hcons name f r ih =>
    intro d ps h
    rw [hydrateValuesPairs] at h
    cases hv : Field.hydrate f ((d.lookup (keyOr f.key name)).getD .none) with
    | none => rw [hv] at h; simp at h
    | some v =>
      rw [hv] at h
      cases hps : hydrateValuesPairs r d with
      | none => rw [hps] at h; simp at h
      | some ps' =>
        rw [hps] at h
        have h2 : ((keyOr f.key name, v) :: ps') = ps := by simpa using h
        simp [← h2, FieldList.keyOrKeys, ih d ps' hps]

theorem hydrateValuesPairs_congr :
    ∀ fl (d d' : ValDict),
      (∀ k ∈ fl.keyOrKeys, d.lookup k = d'.lookup k) →
      hydrateValuesPairs fl d = hydrateValuesPairs fl d' := by
  intro fl
  induction fl using FieldList.inductionOnSimple with
  | hnil => intro _ _ _; rfl
  | hcons name f r ih =>
    intro d d' hagree
    rw [hydrateValuesPairs, hydrateValuesPairs]
    rw [hagree (keyOr f.key name) (by simp [FieldList.keyOrKeys]),
      ih d d' (fun k hk => hagree k (by simp [FieldList.keyOrKeys, hk]))]

theorem hydrateValuesPairs_total :
    ∀ fl, FieldList.wf fl = true → ∀ (d : ValDict),
      (∀ name f, FieldList.find? fl name = some f →
        (Field.hydrate f ((d.lookup (keyOr f.key name)).getD .none)).isSome) →
      (hydrateValuesPairs fl d).isSome := by
  intro fl
  induction fl using FieldList.inductionOnSimple with
  | hnil => intro _ d _; simp [hydrateValuesPairs]
  | hcons name f r ih =>
    intro hwf d htot
    obtain ⟨hn, -, -, -, hrw⟩ := wf_parts name f r hwf
    rw [hydrateValuesPairs]
    have h1 := htot name f (by simp [FieldList.find?])
    cases hv : Field.hydrate f ((d.lookup (keyOr f.key name)).getD .none) with
    | none => rw [hv] at h1; simp at h1
    | some v =>
      have h2 : (hydrateValuesPairs r d).isSome := by
        refine ih hrw d ?_
        intro name2 f2 hf2
        have hne : ¬(name2 = name) := by
          intro he
          exact hn (he ▸ names_mem_of_find? r name2 f2 hf2)
        exact htot name2 f2 (by simp [FieldList.find?, hne, hf2])
      cases hps : hydrateValuesPairs r d with
      | none => rw [hps] at h2; simp at h2
      | some ps' => simp [hv, hps]

theorem keysOf_mem_of_find? :
    ∀ fl (name : String) (f : Field), FieldList.find? fl name = some f →
      f.key ∈ fl.keysOf := by
  intro fl
  induction fl using FieldList.inductionOnSimple with
  | hnil => intro name f hf; simp [FieldList.find?] at hf
  | hcons name0 f0 r ih =>
    intro name f hf
    by_cases he : name = name0
    · have hf2 : f0 = f := by
        have h0 := hf
        simp [FieldList.find?, he] at h0
        first
          | exact h0
          | exact h0.symm
      subst hf2
      simp [FieldList.keysOf]
    · simp only [FieldList.find?, he, if_false] at hf
      simp [FieldList.keysOf, ih name f hf]

theorem find?_wf_parts :
    ∀ fl, FieldList.wf fl = true → ∀ (name : String) (f : Field),
      FieldList.find? fl name = some f → Field.wf f = true ∧ f.key ≠ "" := by
  intro fl
  induction fl using FieldList.inductionOnSimple with
  | hnil => intro _ name f hf; simp [FieldList.find?] at hf
  | hcons name0 f0 r ih =>
    intro hwf name f hf
    obtain ⟨-, -, hke, hfw, hrw⟩ := wf_parts name0 f0 r hwf
    by_cases he : name = name0
    · have hf2 : f0 = f := by
        have h0 := hf
        simp [FieldList.find?, he] at h0
        first
          | exact h0
          | exact h0.symm
      subst hf2
      exact ⟨hfw, hke⟩
    · simp only [FieldList.find?, he, if_false] at hf
      exact ih hrw name f hf

theorem keysOf_ne_empty_of_find? (fl : FieldList) (hwf : FieldList.wf fl = true)
    (name : String) (f : Field) (hf : FieldList.find? fl name = some f) :
    f.key ≠ "" :=
  (find?_wf_parts fl hwf name f hf).2

theorem hydrateValuesPairs_lookup (fl : FieldList) (hwf : FieldList.wf fl = true) :
    ∀ (d : ValDict) ps, hydrateValuesPairs fl d = some ps →
      ∀ name f, fl.find? name = some f →
        ∃ v, Field.hydrate f ((d.lookup (keyOr f.key name)).getD .none) = some v
          ∧ (ValDict.ofPairs ps).lookup (keyOr f.key name) = some v := by
  induction fl using FieldList.inductionOnSimple with
  | hnil =>
    intro d ps h name f hf
    simp [FieldList.find?] at hf
  | hcons name0 f0 r ih =>
    intro d ps h name f hf
    obtain ⟨hn, hkey, hke, -, hrw⟩ := wf_parts name0 f0 r hwf
    rw [hydrateValuesPairs] at h
    cases hv : Field.hydrate f0 ((d.lookup (keyOr f0.key name0)).getD .none) with
    | none => rw [hv] at h; simp at h
    | some v0 =>
      rw [hv] at h
      cases hps : hydrateValuesPairs r d with
      | none => rw [hps] at h; simp at h
      | some ps' =>
        rw [hps] at h
        have h2 : ((keyOr f0.key name0, v0) :: ps') = ps := by simpa using h
        have hkeys' : ps'.map Prod.fst = r.keyOrKeys := hydrateValuesPairs_keys r d ps' hps
        have hknd : (((keyOr f0.key name0, v0) :: ps').map Prod.fst).Nodup := by
          rw [List.map_cons, hkeys', keyOrKeys_eq_keysOf r hrw, keyOr_eq f0.key name0 hke]
          exact List.nodup_cons.mpr ⟨hkey, wf_keys_nodup r hrw⟩
        rw [← h2, ValDict.ofPairs_eq_ofList _ hknd]
        by_cases he : name = name0
        · subst he
          have hf2 : f0 = f := by
            have h0 := hf
            simp [FieldList.find?] at h0
            first
              | exact h0
              | exact h0.symm
          subst hf2
          exact ⟨v0, hv, by simp [ValDict.ofList, ValDict.lookup]⟩
        · simp only [FieldList.find?, he, if_false] at hf
          obtain ⟨v, hv2, hl⟩ := ih hrw d ps' hps name f hf
          refine ⟨v, hv2, ?_⟩
          rw [ValDict.ofPairs_eq_ofList _ (by
            rw [hkeys', keyOrKeys_eq_keysOf r hrw]
            exact wf_keys_nodup r hrw)] at hl
          have hkne : ¬(keyOr f.key name = keyOr f0.key name0) := by
            rw [keyOr_eq f0.key name0 hke]
            intro heq
            have hmem : f.key ∈ r.keysOf := by
              have := keysOf_mem_of_find? r name f hf
              exact this
            rw [keyOr_eq f.key name (keysOf_ne_empty_of_find? r hrw name f hf)] at heq
            rw [heq] at hmem
            exact hkey hmem
          simpa [ValDict.ofList, ValDict.lookup, hkne] using hl


/-! ## Helpers for building `valEquiv` proofs -/

theorem subEquiv_extend :
    ∀ (a : ValDict) (k : String) (v : Val) (b : ValDict),
      a.hasKey k = false → subEquiv a b = true → subEquiv a (.cons k v b) = true := by
  intro a
  induction a using ValDict.inductionOn with
  | nil => intro _ _ _ _ _; rfl
  | cons k0 v0 r ih =>
    intro k v b hk hsub
    have hne : ¬(k0 = k) := by
      intro he
      simp [ValDict.hasKey, ValDict.lookup, he] at hk
    have hk' : r.hasKey k = false := by
      by_cases h : r.hasKey k = true
      · exfalso
        simp only [ValDict.hasKey, ValDict.lookup] at hk
        rw [if_neg (fun h2 : k = k0 => hne h2.symm)] at hk
        simp [ValDict.hasKey] at h
        simp [h] at hk
      · simpa using h
    simp only [subEquiv, Bool.and_eq_true] at hsub ⊢
    refine ⟨?_, ih k v b hk' hsub.2⟩
    simpa [ValDict.lookup, hne] using hsub.1

theorem keysIncl_mono_cons :
    ∀ (a : ValDict) (k : String) (v : Val) (b : ValDict),
      keysIncl a b = true → keysIncl a (.cons k v b) = true := by
  intro a
  induction a using ValDict.inductionOn with
  | nil => intro _ _ _ _; rfl
  | cons k0 v0 r ih =>
    intro k v b h
    simp only [keysIncl, Bool.and_eq_true] at h ⊢
    refine ⟨?_, ih k v b h.2⟩
    simp only [ValDict.hasKey, ValDict.lookup]
    by_cases he : k0 = k
    · simp [he]
    · rw [if_neg he]
      exact h.1

theorem asRawMapping_dict (es : ValDict) : asRawMapping (.dict es) = some es := by
  cases es with
  | nil => rfl
  | cons k v r => rfl

theorem dehydratePairs_congr :
    ∀ fl (vs vs' : ValDict),
      (∀ name ∈ fl.names, vs.lookup name = vs'.lookup name) →
      dehydratePairs fl vs = dehydratePairs fl vs' := by
  intro fl
  induction fl using FieldList.inductionOnSimple with
  | hnil => intro _ _ _; rfl
  | hcons name f r ih =>
    intro vs vs' hagree
    rw [dehydratePairs, dehydratePairs]
    rw [hagree name (by simp [FieldList.names]),
      ih vs vs' (fun n hn => hagree n (by simp [FieldList.names, hn]))]

theorem constructPairs_congr :
    ∀ fl (raw raw' : ValDict),
      (∀ k ∈ fl.keysOf, raw.lookup k = raw'.lookup k) →
      constructPairs fl raw = constructPairs fl raw' := by
  intro fl
  induction fl using FieldList.inductionOnSimple with
  | hnil => intro _ _ _; rfl
  | hcons name f r ih =>
    intro raw raw' hagree
    rw [constructPairs, constructPairs]
    rw [hagree f.key (by simp [FieldList.keysOf]),
      ih raw raw' (fun k hk => hagree k (by simp [FieldList.keysOf, hk]))]


/-! ## The dehydrate / hydrate / init round trip -/

theorem roundTrip :
    ∀ f, Field.wf f = true → ∀ v, Rep f v →
      ∃ d h r, Field.dehydrate f v = some d ∧ Field.hydrate f d = some h
        ∧ Field.init f h = some r ∧ valEquiv r v = true := by
  refine Field.inductionOnP
    (fun f => Field.wf f = true → ∀ v, Rep f v →
      ∃ d h r, Field.dehydrate f v = some d ∧ Field.hydrate f d = some h
        ∧ Field.init f h = some r ∧ valEquiv r v = true)
    (fun fl => FieldList.wf fl = true → ∀ vs, RepVals fl vs →
      ∃ dps hps rps,
        dehydratePairs fl vs = some dps ∧ dps.map Prod.fst = fl.keysOf
        ∧ hydrateValuesPairs fl (ValDict.ofPairs dps) = some hps
        ∧ hps.map Prod.fst = fl.keysOf
        ∧ constructPairs fl (ValDict.ofPairs hps) = some rps
        ∧ rps.map Prod.fst = fl.names
        ∧ valEquiv (.vobj (ValDict.ofPairs rps)) (.vobj vs) = true)
    ?_ ?_ ?_ ?_ ?_ ?_ ?_ ?_ ?_
  case refine_1 =>
    intro k p _ v hv
    simp only [Rep] at hv
    rcases hv with rfl | ⟨n, rfl⟩ | ⟨s2, rfl⟩
    · exact ⟨.none, .none, .none, rfl, rfl, rfl, rfl⟩
    · exact ⟨.int n, .int n, .int n, rfl, rfl, rfl, by simp [valEquiv]⟩
    · exact ⟨.str s2, .str s2, .str s2, rfl, rfl, rfl, by simp [valEquiv]⟩
  case refine_2 =>
    intro k p _ v hv
    simp only [Rep] at hv
    rcases hv with rfl | ⟨s2, rfl⟩
    · exact ⟨.none, .none, .none, rfl, rfl, rfl, rfl⟩
    · refine ⟨.str s2, .bytes (utf8Encode s2), .bytes (utf8Encode s2), ?_, rfl, rfl, ?_⟩
      · simp [Field.dehydrate, utf8Decode_utf8Encode]
      · simp [valEquiv]
  case refine_3 =>
    intro k p _ v hv
    simp only [Rep] at hv
    rcases hv with rfl | ⟨y, m, d, rfl, hval⟩
    · exact ⟨.none, .none, .none, rfl, rfl, rfl, rfl⟩
    · refine ⟨.str (fmtDate y m d), .date y m d, .date y m d, rfl, ?_, rfl, ?_⟩
      · simp [Field.hydrate, parseDate_fmtDate y m d hval]
      · simp [valEquiv]
  case refine_4 =>
    intro k p _ v hv
    simp only [Rep] at hv
    rcases hv with rfl | ⟨y, m, d, h, mi, sec, rfl, hvd, hvt⟩
    · exact ⟨.none, .none, .none, rfl, rfl, rfl, rfl⟩
    · refine ⟨.str (fmtDatetime y m d h mi sec), .datetime y m d h mi sec 0 true,
        .datetime y m d h mi sec 0 true, rfl, ?_, rfl, ?_⟩
      · simp [Field.hydrate, parseDatetime_fmtDatetime y m d h mi sec hvd hvt]
      · simp [valEquiv]
  case refine_5 =>
    intro k p _ v hv
    simp only [Rep] at hv
    rcases hv with rfl | ⟨n, c, e, rfl⟩
    · exact ⟨.none, .none, .none, rfl, rfl, rfl, rfl⟩
    · obtain ⟨c2, e2, hparse, heq⟩ := parseDec_formatFixed n c e
      refine ⟨.str (formatFixed n c e), .dec n c2 e2, .dec n c2 e2, rfl, ?_, rfl, ?_⟩
      · simp [Field.hydrate, hparse]
      · simpa [valEquiv] using heq
  case refine_6 =>
    intro sub k p ihsub hwf v hv
    have hwf2 : Field.wf sub = true := by simpa [Field.wf] using hwf
    have ihsub2 := ihsub hwf2
    simp only [Rep] at hv
    obtain ⟨es, rfl, hnd, hre⟩ := hv
    have collRT : ∀ es2 : ValDict, es2.nodupKeys = true → RepEntries sub es2 →
        ∃ dps hps rps,
          mapPairsM (Field.dehydrate sub) es2 = some dps
          ∧ dps.map Prod.fst = es2.keysList
          ∧ mapPairsM (Field.hydrate sub) (ValDict.ofPairs dps) = some hps
          ∧ hps.map Prod.fst = es2.keysList
          ∧ mapPairsM (Field.init sub) (ValDict.ofPairs hps) = some rps
          ∧ rps.map Prod.fst = es2.keysList
          ∧ subEquiv (ValDict.ofPairs rps) es2 = true
          ∧ keysIncl es2 (ValDict.ofPairs rps) = true := by
      intro es2
      induction es2 using ValDict.inductionOn with
      | nil =>
        intro _ _
        exact ⟨[], [], [], rfl, rfl, rfl, rfl, rfl, rfl, rfl, rfl⟩
      | cons k0 w r ih =>
        intro hnd2 hre2
        have hndp : r.hasKey k0 = false ∧ r.nodupKeys = true := by
          simpa [ValDict.nodupKeys, Bool.not_eq_true'] using hnd2
        have hrep : Rep sub w ∧ RepEntries sub r := by simpa [RepEntries] using hre2
        obtain ⟨d0, h0, r0, hd0, hh0, hr0, heq0⟩ := ihsub2 w hrep.1
        obtain ⟨dps2, hps2, rps2, hd2, hdk2, hh2, hhk2, hc2, hck2, hsub2, hincl2⟩ :=
          ih hndp.2 hrep.2
        have hk0mem : k0 ∉ r.keysList := by
          intro hm
          rw [ValDict.mem_keysList_iff_hasKey] at hm
          rw [hm] at hndp
          exact absurd hndp.1 (by simp)
        have hnodup_r : r.keysList.Nodup := ValDict.nodup_keysList_of_nodupKeys r hndp.2
        have hofd : ValDict.ofPairs ((k0, d0) :: dps2)
            = .cons k0 d0 (ValDict.ofPairs dps2) := by
          rw [ValDict.ofPairs_eq_ofList _ (by
              simp only [List.map_cons, hdk2]
              exact List.nodup_cons.mpr ⟨hk0mem, hnodup_r⟩),
            ValDict.ofPairs_eq_ofList _ (by rw [hdk2]; exact hnodup_r)]
          rfl
        have hofh : ValDict.ofPairs ((k0, h0) :: hps2)
            = .cons k0 h0 (ValDict.ofPairs hps2) := by
          rw [ValDict.ofPairs_eq_ofList _ (by
              simp only [List.map_cons, hhk2]
              exact List.nodup_cons.mpr ⟨hk0mem, hnodup_r⟩),
            ValDict.ofPairs_eq_ofList _ (by rw [hhk2]; exact hnodup_r)]
          rfl
        have hofr : ValDict.ofPairs ((k0, r0) :: rps2)
            = .cons k0 r0 (ValDict.ofPairs rps2) := by
          rw [ValDict.ofPairs_eq_ofList _ (by
              simp only [List.map_cons, hck2]
              exact List.nodup_cons.mpr ⟨hk0mem, hnodup_r⟩),
            ValDict.ofPairs_eq_ofList _ (by rw [hck2]; exact hnodup_r)]
          rfl
        refine ⟨(k0, d0) :: dps2, (k0, h0) :: hps2, (k0, r0) :: rps2, ?_,
          by simp [ValDict.keysList, hdk2], ?_, by simp [ValDict.keysList, hhk2],
          ?_, by simp [ValDict.keysList, hck2], ?_, ?_⟩
        · rw [mapPairsM, hd0, hd2]
          rfl
        · rw [hofd, mapPairsM, hh0, hh2]
          rfl
        · rw [hofh, mapPairsM, hr0, hc2]
          rfl
        · rw [hofr]
          simp only [subEquiv, Bool.and_eq_true]
          constructor
          · simp only [ValDict.lookup, if_pos rfl]
            exact heq0
          · have hnk : (ValDict.ofPairs rps2).hasKey k0 = false := by
              by_cases hh : (ValDict.ofPairs rps2).hasKey k0 = true
              · exfalso
                rw [← ValDict.mem_keysList_iff_hasKey] at hh
                rw [ValDict.ofPairs_eq_ofList _ (by rw [hck2]; exact hnodup_r),
                  ValDict.keysList_ofList, hck2] at hh
                exact hk0mem hh
              · simpa using hh
            exact subEquiv_extend (ValDict.ofPairs rps2) k0 w r hnk hsub2
        · rw [hofr]
          simp only [keysIncl, Bool.and_eq_true]
          constructor
          · simp [ValDict.hasKey, ValDict.lookup]
          · exact keysIncl_mono_cons r k0 r0 (ValDict.ofPairs rps2) hincl2
    obtain ⟨dps, hps, rps, hd, hdk, hh, hhk, hc, hck, hsub, hincl⟩ := collRT es hnd hre
    refine ⟨.dict (ValDict.ofPairs dps), .dict (ValDict.ofPairs hps),
      .dict (ValDict.ofPairs rps), ?_, ?_, ?_, ?_⟩
    · simp [Field.dehydrate, hd]
    · simp [Field.hydrate, hh]
    · simp [Field.init, hc]
    · simp [valEquiv, hsub, hincl]
  case refine_7 =>
    intro fl k p ihQ hwf v hv
    have hwf2 : FieldList.wf fl = true := by simpa [Field.wf] using hwf
    simp only [Rep] at hv
    obtain ⟨vs, rfl, hrv⟩ := hv
    obtain ⟨dps, hps, rps, hd, hdk, hh, hhk, hc, hck, heq⟩ := ihQ hwf2 vs hrv
    refine ⟨.dict (ValDict.ofPairs dps), .dict (ValDict.ofPairs hps),
      .vobj (ValDict.ofPairs rps), ?_, ?_, ?_, heq⟩
    · simp [Field.dehydrate, hd]
    · simp [Field.hydrate, asRawMapping_dict, hh]
    · simp [Field.init, isInstanceOf, asRawMapping_dict, hc]
  case refine_8 =>
    intro _ vs hrv
    simp only [RepVals] at hrv
    subst hrv
    exact ⟨[], [], [], rfl, rfl, rfl, rfl, rfl, rfl, rfl⟩
  case refine_9 =>
    intro name f r ihf ihr hwf vs hrv
    obtain ⟨hn, hkmem, hke, hfw, hrw⟩ := wf_parts name f r hwf
    simp only [RepVals] at hrv
    obtain ⟨w, restV, rfl, hwrep, hrest⟩ := hrv
    obtain ⟨d0, h0, r0, hd0, hh0, hr0, heq0⟩ := ihf hfw w hwrep
    obtain ⟨dps2, hps2, rps2, hd2, hdk2, hh2, hhk2, hc2, hck2, heq2⟩ := ihr hrw restV hrest
    have hkeysnd : r.keysOf.Nodup := wf_keys_nodup r hrw
    have hnamesnd : r.names.Nodup := wf_names_nodup r hrw
    have hofd : ValDict.ofPairs ((f.key, d0) :: dps2)
        = .cons f.key d0 (ValDict.ofPairs dps2) := by
      rw [ValDict.ofPairs_eq_ofList _ (by
          simp only [List.map_cons, hdk2]
          exact List.nodup_cons.mpr ⟨hkmem, hkeysnd⟩),
        ValDict.ofPairs_eq_ofList _ (by rw [hdk2]; exact hkeysnd)]
      rfl
    have hofh : ValDict.ofPairs ((f.key, h0) :: hps2)
        = .cons f.key h0 (ValDict.ofPairs hps2) := by
      rw [ValDict.ofPairs_eq_ofList _ (by
          simp only [List.map_cons, hhk2]
          exact List.nodup_cons.mpr ⟨hkmem, hkeysnd⟩),
        ValDict.ofPairs_eq_ofList _ (by rw [hhk2]; exact hkeysnd)]
      rfl
    have hofr : ValDict.ofPairs ((name, r0) :: rps2)
        = .cons name r0 (ValDict.ofPairs rps2) := by
      rw [ValDict.ofPairs_eq_ofList _ (by
          simp only [List.map_cons, hck2]
          exact List.nodup_cons.mpr ⟨hn, hnamesnd⟩),
        ValDict.ofPairs_eq_ofList _ (by rw [hck2]; exact hnamesnd)]
      rfl
    refine ⟨(f.key, d0) :: dps2, (f.key, h0) :: hps2, (name, r0) :: rps2, ?_,
      by simp [FieldList.keysOf, hdk2], ?_, by simp [FieldList.keysOf, hhk2],
      ?_, by simp [FieldList.names, hck2], ?_⟩
    · rw [dehydratePairs]
      rw [show dehydratePairs r (ValDict.cons name w restV) = dehydratePairs r restV from
        dehydratePairs_congr r _ _ (fun n2 hn2 => by
          have hne : ¬(n2 = name) := fun he => hn (he ▸ hn2)
          simp [ValDict.lookup, hne])]
      rw [show (ValDict.cons name w restV).lookup name = some w by simp [ValDict.lookup]]
      simp only [Option.getD_some]
      rw [hd0, hd2]
      rfl
    · rw [hofd, hydrateValuesPairs]
      rw [show hydrateValuesPairs r (ValDict.cons f.key d0 (ValDict.ofPairs dps2))
          = hydrateValuesPairs r (ValDict.ofPairs dps2) from
        hydrateValuesPairs_congr r _ _ (fun k2 hk2 => by
          have hk2b : k2 ∈ r.keysOf := by
            rw [← keyOrKeys_eq_keysOf r hrw]
            exact hk2
          have hne : ¬(k2 = f.key) := fun he => hkmem (he ▸ hk2b)
          simp [ValDict.lookup, hne])]
      rw [keyOr_eq f.key name hke]
      rw [show (ValDict.cons f.key d0 (ValDict.ofPairs dps2)).lookup f.key = some d0 by
        simp [ValDict.lookup]]
      simp only [Option.getD_some]
      rw [hh0, hh2]
      rfl
    · rw [hofh, constructPairs]
      rw [show constructPairs r (ValDict.cons f.key h0 (ValDict.ofPairs hps2))
          = constructPairs r (ValDict.ofPairs hps2) from
        constructPairs_congr r _ _ (fun k2 hk2 => by
          have hne : ¬(k2 = f.key) := fun he => hkmem (he ▸ hk2)
          simp [ValDict.lookup, hne])]
      rw [show (ValDict.cons f.key h0 (ValDict.ofPairs hps2)).lookup f.key = some h0 by
        simp [ValDict.lookup]]
      simp only [Option.getD_some]
      rw [hr0, hc2]
      rfl
    · rw [hofr]
      have heq2' : subEquiv (ValDict.ofPairs rps2) restV = true
          ∧ keysIncl restV (ValDict.ofPairs rps2) = true := by
        simpa [valEquiv, Bool.and_eq_true] using heq2
      simp only [valEquiv, Bool.and_eq_true]
      refine ⟨?_, ?_⟩
      · simp only [subEquiv, Bool.and_eq_true]
        constructor
        · simp only [ValDict.lookup, if_pos rfl]
          exact heq0
        · have hnk : (ValDict.ofPairs rps2).hasKey name = false := by
            by_cases hh : (ValDict.ofPairs rps2).hasKey name = true
            · exfalso
              rw [← ValDict.mem_keysList_iff_hasKey] at hh
              rw [ValDict.ofPairs_eq_ofList _ (by rw [hck2]; exact hnamesnd),
                ValDict.keysList_ofList, hck2] at hh
              exact hn hh
            · simpa using hh
          exact subEquiv_extend (ValDict.ofPairs rps2) name w restV hnk heq2'.1
      · simp only [keysIncl, Bool.and_eq_true]
        constructor
        · simp [ValDict.hasKey, ValDict.lookup]
        · exact keysIncl_mono_cons restV name r0 (ValDict.ofPairs rps2) heq2'.2


/-! ## Generic facts about the comprehension helpers -/

theorem mapPairsM_mem (g : Val → Option Val) :
    ∀ (es : ValDict) ps, mapPairsM g es = some ps →
      ∀ p ∈ ps, ∃ w, g w = some p.2 := by
  intro es
  induction es using ValDict.inductionOn with
  | nil =>
    intro ps h p hp
    simp only [mapPairsM, Option.some.injEq] at h
    rw [← h] at hp
    simp at hp
  | cons k v r ih =>
    intro ps h p hp
    cases hv : g v with
    | none => rw [mapPairsM, hv] at h; simp at h
    | some v1 =>
      rw [mapPairsM, hv] at h
      cases hr : mapPairsM g r with
      | none => rw [hr] at h; simp at h
      | some ps1 =>
        rw [hr] at h
        have h2 : (k, v1) :: ps1 = ps := by simpa using h
        rw [← h2] at hp
        rcases List.mem_cons.mp hp with hp2 | hp2
        · exact ⟨v, by rw [hv, hp2]⟩
        · exact ih ps1 hr p hp2

theorem mapPairsM_total (g : Val → Option Val) :
    ∀ es : ValDict, (∀ p ∈ es.toList, (g p.2).isSome) →
      (mapPairsM g es).isSome := by
  intro es
  induction es using ValDict.inductionOn with
  | nil => intro _; simp [mapPairsM]
  | cons k v r ih =>
    intro h
    have h1 := h (k, v) (by simp [ValDict.toList])
    cases hv : g v with
    | none => rw [hv] at h1; simp at h1
    | some v1 =>
      have h2 := ih (fun p hp => h p (by simp [ValDict.toList, hp]))
      cases hr : mapPairsM g r with
      | none => rw [hr] at h2; simp at h2
      | some ps1 => simp [mapPairsM, hv, hr]

/-! ## The all-null instance (construction / hydration from nothing) -/

theorem allNullInitPairs_keys :
    ∀ fl : FieldList, (allNullInitPairs fl).map Prod.fst = fl.names := by
  intro fl
  induction fl using FieldList.inductionOnSimple with
  | hnil => rfl
  | hcons name f r ih => simp [allNullInitPairs, FieldList.names, ih]

theorem allNullInitPairs_lookup :
    ∀ fl : FieldList, FieldList.wf fl = true → ∀ name f0,
      fl.find? name = some f0 →
      (ValDict.ofPairs (allNullInitPairs fl)).lookup name = some (nullInit f0) := by
  intro fl
  induction fl using FieldList.inductionOnSimple with
  | hnil => intro _ name f0 hf; simp [FieldList.find?] at hf
  | hcons name0 f r ih =>
    intro hwf name f0 hf
    obtain ⟨hn, -, -, -, hrw⟩ := wf_parts name0 f r hwf
    have hnd : ((allNullInitPairs (.cons name0 f r)).map Prod.fst).Nodup := by
      rw [allNullInitPairs_keys]
      exact wf_names_nodup _ hwf
    rw [ValDict.ofPairs_eq_ofList _ hnd]
    by_cases he : name = name0
    · subst he
      have hf2 : f = f0 := by
        have hh := hf
        simp [FieldList.find?] at hh
        first
          | exact hh
          | exact hh.symm
      subst hf2
      simp [allNullInitPairs, ValDict.ofList, ValDict.lookup]
    · simp only [FieldList.find?, he, if_false] at hf
      have hrec := ih hrw name f0 hf
      rw [ValDict.ofPairs_eq_ofList _ (by
        rw [allNullInitPairs_keys]
        exact wf_names_nodup _ hrw)] at hrec
      simpa [allNullInitPairs, ValDict.ofList, ValDict.lookup, he] using hrec

theorem constructPairs_nil :
    ∀ fl : FieldList, constructPairs fl .nil = some (allNullInitPairs fl) := by
  intro fl
  induction fl using FieldList.inductionOnSimple with
  | hnil => rfl
  | hcons name f r ih =>
    rw [constructPairs]
    simp [ValDict.lookup, (ops_on_null f).1, ih, allNullInitPairs]

theorem hydrateValuesPairs_nil :
    ∀ fl : FieldList, hydrateValuesPairs fl .nil = some (allNullHydratePairs fl) := by
  intro fl
  induction fl using FieldList.inductionOnSimple with
  | hnil => rfl
  | hcons name f r ih =>
    rw [hydrateValuesPairs]
    simp [ValDict.lookup, (ops_on_null f).2.1, ih, allNullHydratePairs]

/-! ## Shape of hydrated collections -/

theorem hydrate_coll_shape (sub : Field) (k : String) (p : Pub) (v r : Val)
    (h : Field.hydrate (.coll sub k p) v = some r) : ∃ es, r = .dict es := by
  cases v with
  | none => exact ⟨.nil, by simpa [Field.hydrate] using h.symm⟩
  | dict es =>
    simp only [Field.hydrate] at h
    cases hm : mapPairsM (Field.hydrate sub) es with
    | none => rw [hm] at h; simp at h
    | some ps =>
      rw [hm] at h
      simp only [Option.map_some', Option.some.injEq] at h
      exact ⟨.ofPairs ps, h.symm⟩
  | int n => simp [Field.hydrate] at h
  | str s => simp [Field.hydrate] at h
  | bytes bs => simp [Field.hydrate] at h
  | date y m d => simp [Field.hydrate] at h
  | datetime y m d hh mi ss mc u => simp [Field.hydrate] at h
  | dec n c e => simp [Field.hydrate] at h
  | vobj vs => simp [Field.hydrate] at h

/-! ## The characters of fixed-point decimal output -/

theorem mem_formatFixedChars (neg : Bool) (c : Nat) (e : Int) (ch : Char)
    (h : ch ∈ formatFixedChars neg c e) : ch.toNat < 58 := by
  simp only [formatFixedChars, List.mem_append] at h
  rcases h with h | h
  · by_cases hn : neg = true
    · simp [hn] at h
      subst h
      decide
    · simp [hn] at h
  · by_cases he : (0 : Int) ≤ e
    · rw [if_pos he] at h
      have := mem_natToCharsPad_toNat 1 (c * 10 ^ e.toNat) ch h
      omega
    · rw [if_neg he] at h
      simp only [List.mem_append, List.mem_cons, List.mem_map] at h
      rcases h with ⟨d, hd, rfl⟩ | h | ⟨d, hd, rfl⟩
      · have hd2 := mem_padDigits_lt _ _ _ (List.mem_of_mem_take hd)
        rw [toNat_digitChar d hd2]
        omega
      · subst h
        decide
      · have hd2 := mem_padDigits_lt _ _ _ (List.mem_of_mem_drop hd)
        rw [toNat_digitChar d hd2]
        omega


/-! ## Visibility: `get_public_field_keys` / `get_public_values` -/

theorem contains_cons_ne (a b : String) (l : List String) (h : ¬(b = a)) :
    (a :: l).contains b = l.contains b := by
  by_cases hm : b ∈ l
  · simp [hm]
  · simp [hm, h]

theorem gpvPairs_congr :
    ∀ fl (vs vs2 : ValDict) (pf : List String),
      (∀ n ∈ fl.names, vs.lookup n = vs2.lookup n) →
      gpvPairs fl vs pf = gpvPairs fl vs2 pf := by
  intro fl
  induction fl using FieldList.inductionOnSimple with
  | hnil => intro _ _ _ _; rfl
  | hcons name f r ih =>
    intro vs vs2 pf hagree
    rw [gpvPairs, gpvPairs]
    rw [hagree name (by simp [FieldList.names]),
      ih vs vs2 pf (fun n hn => hagree n (by simp [FieldList.names, hn]))]

theorem mpvTotal :
    ∀ f, Field.wf f = true → ∀ v, RepOpt f v →
      ∃ r, Field.make_public_value f v = some r := by
  refine Field.inductionOnP
    (fun f => Field.wf f = true → ∀ v, RepOpt f v →
      ∃ r, Field.make_public_value f v = some r)
    (fun fl => FieldList.wf fl = true → ∀ vs, RepVals fl vs → ∀ pf,
      ∃ ps, gpvPairs fl vs pf = some ps)
    ?_ ?_ ?_ ?_ ?_ ?_ ?_ ?_ ?_
  case refine_1 =>
    intro k p _ v _
    exact ⟨v, rfl⟩
  case refine_2 =>
    intro k p _ v hv
    rcases hv with rfl | hv
    · exact ⟨.none, rfl⟩
    · simp only [Rep] at hv
      rcases hv with rfl | ⟨s, rfl⟩
      · exact ⟨.none, rfl⟩
      · exact ⟨.str s, by simp [Field.make_public_value, Field.dehydrate,
          utf8Decode_utf8Encode]⟩
  case refine_3 =>
    intro k p _ v hv
    rcases hv with rfl | hv
    · exact ⟨.none, rfl⟩
    · simp only [Rep] at hv
      rcases hv with rfl | ⟨y, m, d, rfl, -⟩
      · exact ⟨.none, rfl⟩
      · exact ⟨.str (isoDate y m d), rfl⟩
  case refine_4 =>
    intro k p _ v hv
    rcases hv with rfl | hv
    · exact ⟨.none, rfl⟩
    · simp only [Rep] at hv
      rcases hv with rfl | ⟨y, m, d, h, mi, s, rfl, -, -⟩
      · exact ⟨.none, rfl⟩
      · exact ⟨.str (isoDatetime y m d h mi s 0 true), rfl⟩
  case refine_5 =>
    intro k p _ v hv
    rcases hv with rfl | hv
    · exact ⟨.none, rfl⟩
    · simp only [Rep] at hv
      rcases hv with rfl | ⟨n, c, e, rfl⟩
      · exact ⟨.none, rfl⟩
      · exact ⟨.str (formatFixed n c e), rfl⟩
  case refine_6 =>
    intro sub k p ihsub hwf v hv
    have hwf2 : Field.wf sub = true := by simpa [Field.wf] using hwf
    rcases hv with rfl | hv
    · exact ⟨.dict .nil, rfl⟩
    · simp only [Rep] at hv
      obtain ⟨es, rfl, -, hre⟩ := hv
      have inner : ∀ es2, RepEntries sub es2 → ∀ selk,
          ∃ ps, publicPairsWith (Field.make_public_value sub) selk es2 = some ps := by
        intro es2
        induction es2 using ValDict.inductionOn with
        | nil => intro _ selk; exact ⟨[], rfl⟩
        | cons k0 w r ih =>
          intro hre2 selk
          have h1 : Rep sub w ∧ RepEntries sub r := by simpa [RepEntries] using hre2
          obtain ⟨ps1, hps1⟩ := ih h1.2 selk
          by_cases hc : selk.contains k0 = true
          · obtain ⟨v1, hv1⟩ := ihsub hwf2 w (Or.inr h1.1)
            refine ⟨(k0, v1) :: ps1, ?_⟩
            rw [publicPairsWith, if_pos hc, hv1, hps1]
            rfl
          · refine ⟨ps1, ?_⟩
            rw [publicPairsWith, if_neg hc, hps1]
      clear hwf
      obtain ⟨ps, hps⟩ := inner es hre
        (match p with | .keys ks => ks | .flag _ => es.keysList)
      refine ⟨.dict (ValDict.ofPairs ps), ?_⟩
      simp only [Field.make_public_value, Option.map_eq_some']
      exact ⟨ps, hps, rfl⟩
  case refine_7 =>
    intro fl k p ihQ hwf v hv
    have hwf2 : FieldList.wf fl = true := by simpa [Field.wf] using hwf
    rcases hv with rfl | hv
    · exact ⟨.none, rfl⟩
    · simp only [Rep] at hv
      obtain ⟨vs, rfl, hrv⟩ := hv
      clear hwf
      obtain ⟨ps, hps⟩ := ihQ hwf2 vs hrv
        (get_public_field_keys fl (match p with | .keys ks => ks | .flag _ => []))
      refine ⟨.dict (ValDict.ofPairs ps), ?_⟩
      simp only [Field.make_public_value, Option.map_eq_some']
      exact ⟨ps, hps, rfl⟩
  case refine_8 =>
    intro _ vs _ pf
    exact ⟨[], rfl⟩
  case refine_9 =>
    intro name f r ihf ihr hwf vs hrv pf
    obtain ⟨hn, -, -, hfw, hrw⟩ := wf_parts name f r hwf
    simp only [RepVals] at hrv
    obtain ⟨w, restV, rfl, hwrep, hrest⟩ := hrv
    have hcongr : gpvPairs r (ValDict.cons name w restV) pf = gpvPairs r restV pf :=
      gpvPairs_congr r _ _ pf (fun n hn2 => by
        have hne : ¬(n = name) := fun heq => hn (heq ▸ hn2)
        simp [ValDict.lookup, hne])
    obtain ⟨ps1, hps1⟩ := ihr hrw restV hrest pf
    by_cases hc : pf.contains f.key = true
    · obtain ⟨v1, hv1⟩ := ihf hfw w (Or.inr hwrep)
      refine ⟨(f.key, v1) :: ps1, ?_⟩
      rw [gpvPairs, if_pos hc]
      rw [show (ValDict.cons name w restV).lookup name = some w by simp [ValDict.lookup]]
      simp only [Option.getD_some]
      rw [hv1, hcongr, hps1]
      rfl
    · refine ⟨ps1, ?_⟩
      rw [gpvPairs, if_neg hc, hcongr, hps1]

theorem gpvPairs_spec :
    ∀ fl, FieldList.wf fl = true → ∀ vs, RepVals fl vs → ∀ pf,
      ∃ ps, gpvPairs fl vs pf = some ps
        ∧ ps.map Prod.fst = fl.keysOf.filter (fun k => pf.contains k) := by
  intro fl
  induction fl using FieldList.inductionOnSimple with
  | hnil =>
    intro _ vs _ pf
    exact ⟨[], rfl, by simp [FieldList.keysOf]⟩
  | hcons name f r ih =>
    intro hwf vs hrv pf
    obtain ⟨hn, -, -, hfw, hrw⟩ := wf_parts name f r hwf
    simp only [RepVals] at hrv
    obtain ⟨w, restV, rfl, hwrep, hrest⟩ := hrv
    have hcongr : gpvPairs r (ValDict.cons name w restV) pf = gpvPairs r restV pf :=
      gpvPairs_congr r _ _ pf (fun n hn2 => by
        have hne : ¬(n = name) := fun heq => hn (heq ▸ hn2)
        simp [ValDict.lookup, hne])
    obtain ⟨ps1, hps1, hkeys1⟩ := ih hrw restV hrest pf
    by_cases hc : pf.contains f.key = true
    · obtain ⟨v1, hv1⟩ := mpvTotal f hfw w (Or.inr hwrep)
      refine ⟨(f.key, v1) :: ps1, ?_, ?_⟩
      · rw [gpvPairs, if_pos hc]
        rw [show (ValDict.cons name w restV).lookup name = some w by
          simp [ValDict.lookup]]
        simp only [Option.getD_some]
        rw [hv1, hcongr, hps1]
        rfl
      · have hcm : f.key ∈ pf := by simpa using hc
        rw [show FieldList.keysOf (.cons name f r) = f.key :: r.keysOf from rfl]
        rw [List.filter_cons]
        simp [hcm, hkeys1]
    · refine ⟨ps1, ?_, ?_⟩
      · rw [gpvPairs, if_neg hc, hcongr, hps1]
      · have hcm : f.key ∉ pf := by simpa using hc
        rw [show FieldList.keysOf (.cons name f r) = f.key :: r.keysOf from rfl]
        rw [List.filter_cons]
        simp [hcm, hkeys1]

theorem gpfk_sublist :
    ∀ fl (sel : List String),
      List.Sublist (get_public_field_keys fl sel) fl.keysOf := by
  intro fl
  induction fl using FieldList.inductionOnSimple with
  | hnil => intro sel; exact List.nil_sublist _
  | hcons name f r ih =>
    intro sel
    rw [get_public_field_keys]
    by_cases hc : ((sel.isEmpty || sel.contains f.key) && pubTruthy f.pub) = true
    · rw [if_pos hc]
      simp only [List.singleton_append]
      rw [show FieldList.keysOf (.cons name f r) = f.key :: r.keysOf from rfl]
      exact (ih sel).cons₂ f.key
    · rw [if_neg hc]
      simp only [List.nil_append]
      rw [show FieldList.keysOf (.cons name f r) = f.key :: r.keysOf from rfl]
      exact (ih sel).cons f.key

theorem filter_keysOf_gpfk :
    ∀ fl (sel : List String), FieldList.wf fl = true →
      fl.keysOf.filter (fun k => (get_public_field_keys fl sel).contains k)
        = get_public_field_keys fl sel := by
  intro fl
  induction fl using FieldList.inductionOnSimple with
  | hnil => intro sel _; rfl
  | hcons name f r ih =>
    intro sel hwf
    obtain ⟨-, hkmem, -, -, hrw⟩ := wf_parts name f r hwf
    have hsub := gpfk_sublist r sel
    have hknotg : f.key ∉ get_public_field_keys r sel :=
      fun hm => hkmem (hsub.subset hm)
    rw [show FieldList.keysOf (.cons name f r) = f.key :: r.keysOf from rfl]
    rw [get_public_field_keys]
    by_cases hc : ((sel.isEmpty || sel.contains f.key) && pubTruthy f.pub) = true
    · rw [if_pos hc]
      simp only [List.singleton_append]
      rw [List.filter_cons]
      have hpf : ((f.key :: get_public_field_keys r sel).contains f.key) = true := by
        simp
      simp only [hpf, if_true]
      congr 1
      rw [List.filter_congr (fun x hx => ?_)]
      · exact ih sel hrw
      · have hne : ¬(x = f.key) := fun heq => hkmem (heq ▸ hx)
        exact contains_cons_ne f.key x (get_public_field_keys r sel) hne
    · rw [if_neg hc]
      simp only [List.nil_append]
      rw [List.filter_cons]
      have hpf : ((get_public_field_keys r sel).contains f.key) = false := by
        simp [hknotg]
      simp only [hpf, Bool.false_eq_true, if_false]
      exact ih sel hrw

theorem gpfk_mem_iff :
    ∀ fl, FieldList.wf fl = true → ∀ (sel : List String) name f0,
      fl.find? name = some f0 →
      (f0.key ∈ get_public_field_keys fl sel ↔
        ((sel = [] ∨ f0.key ∈ sel) ∧ pubTruthy f0.pub = true)) := by
  intro fl
  induction fl using FieldList.inductionOnSimple with
  | hnil => intro _ sel name f0 hf; simp [FieldList.find?] at hf
  | hcons name0 f r ih =>
    intro hwf sel name f0 hf
    obtain ⟨-, hkmem, -, -, hrw⟩ := wf_parts name0 f r hwf
    have hsub := gpfk_sublist r sel
    by_cases he : name = name0
    · subst he
      have hf2 : f = f0 := by
        have hh := hf
        simp [FieldList.find?] at hh
        first
          | exact hh
          | exact hh.symm
      subst hf2
      have hknotg : f.key ∉ get_public_field_keys r sel :=
        fun hm => hkmem (hsub.subset hm)
      rw [get_public_field_keys]
      by_cases hc : ((sel.isEmpty || sel.contains f.key) && pubTruthy f.pub) = true
      · rw [if_pos hc]
        have hc12 : (sel.isEmpty || sel.contains f.key) = true ∧ pubTruthy f.pub = true := by
          simpa [Bool.and_eq_true] using hc
        have hrhs : (sel = [] ∨ f.key ∈ sel) ∧ pubTruthy f.pub = true := by
          refine ⟨?_, hc12.2⟩
          rcases (by simpa [Bool.or_eq_true] using hc12.1 :
              sel.isEmpty = true ∨ sel.contains f.key = true) with hc3 | hc3
          · exact Or.inl (List.isEmpty_iff.mp hc3)
          · exact Or.inr (by simpa using hc3)
        simp [hrhs]
      · rw [if_neg hc]
        simp only [List.nil_append]
        constructor
        · intro hm
          exact absurd hm hknotg
        · intro hr2
          exfalso
          apply hc
          rcases hr2.1 with h1 | h1
          · simp [h1, hr2.2]
          · simp [h1, hr2.2]
    · simp only [FieldList.find?, he, if_false] at hf
      have hkey0 : f0.key ∈ r.keysOf := keysOf_mem_of_find? r name f0 hf
      have hne : ¬(f0.key = f.key) := fun heq => hkmem (heq ▸ hkey0)
      rw [get_public_field_keys]
      by_cases hc : ((sel.isEmpty || sel.contains f.key) && pubTruthy f.pub) = true
      · rw [if_pos hc]
        simp only [List.singleton_append, List.mem_cons]
        constructor
        · intro hm
          rcases hm with hm | hm
          · exact absurd hm hne
          · exact (ih hrw sel name f0 hf).mp hm
        · intro hr2
          exact Or.inr ((ih hrw sel name f0 hf).mpr hr2)
      · rw [if_neg hc]
        simp only [List.nil_append]
        exact ih hrw sel name f0 hf


/-! ## Pointwise behaviour of `BaseValueObject.update` -/

theorem updatePairsOf_spec :
    ∀ fl, FieldList.wf fl = true → ∀ evs ivs, RepVals fl evs → RepVals fl ivs →
      ∃ ps, updatePairsOf fl evs ivs = some ps
        ∧ ps.map Prod.fst = fl.names
        ∧ ∀ name f, fl.find? name = some f →
            ∃ r, Field.merge f ((evs.lookup name).getD .none)
                ((ivs.lookup name).getD .none) = some r
              ∧ ValDict.findLast ps name = some r := by
  intro fl
  induction fl using FieldList.inductionOnSimple with
  | hnil =>
    intro _ evs ivs _ _
    refine ⟨[], rfl, rfl, ?_⟩
    intro name f hf
    simp [FieldList.find?] at hf
  | hcons name f r ih =>
    intro hwf evs ivs hrve hrvi
    obtain ⟨hn, -, -, hfw, hrw⟩ := wf_parts name f r hwf
    simp only [RepVals] at hrve hrvi
    obtain ⟨w, restV, rfl, hw, hrest⟩ := hrve
    obtain ⟨w2, restV2, rfl, hw2, hrest2⟩ := hrvi
    have hlk : (ValDict.cons name w restV).lookup name = some w := by
      simp [ValDict.lookup]
    have hlk2 : (ValDict.cons name w2 restV2).lookup name = some w2 := by
      simp [ValDict.lookup]
    obtain ⟨r0, hr0, -, -⟩ := mergeTotal f hfw w w2 (Or.inr hw) (Or.inr hw2)
    have hcongr : updatePairsOf r (ValDict.cons name w restV)
        (ValDict.cons name w2 restV2) = updatePairsOf r restV restV2 := by
      refine updatePairsOf_congr r _ _ _ _ ?_ ?_
      · intro n hn2
        have hne : ¬(n = name) := fun he => hn (he ▸ hn2)
        simp [ValDict.lookup, hne]
      · intro n hn2
        have hne : ¬(n = name) := fun he => hn (he ▸ hn2)
        simp [ValDict.lookup, hne]
    obtain ⟨ps1, hps1, hkeys1, hpt1⟩ := ih hrw restV restV2 hrest hrest2
    refine ⟨(name, r0) :: ps1, ?_, by simp [FieldList.names, hkeys1], ?_⟩
    · simp only [updatePairsOf, hlk, hlk2, Option.getD_some, hr0, hcongr, hps1,
        Option.bind_some]
      rfl
    · intro name2 f2 hf2
      by_cases he : name2 = name
      · subst he
        have hf3 : f2 = f := by
          have hh := hf2
          simp [FieldList.find?] at hh
          first
            | exact hh.symm
            | exact hh
        subst hf3
        refine ⟨r0, by simpa [hlk, hlk2] using hr0, ?_⟩
        have hnone : ValDict.findLast ps1 name2 = Option.none := by
          refine ValDict.findLast_eq_none_of_not_mem ps1 name2 ?_
          rw [hkeys1]
          exact hn
        simp [ValDict.findLast, hnone]
      · simp only [FieldList.find?, he, if_false] at hf2
        obtain ⟨rr, hrr, hfl2⟩ := hpt1 name2 f2 hf2
        refine ⟨rr, ?_, by simp [ValDict.findLast, hfl2]⟩
        simpa [ValDict.lookup, he] using hrr

/-! ## Heap growth: the reference-level operations only extend or overwrite -/

theorem hmergePairsWith_mono (g : Heap → HVal → HVal → Option (Heap × HVal))
    (base : List (String × HVal))
    (hg : ∀ h a b h2 r, g h a b = some (h2, r) → h.length ≤ h2.length) :
    ∀ (l : List (String × HVal)) (h h2 : Heap) ps,
      hmergePairsWith g base h l = some (h2, ps) → h.length ≤ h2.length := by
  intro l
  induction l with
  | nil =>
    intro h h2 ps hm
    simp only [hmergePairsWith, Option.some.injEq, Prod.mk.injEq] at hm
    exact hm.1 ▸ Nat.le_refl _
  | cons q l ih =>
    obtain ⟨k, v⟩ := q
    intro h h2 ps hm
    cases hg1 : g h ((lookupH base k).getD (.prim .none)) v with
    | none => rw [hmergePairsWith, hg1] at hm; simp at hm
    | some pr =>
      obtain ⟨h1, v1⟩ := pr
      rw [hmergePairsWith, hg1] at hm
      simp only [Option.bind_eq_bind, Option.some_bind] at hm
      cases hrec : hmergePairsWith g base h1 l with
      | none => rw [hrec] at hm; simp at hm
      | some pr2 =>
        obtain ⟨h3, ps3⟩ := pr2
        rw [hrec] at hm
        have h23 : h3 = h2 ∧ (k, v1) :: ps3 = ps := by simpa using hm
        have e1 := hg _ _ _ _ _ hg1
        have e2 := ih h1 h3 ps3 hrec
        rw [h23.1] at e2
        exact Nat.le_trans e1 e2

theorem hmerge_mono :
    ∀ f (h : Heap) e i h2 r, hmerge f h e i = some (h2, r) →
      h.length ≤ h2.length := by
  refine Field.inductionOnP
    (fun f => ∀ (h : Heap) e i h2 r, hmerge f h e i = some (h2, r) →
      h.length ≤ h2.length)
    (fun fl => ∀ (h : Heap) evs ivs h2 ps, hUpdatePairs fl h evs ivs = some (h2, ps) →
      h.length ≤ h2.length)
    ?_ ?_ ?_ ?_ ?_ ?_ ?_ ?_ ?_
  case refine_1 =>
    intro k p h e i h2 r hm
    simp only [hmerge, Option.some.injEq, Prod.mk.injEq] at hm
    exact hm.1 ▸ Nat.le_refl _
  case refine_2 =>
    intro k p h e i h2 r hm
    simp only [hmerge, Option.some.injEq, Prod.mk.injEq] at hm
    exact hm.1 ▸ Nat.le_refl _
  case refine_3 =>
    intro k p h e i h2 r hm
    simp only [hmerge, Option.some.injEq, Prod.mk.injEq] at hm
    exact hm.1 ▸ Nat.le_refl _
  case refine_4 =>
    intro k p h e i h2 r hm
    simp only [hmerge, Option.some.injEq, Prod.mk.injEq] at hm
    exact hm.1 ▸ Nat.le_refl _
  case refine_5 =>
    intro k p h e i h2 r hm
    simp only [hmerge, Option.some.injEq, Prod.mk.injEq] at hm
    exact hm.1 ▸ Nat.le_refl _
  case refine_6 =>
    intro sub k p ihsub h e i h2 r hm
    cases e with
    | prim v =>
      cases v
      case none =>
        cases i with
        | prim w =>
          cases w
          case none =>
            have h23 : (h ++ [HNode.dictN []] : Heap) = h2 ∧ HVal.ref h.length = r := by
              simpa [hmerge, halloc] using hm
            rw [← h23.1]
            simp
          all_goals simp [hmerge] at hm
        | ref ai =>
          rw [hmerge] at hm
          cases hai : h[ai]? with
          | none => rw [hai] at hm; simp at hm
          | some node =>
            rw [hai] at hm
            cases node with
            | voN es2 => simp at hm
            | dictN inc =>
              simp only [] at hm
              cases hrec : hmergePairsWith (hmerge sub) [] h inc with
              | none => rw [hrec] at hm; simp at hm
              | some pr =>
                obtain ⟨h1, ps1⟩ := pr
                rw [hrec] at hm
                have h23 : (h1 ++ [HNode.dictN (updatePairsH [] ps1)] : Heap) = h2 := by
                  simpa [halloc] using (And.left (by simpa using hm))
                have e1 := hmergePairsWith_mono (hmerge sub) []
                  (fun hh a b hh2 rr hmm => ihsub hh a b hh2 rr hmm) inc h h1 ps1 hrec
                rw [← h23]
                simp only [List.length_append, List.length_cons, List.length_nil]
                omega
      all_goals simp [hmerge] at hm
    | ref ae =>
      rw [hmerge] at hm
      cases hae : h[ae]? with
      | none => rw [hae] at hm; simp at hm
      | some node =>
        rw [hae] at hm
        cases node with
        | voN es2 => simp at hm
        | dictN es =>
          simp only [] at hm
          cases i with
          | prim w =>
            cases w
            case none =>
              have h23 : (h ++ [HNode.dictN es] : Heap) = h2 ∧ HVal.ref h.length = r := by
                simpa [halloc] using hm
              rw [← h23.1]
              simp
            all_goals simp at hm
          | ref ai =>
            simp only [] at hm
            cases hai : h[ai]? with
            | none => rw [hai] at hm; simp at hm
            | some node2 =>
              rw [hai] at hm
              cases node2 with
              | voN es3 => simp at hm
              | dictN inc =>
                simp only [] at hm
                cases hrec : hmergePairsWith (hmerge sub) es h inc with
                | none => rw [hrec] at hm; simp at hm
                | some pr =>
                  obtain ⟨h1, ps1⟩ := pr
                  rw [hrec] at hm
                  have h23 : (h1 ++ [HNode.dictN (updatePairsH es ps1)] : Heap) = h2 := by
                    simpa [halloc] using (And.left (by simpa using hm))
                  have e1 := hmergePairsWith_mono (hmerge sub) es
                    (fun hh a b hh2 rr hmm => ihsub hh a b hh2 rr hmm) inc h h1 ps1 hrec
                  rw [← h23]
                  simp only [List.length_append, List.length_cons, List.length_nil]
                  omega
  case refine_7 =>
    intro fl k p ihQ h e i h2 r hm
    cases e with
    | prim v =>
      cases v
      case none =>
        have h23 : h = h2 ∧ i = r := by simpa [hmerge] using hm
        exact h23.1 ▸ Nat.le_refl _
      all_goals
        refine Nat.le_of_eq (congrArg List.length ?_)
      all_goals
        by_cases hni : isNoneH i = true
      all_goals
        simp [hmerge, hni] at hm
      all_goals exact hm.1
    | ref ae =>
      cases i with
      | prim w =>
        cases w
        case none =>
          have h23 : h = h2 ∧ HVal.ref ae = r := by
            simpa [hmerge, isNoneH] using hm
          exact h23.1 ▸ Nat.le_refl _
        all_goals simp [hmerge, isNoneH] at hm
      | ref ai =>
        rw [hmerge] at hm
        rw [if_neg (by simp [isNoneH])] at hm
        cases hae : h[ae]? with
        | none => rw [hae] at hm; simp at hm
        | some node =>
          rw [hae] at hm
          cases node with
          | dictN es => simp at hm
          | voN evs =>
            simp only [] at hm
            cases hai : h[ai]? with
            | none => rw [hai] at hm; simp at hm
            | some node2 =>
              rw [hai] at hm
              cases node2 with
              | dictN es2 => simp at hm
              | voN ivs =>
                simp only [] at hm
                cases hrec : hUpdatePairs fl h evs ivs with
                | none => rw [hrec] at hm; simp at hm
                | some pr =>
                  obtain ⟨h1, ps1⟩ := pr
                  rw [hrec] at hm
                  have h23 : List.set h1 ae (HNode.voN (updatePairsH evs ps1)) = h2 := by
                    simpa using (And.left (by simpa using hm))
                  have e1 := ihQ h evs ivs h1 ps1 hrec
                  rw [← h23]
                  simpa using e1
  case refine_8 =>
    intro h evs ivs h2 ps hm
    simp only [hUpdatePairs, Option.some.injEq, Prod.mk.injEq] at hm
    exact hm.1 ▸ Nat.le_refl _
  case refine_9 =>
    intro name f r ihf ihr h evs ivs h2 ps hm
    cases hg1 : hmerge f h ((lookupH evs name).getD (.prim .none))
        ((lookupH ivs name).getD (.prim .none)) with
    | none => rw [hUpdatePairs, hg1] at hm; simp at hm
    | some pr =>
      obtain ⟨h1, v1⟩ := pr
      rw [hUpdatePairs, hg1] at hm
      simp only [Option.bind_eq_bind, Option.some_bind] at hm
      cases hrec : hUpdatePairs r h1 evs ivs with
      | none => rw [hrec] at hm; simp at hm
      | some pr2 =>
        obtain ⟨h3, ps3⟩ := pr2
        rw [hrec] at hm
        have h23 : h3 = h2 ∧ (name, v1) :: ps3 = ps := by simpa using hm
        have e1 := ihf h _ _ h1 v1 hg1
        have e2 := ihr h1 evs ivs h3 ps3 hrec
        rw [h23.1] at e2
        exact Nat.le_trans e1 e2

/-- `Collection.merge` on two concrete mappings always returns a freshly
allocated mapping object (`merged = {}` followed by `update`), never one
of the operand references. -/
theorem hmerge_coll_fresh (sub : Field) (k : String) (p : Pub) (h : Heap)
    (ae ai : Nat) (es is2 : List (String × HVal)) (h2 : Heap) (r : HVal)
    (hae : h[ae]? = some (.dictN es)) (hai : h[ai]? = some (.dictN is2))
    (hm : hmerge (.coll sub k p) h (.ref ae) (.ref ai) = some (h2, r)) :
    ∃ a, r = .ref a ∧ h.length ≤ a := by
  rw [hmerge, hae] at hm
  simp only [] at hm
  rw [hai] at hm
  simp only [] at hm
  cases hrec : hmergePairsWith (hmerge sub) es h is2 with
  | none => rw [hrec] at hm; simp at hm
  | some pr =>
    obtain ⟨h1, ps1⟩ := pr
    rw [hrec] at hm
    have h23 : (h1 ++ [HNode.dictN (updatePairsH es ps1)] : Heap) = h2
        ∧ HVal.ref h1.length = r := by
      simpa [halloc] using hm
    refine ⟨h1.length, h23.2.symm, ?_⟩
    exact hmergePairsWith_mono (hmerge sub) es
      (fun hh a b hh2 rr hmm => hmerge_mono sub hh a b hh2 rr hmm) is2 h h1 ps1 hrec

/-! ## `init` is total on hydrated values -/

theorem init_total_on_hydrated :
    ∀ f, Field.wf f = true → ∀ v hv, Field.hydrate f v = some hv →
      ∃ r, Field.init f hv = some r := by
  refine Field.inductionOnP
    (fun f => Field.wf f = true → ∀ v hv, Field.hydrate f v = some hv →
      ∃ r, Field.init f hv = some r)
    (fun fl => FieldList.wf fl = true → ∀ (d : ValDict) hps,
      hydrateValuesPairs fl d = some hps →
      ∃ rps, constructPairs fl (ValDict.ofPairs hps) = some rps)
    ?_ ?_ ?_ ?_ ?_ ?_ ?_ ?_ ?_
  case refine_1 =>
    intro k p _ v hv _
    exact ⟨hv, rfl⟩
  case refine_2 =>
    intro k p _ v hv _
    exact ⟨hv, rfl⟩
  case refine_3 =>
    intro k p _ v hv _
    exact ⟨hv, rfl⟩
  case refine_4 =>
    intro k p _ v hv _
    exact ⟨hv, rfl⟩
  case refine_5 =>
    intro k p _ v hv _
    exact ⟨hv, rfl⟩
  case refine_6 =>
    intro sub k p ihsub hwf v hv hhy
    have hwf2 : Field.wf sub = true := by simpa [Field.wf] using hwf
    cases v with
    | none =>
      have hv2 : Val.dict .nil = hv := by simpa [Field.hydrate] using hhy
      exact ⟨.dict .nil, by
        simp [← hv2, Field.init, mapPairsM, ValDict.ofPairs, ValDict.updatePairs]⟩
    | dict es =>
      simp only [Field.hydrate] at hhy
      cases hm : mapPairsM (Field.hydrate sub) es with
      | none => rw [hm] at hhy; simp at hhy
      | some ps =>
        rw [hm] at hhy
        have hv2 : Val.dict (ValDict.ofPairs ps) = hv := by simpa using hhy
        rw [← hv2]
        have htot : (mapPairsM (Field.init sub) (ValDict.ofPairs ps)).isSome := by
          refine mapPairsM_total _ _ ?_
          intro q hq
          have hq2 : q ∈ ps := by
            rcases ValDict.mem_toList_updatePairs ps .nil q hq with hq2 | hq2
            · simp [ValDict.toList] at hq2
            · exact hq2
          obtain ⟨w, hw⟩ := mapPairsM_mem (Field.hydrate sub) es ps hm q hq2
          obtain ⟨rr, hrr⟩ := ihsub hwf2 w q.2 hw
          simp [hrr]
        cases hinit : mapPairsM (Field.init sub) (ValDict.ofPairs ps) with
        | none => rw [hinit] at htot; simp at htot
        | some rps =>
          exact ⟨.dict (ValDict.ofPairs rps), by simp [Field.init, hinit]⟩
    | int n => simp [Field.hydrate] at hhy
    | str ss => simp [Field.hydrate] at hhy
    | bytes bs => simp [Field.hydrate] at hhy
    | date y m d => simp [Field.hydrate] at hhy
    | datetime y m d hh mi sec mc u => simp [Field.hydrate] at hhy
    | dec n c e => simp [Field.hydrate] at hhy
    | vobj vs => simp [Field.hydrate] at hhy
  case refine_7 =>
    intro fl k p ihQ hwf v hv hhy
    have hwf2 : FieldList.wf fl = true := by simpa [Field.wf] using hwf
    rw [Field.hydrate] at hhy
    cases ham : asRawMapping v with
    | none => rw [ham] at hhy; simp at hhy
    | some raw =>
      rw [ham] at hhy
      simp only [] at hhy
      cases hh : hydrateValuesPairs fl raw with
      | none => rw [hh] at hhy; simp at hhy
      | some hps =>
        rw [hh] at hhy
        have hv2 : Val.dict (ValDict.ofPairs hps) = hv := by simpa using hhy
        rw [← hv2]
        obtain ⟨rps, hc⟩ := ihQ hwf2 raw hps hh
        exact ⟨.vobj (ValDict.ofPairs rps),
          by simp [Field.init, isInstanceOf, asRawMapping_dict, hc]⟩
  case refine_8 =>
    intro _ d hps hh
    have h2 : ([] : List (String × Val)) = hps := by
      simpa [hydrateValuesPairs] using hh
    exact ⟨[], by simp [← h2, constructPairs, ValDict.ofPairs]⟩
  case refine_9 =>
    intro name f r ihf ihr hwf d hps hh
    obtain ⟨hn, hkmem, hke, hfw, hrw⟩ := wf_parts name f r hwf
    rw [hydrateValuesPairs] at hh
    cases hv0 : Field.hydrate f ((d.lookup (keyOr f.key name)).getD .none) with
    | none => rw [hv0] at hh; simp at hh
    | some v0 =>
      rw [hv0] at hh
      cases hh1 : hydrateValuesPairs r d with
      | none => rw [hh1] at hh; simp at hh
      | some hps1 =>
        rw [hh1] at hh
        have h2 : (keyOr f.key name, v0) :: hps1 = hps := by simpa using hh
        obtain ⟨r0, hr0⟩ := ihf hfw _ v0 hv0
        obtain ⟨rps1, hrps1⟩ := ihr hrw d hps1 hh1
        have hkeys1 : hps1.map Prod.fst = r.keysOf := by
          rw [hydrateValuesPairs_keys r d hps1 hh1, keyOrKeys_eq_keysOf r hrw]
        rw [← h2, keyOr_eq f.key name hke]
        have hnodup : (((f.key, v0) :: hps1).map Prod.fst).Nodup := by
          simp only [List.map_cons, hkeys1]
          exact List.nodup_cons.mpr ⟨hkmem, wf_keys_nodup r hrw⟩
        have hof : ValDict.ofPairs ((f.key, v0) :: hps1)
            = .cons f.key v0 (ValDict.ofPairs hps1) := by
          rw [ValDict.ofPairs_eq_ofList _ hnodup,
            ValDict.ofPairs_eq_ofList _ (by rw [hkeys1]; exact wf_keys_nodup r hrw)]
          rfl
        rw [hof, constructPairs]
        rw [show constructPairs r (ValDict.cons f.key v0 (ValDict.ofPairs hps1))
            = constructPairs r (ValDict.ofPairs hps1) from
          constructPairs_congr r _ _ (fun k2 hk2 => by
            have hne : ¬(k2 = f.key) := fun heq => hkmem (heq ▸ hk2)
            simp [ValDict.lookup, hne])]
        rw [show (ValDict.cons f.key v0 (ValDict.ofPairs hps1)).lookup f.key = some v0
          by simp [ValDict.lookup]]
        simp only [Option.getD_some]
        rw [hr0, hrps1]
        exact ⟨(name, r0) :: rps1, rfl⟩

theorem constructPairs_on_hydrated :
    ∀ fl, FieldList.wf fl = true → ∀ (d : ValDict) hps,
      hydrateValuesPairs fl d = some hps →
      ∃ rps, constructPairs fl (ValDict.ofPairs hps) = some rps := by
  intro fl
  induction fl using FieldList.inductionOnSimple with
  | hnil =>
    intro _ d hps hh
    have h2 : ([] : List (String × Val)) = hps := by
      simpa [hydrateValuesPairs] using hh
    exact ⟨[], by simp [← h2, constructPairs, ValDict.ofPairs]⟩
  | hcons name f r ih =>
    intro hwf d hps hh
    obtain ⟨hn, hkmem, hke, hfw, hrw⟩ := wf_parts name f r hwf
    rw [hydrateValuesPairs] at hh
    cases hv0 : Field.hydrate f ((d.lookup (keyOr f.key name)).getD .none) with
    | none => rw [hv0] at hh; simp at hh
    | some v0 =>
      rw [hv0] at hh
      cases hh1 : hydrateValuesPairs r d with
      | none => rw [hh1] at hh; simp at hh
      | some hps1 =>
        rw [hh1] at hh
        have h2 : (keyOr f.key name, v0) :: hps1 = hps := by simpa using hh
        obtain ⟨r0, hr0⟩ := init_total_on_hydrated f hfw _ v0 hv0
        obtain ⟨rps1, hrps1⟩ := ih hrw d hps1 hh1
        have hkeys1 : hps1.map Prod.fst = r.keysOf := by
          rw [hydrateValuesPairs_keys r d hps1 hh1, keyOrKeys_eq_keysOf r hrw]
        rw [← h2, keyOr_eq f.key name hke]
        have hnodup : (((f.key, v0) :: hps1).map Prod.fst).Nodup := by
          simp only [List.map_cons, hkeys1]
          exact List.nodup_cons.mpr ⟨hkmem, wf_keys_nodup r hrw⟩
        have hof : ValDict.ofPairs ((f.key, v0) :: hps1)
            = .cons f.key v0 (ValDict.ofPairs hps1) := by
          rw [ValDict.ofPairs_eq_ofList _ hnodup,
            ValDict.ofPairs_eq_ofList _ (by rw [hkeys1]; exact wf_keys_nodup r hrw)]
          rfl
        rw [hof, constructPairs]
        rw [show constructPairs r (ValDict.cons f.key v0 (ValDict.ofPairs hps1))
            = constructPairs r (ValDict.ofPairs hps1) from
          constructPairs_congr r _ _ (fun k2 hk2 => by
            have hne : ¬(k2 = f.key) := fun heq => hkmem (heq ▸ hk2)
            simp [ValDict.lookup, hne])]
        rw [show (ValDict.cons f.key v0 (ValDict.ofPairs hps1)).lookup f.key = some v0
          by simp [ValDict.lookup]]
        simp only [Option.getD_some]
        rw [hr0, hrps1]
        exact ⟨(name, r0) :: rps1, rfl⟩


/-! ## The claims -/

/-- Claim C1 (corrected): for every field kind and every representable
non-null internal value `x`, the full storage cycle
`init (hydrate (dehydrate x))` yields a value equivalent to `x` — but plain
`hydrate (dehydrate x)` does not: a nested value-object field hydrates to a
raw mapping, not an instance, and only the later `init` restores the
instance (see the counterexample).  Null handling: `hydrate` and `dehydrate`
both map null to `None` for scalar kinds and to the empty mapping for
collections; for a nested value-object field they diverge — `dehydrate None`
is `None` while `hydrate None` is the all-null raw mapping
`hydrate_values({})`. -/
theorem C1_round_trip :
    (∀ f, Field.wf f = true → ∀ v, Rep f v →
      ∃ d h r, Field.dehydrate f v = some d ∧ Field.hydrate f d = some h
        ∧ Field.init f h = some r ∧ valEquiv r v = true)
    ∧ (∀ f : Field, Field.hydrate f .none = some (nullHydrate f)
        ∧ Field.dehydrate f .none = some (nullOut f))
    ∧ (∀ k p,
        (nullHydrate (.primitive k p) = .none ∧ nullOut (.primitive k p) = .none)
        ∧ (nullHydrate (.bytes k p) = .none ∧ nullOut (.bytes k p) = .none)
        ∧ (nullHydrate (.date k p) = .none ∧ nullOut (.date k p) = .none)
        ∧ (nullHydrate (.datetime k p) = .none ∧ nullOut (.datetime k p) = .none)
        ∧ (nullHydrate (.dec k p) = .none ∧ nullOut (.dec k p) = .none))
    ∧ (∀ sub k p, nullHydrate (.coll sub k p) = .dict .nil
        ∧ nullOut (.coll sub k p) = .dict .nil)
    ∧ (∀ fl k p, nullHydrate (.vo fl k p) = .dict (.ofPairs (allNullHydratePairs fl))
        ∧ nullOut (.vo fl k p) = .none) := by
  refine ⟨roundTrip, fun f => ⟨(ops_on_null f).2.1, (ops_on_null f).2.2.1⟩,
    fun k p => ⟨⟨rfl, rfl⟩, ⟨rfl, rfl⟩, ⟨rfl, rfl⟩, ⟨rfl, rfl⟩, ⟨rfl, rfl⟩⟩,
    fun sub k p => ⟨rfl, rfl⟩, fun fl k p => ⟨rfl, rfl⟩⟩

/-- Claim C1 counterexample to the original statement: for a nested
value-object field holding the instance `{amount: 1}`,
`hydrate (dehydrate x)` is the raw mapping `{"amount": 1}`, which is not
`==` to the instance `x` — the round trip closes only after `init`. -/
theorem C1_round_trip_counterexample :
    Field.wf (.vo (.cons "amount" (.primitive "amount" (.flag true)) .nil)
        "k" (.flag true)) = true
    ∧ Rep (.vo (.cons "amount" (.primitive "amount" (.flag true)) .nil)
        "k" (.flag true)) (.vobj (.cons "amount" (.int 1) .nil))
    ∧ Field.dehydrate (.vo (.cons "amount" (.primitive "amount" (.flag true)) .nil)
        "k" (.flag true)) (.vobj (.cons "amount" (.int 1) .nil))
      = some (.dict (.cons "amount" (.int 1) .nil))
    ∧ Field.hydrate (.vo (.cons "amount" (.primitive "amount" (.flag true)) .nil)
        "k" (.flag true)) (.dict (.cons "amount" (.int 1) .nil))
      = some (.dict (.cons "amount" (.int 1) .nil))
    ∧ valEquiv (.dict (.cons "amount" (.int 1) .nil))
        (.vobj (.cons "amount" (.int 1) .nil)) = false := by
  refine ⟨by decide, ?_, by decide, by decide, by decide⟩
  simp [Rep, RepVals]

/-- Claim C1 witness: the round trip at a concrete date value. -/
theorem C1_round_trip_witness :
    ∃ d h r, Field.dehydrate (.date "d" (.flag true)) (.date 2015 9 22) = some d
      ∧ Field.hydrate (.date "d" (.flag true)) d = some h
      ∧ Field.init (.date "d" (.flag true)) h = some r
      ∧ valEquiv r (.date 2015 9 22) = true :=
  C1_round_trip.1 (.date "d" (.flag true)) (by decide) (.date 2015 9 22)
    (by simp only [Rep]; exact Or.inr ⟨2015, 9, 22, rfl, by decide⟩)

/-- Claim C2: `Collection.merge` on two internal mappings is the key-wise
union — keys only in `existing` keep `existing`'s value, keys only in
`incoming` are added with `incoming`'s value, keys in both map to
`sub_field.merge(existing[k], incoming[k])`, and no other keys appear. -/
theorem C2_collection_merge_union :
    ∀ sub k p, Field.wf (.coll sub k p) = true →
      ∀ e i : ValDict, e.nodupKeys = true → i.nodupKeys = true →
        RepEntries sub e → RepEntries sub i →
        ∃ m : ValDict, Field.merge (.coll sub k p) (.dict e) (.dict i) = some (.dict m)
          ∧ (∀ key, i.hasKey key = false → m.lookup key = e.lookup key)
          ∧ (∀ key w, e.hasKey key = false → i.lookup key = some w →
              m.lookup key = some w)
          ∧ (∀ key ev iv, e.lookup key = some ev → i.lookup key = some iv →
              ∃ r, Field.merge sub ev iv = some r ∧ m.lookup key = some r)
          ∧ (∀ key, m.hasKey key = true → e.hasKey key = true ∨ i.hasKey key = true) := by
  intro sub k p hwf e i hnde hndi hre hri
  have hwfs : Field.wf sub = true := by simpa [Field.wf] using hwf
  have ihsub := fun a b ha hb => mergeTotal sub hwfs a b ha hb
  obtain ⟨ps, hps, hkeys, hmem, hpt⟩ := mergePairsWith_spec sub ihsub e hre i hri hndi
  refine ⟨e.updatePairs ps, by simp [Field.merge, hps], ?_, ?_, ?_, ?_⟩
  · intro key hik
    have hik2 : i.lookup key = Option.none := by
      cases hl : i.lookup key with
      | none => rfl
      | some w => rw [ValDict.hasKey, hl] at hik; simp at hik
    have hfl := (hpt key).1 hik2
    rw [ValDict.lookup_updatePairs]
    simp [hfl]
  · intro key w hek hil
    obtain ⟨r, hr, hfl⟩ := (hpt key).2 w hil
    have hek2 : e.lookup key = Option.none := by
      cases hl : e.lookup key with
      | none => rfl
      | some w2 => rw [ValDict.hasKey, hl] at hek; simp at hek
    rw [hek2] at hr
    simp only [Option.getD_none] at hr
    have hw : Rep sub w := RepEntries_lookup sub i hri key w hil
    have hmw := (merge_none_both sub w hw).2
    rw [hmw] at hr
    have hrw2 : w = r := by simpa using hr
    rw [ValDict.lookup_updatePairs]
    simp [hfl, hrw2]
  · intro key ev iv hev hiv
    obtain ⟨r, hr, hfl⟩ := (hpt key).2 iv hiv
    rw [hev] at hr
    simp only [Option.getD_some] at hr
    refine ⟨r, hr, ?_⟩
    rw [ValDict.lookup_updatePairs]
    simp [hfl]
  · intro key hmk
    rw [ValDict.hasKey, ValDict.lookup_updatePairs] at hmk
    cases hfl : ValDict.findLast ps key with
    | some w =>
      have hmem2 : key ∈ ps.map Prod.fst := by
        by_contra hni
        rw [ValDict.findLast_eq_none_of_not_mem ps key hni] at hfl
        simp at hfl
      rw [hkeys] at hmem2
      exact Or.inr ((ValDict.mem_keysList_iff_hasKey i key).mp hmem2)
    | none =>
      rw [hfl] at hmk
      exact Or.inl hmk

/-- Claim C2 witness: the spec's own example — existing `{a:1, b:2}` merged
with incoming `{b:3, c:4}` yields `{a:1, b:3, c:4}`. -/
theorem C2_collection_merge_union_witness :
    ∃ m : ValDict,
      Field.merge (.coll (.primitive "s" (.flag true)) "k" (.flag true))
        (.dict (.cons "a" (.int 1) (.cons "b" (.int 2) .nil)))
        (.dict (.cons "b" (.int 3) (.cons "c" (.int 4) .nil))) = some (.dict m)
      ∧ m.lookup "a" = some (.int 1)
      ∧ m.lookup "b" = some (.int 3)
      ∧ m.lookup "c" = some (.int 4) := by
  obtain ⟨m, hm, h1, h2, h3, h4⟩ :=
    C2_collection_merge_union (.primitive "s" (.flag true)) "k" (.flag true) (by decide)
      (.cons "a" (.int 1) (.cons "b" (.int 2) .nil))
      (.cons "b" (.int 3) (.cons "c" (.int 4) .nil))
      (by decide) (by decide)
      (by simp [RepEntries, Rep]) (by simp [RepEntries, Rep])
  refine ⟨m, hm, ?_, ?_, ?_⟩
  · rw [h1 "a" (by decide)]
    decide
  · obtain ⟨r, hr, hl⟩ := h3 "b" (.int 2) (.int 3) (by decide) (by decide)
    have hr3 : Val.int 3 = r := by simpa [Field.merge] using hr
    rw [hl, ← hr3]
  · exact h2 "c" (.int 4) (by decide) (by decide)

/-- Claim C3: `merge(existing, None) == existing` and
`merge(None, incoming) == incoming` on representable values for every field
kind; `merge(None, None)` is the kind's null output; and the default scalar
merge returns `incoming` exactly when `incoming` is not `None`, otherwise
`existing`. -/
theorem C3_merge_null_identity :
    (∀ f v, Rep f v → Field.merge f v .none = some v ∧ Field.merge f .none v = some v)
    ∧ (∀ f : Field, Field.merge f .none .none = some (nullOut f))
    ∧ (∀ k p (e i : Val),
        Field.merge (.primitive k p) e i = some (if i = .none then e else i)
        ∧ Field.merge (.bytes k p) e i = some (if i = .none then e else i)
        ∧ Field.merge (.date k p) e i = some (if i = .none then e else i)
        ∧ Field.merge (.datetime k p) e i = some (if i = .none then e else i)
        ∧ Field.merge (.dec k p) e i = some (if i = .none then e else i)) := by
  refine ⟨merge_none_both, fun f => (ops_on_null f).2.2.2.2, ?_⟩
  intro k p e i
  exact ⟨rfl, rfl, rfl, rfl, rfl⟩

/-- Claim C3 witness: merge-null-ignorance at a concrete date value. -/
theorem C3_merge_null_identity_witness :
    Field.merge (.date "d" (.flag true)) (.date 2015 9 22) .none
        = some (.date 2015 9 22)
    ∧ Field.merge (.date "d" (.flag true)) .none (.date 2015 9 22)
        = some (.date 2015 9 22) :=
  C3_merge_null_identity.1 (.date "d" (.flag true)) (.date 2015 9 22)
    (by simp only [Rep]; exact Or.inr ⟨2015, 9, 22, rfl, by decide⟩)

/-- Claim C4: a Collection field's value after `init` or `hydrate` is always
a concrete mapping (the empty mapping on null input), and a nested
value-object field's value after `init` is always a concrete instance; on
all-null input that instance binds every declared field to its own
null-equivalent (`nullInit`). -/
theorem C4_structure_invariants :
    (∀ sub k p v r, Field.init (.coll sub k p) v = some r → ∃ es, r = .dict es)
    ∧ (∀ sub k p v r, Field.hydrate (.coll sub k p) v = some r → ∃ es, r = .dict es)
    ∧ (∀ fl k p v r, Field.init (.vo fl k p) v = some r → ∃ vs, r = .vobj vs)
    ∧ (∀ sub k p, Field.init (.coll sub k p) .none = some (.dict .nil)
        ∧ Field.hydrate (.coll sub k p) .none = some (.dict .nil))
    ∧ (∀ fl k p, Field.init (.vo fl k p) .none
        = some (.vobj (.ofPairs (allNullInitPairs fl))))
    ∧ (∀ fl, FieldList.wf fl = true → ∀ name f0, fl.find? name = some f0 →
        (ValDict.ofPairs (allNullInitPairs fl)).lookup name = some (nullInit f0)) := by
  refine ⟨init_coll_shape, hydrate_coll_shape, init_vo_shape, ?_, ?_,
    allNullInitPairs_lookup⟩
  · intro sub k p
    exact ⟨rfl, rfl⟩
  · intro fl k p
    exact (ops_on_null (.vo fl k p)).1

/-- Claim C4 witness: a collection init at a concrete mapping stays a
mapping, and the all-null nested instance binds a scalar field to `None`. -/
theorem C4_structure_invariants_witness :
    (∃ es, Val.dict (ValDict.cons "a" (.int 1) .nil) = .dict es)
    ∧ (ValDict.ofPairs (allNullInitPairs
          (.cons "n" (.primitive "key" (.flag true)) .nil))).lookup "n"
        = some .none := by
  constructor
  · exact C4_structure_invariants.1 (.primitive "s" (.flag true)) "k" (.flag true)
      (.dict (.cons "a" (.int 1) .nil)) (.dict (.cons "a" (.int 1) .nil)) (by decide)
  · exact C4_structure_invariants.2.2.2.2.2
      (.cons "n" (.primitive "key" (.flag true)) .nil) (by decide)
      "n" (.primitive "key" (.flag true)) (by decide)

/-- Claim C5: `get_public_values` succeeds on representable values and its
key set is exactly `get_public_field_keys`; a field's key belongs to that
set iff the key passes the selection (empty selection selects all) and the
field's own `public` attribute is truthy; in particular a boolean-`False`
field is never in the output, even when explicitly requested. -/
theorem C5_public_visibility :
    ∀ fl, FieldList.wf fl = true → ∀ vs, RepVals fl vs → ∀ sel,
      ∃ out, get_public_values fl vs sel = some out
        ∧ (∀ k2, out.hasKey k2 = (get_public_field_keys fl sel).contains k2)
        ∧ (∀ name f0, fl.find? name = some f0 →
            (f0.key ∈ get_public_field_keys fl sel ↔
              ((sel = [] ∨ f0.key ∈ sel) ∧ pubTruthy f0.pub = true)))
        ∧ (∀ name f0, fl.find? name = some f0 → f0.pub = .flag false →
            out.hasKey f0.key = false) := by
  intro fl hwf vs hrv sel
  obtain ⟨ps, hps, hkeys⟩ := gpvPairs_spec fl hwf vs hrv (get_public_field_keys fl sel)
  have hkeys2 : ps.map Prod.fst = get_public_field_keys fl sel := by
    rw [hkeys, filter_keysOf_gpfk fl sel hwf]
  have hnd : (ps.map Prod.fst).Nodup := by
    rw [hkeys2]
    exact (wf_keys_nodup fl hwf).sublist (gpfk_sublist fl sel)
  have hhas : ∀ k2, (ValDict.ofPairs ps).hasKey k2
      = (get_public_field_keys fl sel).contains k2 := by
    intro k2
    rw [ValDict.ofPairs_eq_ofList _ hnd]
    have hiff : (ValDict.ofList ps).hasKey k2 = true ↔
        k2 ∈ get_public_field_keys fl sel := by
      rw [← ValDict.mem_keysList_iff_hasKey, ValDict.keysList_ofList, hkeys2]
    by_cases hmem : k2 ∈ get_public_field_keys fl sel
    · rw [hiff.mpr hmem]
      have hc : (get_public_field_keys fl sel).contains k2 = true := by simp [hmem]
      rw [hc]
    · cases hb : (ValDict.ofList ps).hasKey k2 with
      | true => exact absurd (hiff.mp hb) hmem
      | false =>
        have hc : (get_public_field_keys fl sel).contains k2 = false := by simp [hmem]
        rw [hc]
  refine ⟨ValDict.ofPairs ps, by simp [get_public_values, hps], hhas,
    gpfk_mem_iff fl hwf sel, ?_⟩
  intro name f0 hf hpub
  rw [hhas f0.key]
  have hnot : f0.key ∉ get_public_field_keys fl sel := by
    intro hm
    have h5 := (gpfk_mem_iff fl hwf sel name f0 hf).mp hm
    rw [hpub] at h5
    simp [pubTruthy] at h5
  simp [hnot]

/-- Claim C5 witness: with one public and one boolean-private field, the
public output contains the public key and not the private one. -/
theorem C5_public_visibility_witness :
    ∃ out, get_public_values
        (.cons "a" (.primitive "pub" (.flag true))
          (.cons "b" (.primitive "priv" (.flag false)) .nil))
        (.cons "a" (.int 1) (.cons "b" (.int 2) .nil)) [] = some out
      ∧ out.hasKey "pub" = true
      ∧ out.hasKey "priv" = false := by
  obtain ⟨out, hout, hhas, -, hpriv⟩ := C5_public_visibility
    (.cons "a" (.primitive "pub" (.flag true))
      (.cons "b" (.primitive "priv" (.flag false)) .nil))
    (by decide)
    (.cons "a" (.int 1) (.cons "b" (.int 2) .nil))
    (by
      simp only [RepVals, Rep]
      exact ⟨.int 1, _, rfl, Or.inr (Or.inl ⟨1, rfl⟩), .int 2, .nil, rfl,
        Or.inr (Or.inl ⟨2, rfl⟩), rfl⟩) []
  refine ⟨out, hout, ?_, ?_⟩
  · rw [hhas "pub"]
    decide
  · exact hpriv "b" (.primitive "priv" (.flag false)) (by decide) rfl

/-- Claim C6: every one of the five operations of every field kind handles
null input through an explicit non-error branch — on `None` each returns its
kind's null result, and the value-object level construction and hydration
succeed on the empty mapping. -/
theorem C6_null_safety :
    (∀ f : Field,
      Field.init f .none = some (nullInit f)
      ∧ Field.hydrate f .none = some (nullHydrate f)
      ∧ Field.dehydrate f .none = some (nullOut f)
      ∧ Field.make_public_value f .none = some (nullOut f)
      ∧ Field.merge f .none .none = some (nullOut f))
    ∧ (∀ fl : FieldList,
        construct fl .nil = some (.ofPairs (allNullInitPairs fl))
        ∧ hydrate_values fl .nil = some (.ofPairs (allNullHydratePairs fl))) := by
  refine ⟨ops_on_null, ?_⟩
  intro fl
  constructor
  · simp [construct, constructPairs_nil]
  · simp [hydrate_values, hydrateValuesPairs_nil]

/-- Claim C7 (corrected): `update(other)` does replace each stored value in
place with `field.merge(self_value, other_value)` (pointwise clause), and
`Collection.merge` always installs a freshly allocated top-level mapping
object; but collection *entries* are not copied — the default merge passes
the incoming value object straight through by reference, and `init` passes
an already-instance through by reference, so mutation through one operand
can be observed through the other (see the counterexample). -/
theorem C7_update_frame :
    (∀ fl, FieldList.wf fl = true → ∀ evs ivs, RepVals fl evs → RepVals fl ivs →
      ∃ out, vo_update fl evs ivs = some out
        ∧ ∀ name f, fl.find? name = some f →
            ∃ r, Field.merge f ((evs.lookup name).getD .none)
                ((ivs.lookup name).getD .none) = some r
              ∧ out.lookup name = some r)
    ∧ (∀ sub k p (h : Heap) ae ai es is2 h2 r,
        h[ae]? = some (.dictN es) → h[ai]? = some (.dictN is2) →
        hmerge (.coll sub k p) h (.ref ae) (.ref ai) = some (h2, r) →
        ∃ a, r = .ref a ∧ h.length ≤ a)
    ∧ (∀ fl k p (h : Heap) (x : Nat),
        hmerge (.vo fl k p) h (.prim .none) (.ref x) = some (h, .ref x))
    ∧ (∀ fl k p (h : Heap) v, hIsInstance fl h v = true →
        hinit (.vo fl k p) h v = some (h, v)) := by
  refine ⟨?_, ?_, ?_, ?_⟩
  · intro fl hwf evs ivs hrve hrvi
    obtain ⟨ps, hps, hkeys, hpt⟩ := updatePairsOf_spec fl hwf evs ivs hrve hrvi
    refine ⟨evs.updatePairs ps, by simp [vo_update, hps], ?_⟩
    intro name f hf
    obtain ⟨r, hr, hfl⟩ := hpt name f hf
    refine ⟨r, hr, ?_⟩
    rw [ValDict.lookup_updatePairs]
    simp [hfl]
  · intro sub k p h ae ai es is2 h2 r hae hai hm
    exact hmerge_coll_fresh sub k p h ae ai es is2 h2 r hae hai hm
  · intro fl k p h x
    rfl
  · intro fl k p h v hinst
    simp [hinit, hinst]

/-- Claim C7 counterexample to the no-sharing clause: in the concrete heap
`h0`, updating `self` (address 0) from `other` (address 3) installs a fresh
mapping (address 6) for `self.addresses` whose `"branch"` entry is the very
object `other` holds (address 5); mutating that object afterwards is
observed through `self`'s path, and `other`'s own node is untouched. -/
theorem C7_update_frame_counterexample :
    hgetAttr h0 3 "addresses" = some (.ref 4)
    ∧ hgetEntry h0 4 "branch" = some (.ref 5)
    ∧ (hupdate applF h0 0 3).bind (fun h1 => hgetAttr h1 0 "addresses")
        = some (.ref 6)
    ∧ (hupdate applF h0 0 3).bind (fun h1 => hgetEntry h1 6 "branch")
        = some (.ref 5)
    ∧ (hupdate applF h0 0 3).bind (fun h1 => hgetAttr h1 5 "street")
        = some (.prim (.str "other street"))
    ∧ (hupdate applF h0 0 3).bind (fun h1 =>
        (hsetAttr h1 5 "street" (.prim (.str "CHANGED"))).bind (fun h2 =>
          hgetAttr h2 5 "street")) = some (.prim (.str "CHANGED"))
    ∧ (hupdate applF h0 0 3).bind (fun h1 => h1[3]?) = h0[3]? := by decide

/-- Claim C7 witness: the pointwise update clause at a concrete one-field
object. -/
theorem C7_update_frame_witness :
    ∃ out, vo_update (.cons "n" (.primitive "n" (.flag true)) .nil)
        (.cons "n" (.int 1) .nil) (.cons "n" (.int 2) .nil) = some out
      ∧ out.lookup "n" = some (.int 2) := by
  obtain ⟨out, hout, hpt⟩ := C7_update_frame.1
    (.cons "n" (.primitive "n" (.flag true)) .nil) (by decide)
    (.cons "n" (.int 1) .nil) (.cons "n" (.int 2) .nil)
    (by
      simp only [RepVals, Rep]
      exact ⟨.int 1, .nil, rfl, Or.inr (Or.inl ⟨1, rfl⟩), rfl⟩)
    (by
      simp only [RepVals, Rep]
      exact ⟨.int 2, .nil, rfl, Or.inr (Or.inl ⟨2, rfl⟩), rfl⟩)
  obtain ⟨r, hr, hl⟩ := hpt "n" (.primitive "n" (.flag true)) (by decide)
  have hr2 : Val.int 2 = r := by simpa [Field.merge, ValDict.lookup] using hr
  exact ⟨out, hout, by rw [hl, ← hr2]⟩

/-- Claim C8: a non-null Datetime value dehydrates to the fixed
space-separated zone-less format, publicizes to ISO-8601 with `T` and a zone
offset, and hydrate parses the space-separated format back, attaching UTC —
with the spec's concrete example strings. -/
theorem C8_datetime_formats :
    (∀ k p y m d h mi s, validDate y m d = true → validTime h mi s = true →
      Field.dehydrate (.datetime k p) (.datetime y m d h mi s 0 true)
          = some (.str (fmtDatetime y m d h mi s))
        ∧ Field.make_public_value (.datetime k p) (.datetime y m d h mi s 0 true)
          = some (.str (isoDatetime y m d h mi s 0 true))
        ∧ Field.hydrate (.datetime k p) (.str (fmtDatetime y m d h mi s))
          = some (.datetime y m d h mi s 0 true))
    ∧ fmtDatetime 2015 9 22 17 58 36 = "2015-09-22 17:58:36"
    ∧ isoDatetime 2015 9 22 17 58 36 0 true = "2015-09-22T17:58:36+00:00" := by
  refine ⟨?_, by decide, by decide⟩
  intro k p y m d h mi s hvd hvt
  refine ⟨rfl, rfl, ?_⟩
  simp [Field.hydrate, parseDatetime_fmtDatetime y m d h mi s hvd hvt]

/-- Claim C8 witness: the three format facts at the spec's example
timestamp. -/
theorem C8_datetime_formats_witness :
    Field.dehydrate (.datetime "k" (.flag true)) (.datetime 2015 9 22 17 58 36 0 true)
        = some (.str (fmtDatetime 2015 9 22 17 58 36))
    ∧ Field.make_public_value (.datetime "k" (.flag true))
        (.datetime 2015 9 22 17 58 36 0 true)
        = some (.str (isoDatetime 2015 9 22 17 58 36 0 true))
    ∧ Field.hydrate (.datetime "k" (.flag true)) (.str (fmtDatetime 2015 9 22 17 58 36))
        = some (.datetime 2015 9 22 17 58 36 0 true) :=
  C8_datetime_formats.1 "k" (.flag true) 2015 9 22 17 58 36 (by decide) (by decide)

/-- Claim C9: Decimal dehydration and publication produce the same exact
fixed-point text, which never contains an exponent marker; the value written
`2.6E-2` parses to coefficient 26 with exponent -3 and formats to the
literal `"0.026"`. -/
theorem C9_decimal_fixed_point :
    (∀ k p (neg : Bool) (c : Nat) (e : Int),
      Field.dehydrate (.dec k p) (.dec neg c e) = some (.str (formatFixed neg c e))
        ∧ Field.make_public_value (.dec k p) (.dec neg c e)
          = some (.str (formatFixed neg c e))
        ∧ ∀ ch ∈ (formatFixed neg c e).data, ch ≠ 'e' ∧ ch ≠ 'E')
    ∧ parseDec "2.6E-2" = some (false, 26, -3)
    ∧ formatFixed false 26 (-3) = "0.026" := by
  refine ⟨?_, by decide, by decide⟩
  intro k p neg c e
  refine ⟨rfl, rfl, ?_⟩
  intro ch hch
  have h58 : ch.toNat < 58 :=
    mem_formatFixedChars neg c e ch (by simpa [formatFixed] using hch)
  constructor
  · intro heq
    rw [heq] at h58
    exact absurd h58 (by decide)
  · intro heq
    rw [heq] at h58
    exact absurd h58 (by decide)

/-- Claim C9 witness: the formatting clauses at the concrete value 0.026. -/
theorem C9_decimal_fixed_point_witness :
    Field.dehydrate (.dec "k" (.flag true)) (.dec false 26 (-3))
        = some (.str (formatFixed false 26 (-3)))
    ∧ ('0' ≠ 'e' ∧ '0' ≠ 'E') :=
  ⟨(C9_decimal_fixed_point.1 "k" (.flag true) false 26 (-3)).1,
   (C9_decimal_fixed_point.1 "k" (.flag true) false 26 (-3)).2.2 '0' (by decide)⟩

/-- Claim C10: hydration and construction bind exactly the declared fields —
the hydrated mapping's keys are exactly the declared dict keys and the
constructed values are keyed exactly by the declared attribute names;
undeclared input keys are ignored (inputs agreeing on the declared keys
hydrate identically), a missing key hydrates the field from null, and
hydrate-then-construct succeeds whenever each declared field can hydrate its
own input slot. -/
theorem C10_declared_fields :
    ∀ fl, FieldList.wf fl = true → ∀ raw : ValDict,
      (∀ name f, fl.find? name = some f →
        (Field.hydrate f ((raw.lookup f.key).getD .none)).isSome = true) →
      ∃ hps rps,
        hydrateValuesPairs fl raw = some hps
        ∧ hps.map Prod.fst = fl.keysOf
        ∧ constructPairs fl (ValDict.ofPairs hps) = some rps
        ∧ rps.map Prod.fst = fl.names
        ∧ (∀ name f, fl.find? name = some f →
            ∃ v, Field.hydrate f ((raw.lookup f.key).getD .none) = some v
              ∧ (ValDict.ofPairs hps).lookup f.key = some v)
        ∧ (∀ raw2 : ValDict, (∀ k2 ∈ fl.keysOf, raw2.lookup k2 = raw.lookup k2) →
            hydrateValuesPairs fl raw2 = some hps) := by
  intro fl hwf raw htot
  have htot2 : ∀ name f, fl.find? name = some f →
      (Field.hydrate f ((raw.lookup (keyOr f.key name)).getD .none)).isSome := by
    intro name f hf
    rw [keyOr_eq f.key name (find?_wf_parts fl hwf name f hf).2]
    exact htot name f hf
  have h1 := hydrateValuesPairs_total fl hwf raw htot2
  cases hh : hydrateValuesPairs fl raw with
  | none => rw [hh] at h1; simp at h1
  | some hps =>
    obtain ⟨rps, hc⟩ := constructPairs_on_hydrated fl hwf raw hps hh
    refine ⟨hps, rps, rfl, ?_, hc, constructPairs_keys fl _ rps hc, ?_, ?_⟩
    · rw [hydrateValuesPairs_keys fl raw hps hh, keyOrKeys_eq_keysOf fl hwf]
    · intro name f hf
      obtain ⟨v, hv, hl⟩ := hydrateValuesPairs_lookup fl hwf raw hps hh name f hf
      rw [keyOr_eq f.key name (find?_wf_parts fl hwf name f hf).2] at hv hl
      exact ⟨v, hv, hl⟩
    · intro raw2 hagree
      rw [← hh]
      refine hydrateValuesPairs_congr fl raw2 raw ?_
      intro k2 hk2
      rw [keyOrKeys_eq_keysOf fl hwf] at hk2
      exact hagree k2 hk2

/-- Claim C10 witness: a mapping with an extra undeclared key hydrates, the
declared field gets its value, and the extra key is ignored. -/
theorem C10_declared_fields_witness :
    ∃ hps, hydrateValuesPairs (.cons "n" (.primitive "n" (.flag true)) .nil)
        (.cons "extra" (.int 7) (.cons "n" (.int 1) .nil)) = some hps
      ∧ (ValDict.ofPairs hps).lookup "n" = some (.int 1) := by
  obtain ⟨hps, rps, hh, hk, hc, hck, hpt, hcongr⟩ := C10_declared_fields
    (.cons "n" (.primitive "n" (.flag true)) .nil) (by decide)
    (.cons "extra" (.int 7) (.cons "n" (.int 1) .nil))
    (by
      intro name f hf
      rw [FieldList.find?] at hf
      by_cases he : name = "n"
      · rw [if_pos he] at hf
        have hf2 : Field.primitive "n" (.flag true) = f := by simpa using hf
        rw [← hf2]
        decide
      · rw [if_neg he] at hf
        rw [FieldList.find?] at hf
        simp at hf)
  obtain ⟨v, hv, hl⟩ := hpt "n" (.primitive "n" (.flag true)) (by decide)
  have hv2 : Val.int 1 = v := by
    simpa [Field.hydrate, ValDict.lookup, Field.key] using hv
  have hl2 := hl
  simp only [Field.key] at hl2
  exact ⟨hps, hh, by rw [hl2, ← hv2]⟩

end VO
